import Mathlib

/-!
# The HDBSCAN cluster tree of `src/hdcluster.cpp`

A shallow embedding of the class `HDCluster` and of its member functions,
followed by the properties of the condensation, selection and export passes.

Conventions of the embedding.

* A value of type `HDCluster` is what a C++ `HDCluster*` points to: either
  `nullptr`, or an object with its data members and its `left` and `right`
  pointers.  A node owns its children, so the pointer structure is a tree.
* A member function that mutates `this` becomes a function returning the
  object after the call.  `stop(...)` becomes `Except.error` with the message
  of the source.  The checks that call `stop` stand under `#ifdef DEBUG` in the
  source; the embedding is the code with `DEBUG` defined.  A member access
  through `nullptr` (undefined behaviour in C++) is reported as the error
  `nullDeref`.
* `arma::uword` and `unsigned int` values are natural numbers.  `sz` counts
  leaf objects of a tree held in memory and `rank` is bounded by its height,
  so the 64-bit additions of the source do not wrap.
* A finite `double` is the rational number it stands for.  The arithmetic on
  `double` is given twice.  The functions without a suffix compute exactly, so
  that `INFINITY` can only arise as the quotient `1/d` for `d = 0`, which is where
  the merge constructor stops: they serve for the properties in which no rounded
  value decides anything (shapes, ids, sizes, flags that hold in either branch
  of a comparison, copies of a stored value, inequalities that rounding keeps).
  The functions with the suffix `64` round every operation to binary64
  (`fl`: round to nearest, ties to even, with gradual underflow) and serve for
  the properties that depend on the rounded values: the stop of the merge
  constructor, the value of `sum_lambda_p`, the comparison in
  `determineStability`.  The argument `d` of the constructor is a `Double` with
  its infinities, signed zeros and NaN; the values stored in a node are finite,
  and an overflow of a sum or product of stored values is not modelled.
* The `parent` back-pointer is represented by the `id` of the object it points
  to (`none` for `nullptr`); the code only ever tests it against `nullptr`.
* The progress bar `Progress& p` has no effect on the tree and is left out.
* The OpenMP pragmas of `condense` are left out: the two recursive calls are
  evaluated one after the other, the left one first.
* A `std::vector` that is indexed by a point id is a function of the index.
-/

/-- The data members of one `HDCluster` object, other than `left` and `right`. -/
structure Members where
  sz : Nat
  id : Nat
  rank : Nat
  selected : Bool
  stability : ℚ
  lambda_birth : ℚ
  lambda_death : ℚ
  sum_lambda_p : ℚ
  fallenPoints : List (Nat × ℚ)
  parent : Option Nat
  deriving DecidableEq

/-- The target of an `HDCluster*`. -/
inductive HDCluster where
  | nullptr : HDCluster
  | node (m : Members) (left right : HDCluster) : HDCluster
  deriving DecidableEq

/-- Error reported for a member access through `nullptr`. -/
def nullDeref : String := "nullptr dereference"

namespace HDCluster

/-- The test `p == nullptr`. -/
def isNull : HDCluster → Bool
  | nullptr => true
  | node _ _ _ => false

/-- The member `sz` read through a pointer (0 for `nullptr`, never used there). -/
def sz : HDCluster → Nat
  | nullptr => 0
  | node m _ _ => m.sz

/-- Modelled from the spec: the default member initialisers of the class are in
`hdbscan.h`, which is not part of the sources.  A fresh object has rank 0, is
not selected, has stability 0, `lambda_birth = 0`, `sum_lambda_p = 0`, no fallen
points and null `parent`.  The initial `lambda_death` is a stand-in: the merge
constructor overwrites it and no function reads it from a leaf of a tree built
with the two constructors. -/
def fresh (sz id : Nat) : Members :=
  { sz := sz, id := id, rank := 0, selected := false, stability := 0,
    lambda_birth := 0, lambda_death := 0, sum_lambda_p := 0,
    fallenPoints := [], parent := none }

/-- The constructor `HDCluster(const arma::uword& id) : sz(1), id(id)`. -/
def leaf (id : Nat) : HDCluster :=
  node (fresh 1 id) nullptr nullptr

/-- The statements `a->parent = this; a->lambda_birth = lambda_death;` of the
merge constructor, applied to the child `a`. -/
def adopt (id : Nat) (lambda_death : ℚ) : HDCluster → HDCluster
  | nullptr => nullptr
  | node m l r => node { m with parent := some id, lambda_birth := lambda_death } l r

/-- The constructor `HDCluster(HDCluster* a, HDCluster* b, id, d)`. -/
def merge (a b : HDCluster) (id : Nat) (d : ℚ) : Except String HDCluster :=
  match a, b with
  | node ma _ _, node mb _ _ =>
    -- lambda_death(1/d); if (lambda_death == INFINITY) stop("death is infinity");
    if d = 0 then Except.error "death is infinity"
    else
      let lambda_death : ℚ := 1 / d
      let m : Members :=
        { fresh (ma.sz + mb.sz) id with
          rank := max ma.rank mb.rank + 1, lambda_birth := 0, lambda_death := lambda_death }
      let a1 := adopt id lambda_death a
      let b1 := adopt id lambda_death b
      if ma.sz < mb.sz then Except.ok (node m a1 b1) else Except.ok (node m b1 a1)
  | _, _ => Except.error nullDeref

/-- The effect of `mergeUp` on the data members of `this`, given the data
members of `left`: a child of size 1 is recorded as a fallen point with its
`lambda_birth`, any other child contributes its `sum_lambda_p`; in both cases
the child's `fallenPoints` are spliced to the end of the list. -/
def absorb (m ml : Members) : Members :=
  let m1 : Members :=
    if ml.sz = 1 then
      { m with sum_lambda_p := m.sum_lambda_p + ml.lambda_birth,
               fallenPoints := m.fallenPoints ++ [(ml.id, ml.lambda_birth)] }
    else { m with sum_lambda_p := m.sum_lambda_p + ml.sum_lambda_p }
  { m1 with fallenPoints := m1.fallenPoints ++ ml.fallenPoints }

/-- The member function `mergeUp`.  After the splice the list of `left` is empty. -/
def mergeUp : HDCluster → Except String HDCluster
  | node m (node ml ll lr) r =>
    Except.ok (node (absorb m ml) (node { ml with fallenPoints := [] } ll lr) r)
  | _ => Except.error nullDeref

/-- The member function `condenseSingleton`.  The check against `INFINITY`
cannot fire on finite values. -/
def condenseSingleton (this : HDCluster) : Except String HDCluster := do
  match (← mergeUp this) with
  | node m (node ml ll lr) _ =>
    -- right = left->right; left = keep->left; the shell `keep` is dropped
    Except.ok (node { m with lambda_death := max m.lambda_death ml.lambda_death } ll lr)
  | _ => Except.error nullDeref

/-- The member function `condenseTooSmall`.  The check against `INFINITY`
cannot fire on finite values. -/
def condenseTooSmall (this : HDCluster) : Except String HDCluster := do
  match (← mergeUp this) with
  | node m (node _ _ _) r =>
    -- left->left = nullptr; left->right = nullptr; delete left; left = nullptr;
    Except.ok (node m nullptr r)
  | _ => Except.error nullDeref

/-- The call `swap(left, right)`. -/
def swapChildren : HDCluster → HDCluster
  | nullptr => nullptr
  | node m l r => node m r l

/-- The assignment `rank = (left == nullptr) ? 0 : max(left->rank, right->rank) + 1`. -/
def updateRank : HDCluster → Except String HDCluster
  | node m nullptr r => Except.ok (node { m with rank := 0 } nullptr r)
  | node m (node ml ll lr) (node mr rl rr) =>
    Except.ok (node { m with rank := max ml.rank mr.rank + 1 } (node ml ll lr) (node mr rl rr))
  | _ => Except.error nullDeref

/-- The assignment `rank = 0`. -/
def resetRank : HDCluster → HDCluster
  | nullptr => nullptr
  | node m l r => node { m with rank := 0 } l r

/-- The member function `innerCondense`. -/
def innerCondense (minPts : Nat) (this : HDCluster) : Except String HDCluster :=
  match this with
  | node _ (node ml _ _) _ =>
    if ml.sz < minPts then do
      let t1 ← condenseTooSmall this
      let t2 := swapChildren t1
      match t2 with
      | node _ (node ml2 _ _) _ =>
        if ml2.sz < minPts then do
          let t3 ← condenseTooSmall t2
          Except.ok (resetRank t3)
        else do
          let t3 ← condenseSingleton t2
          updateRank t3
      | _ => Except.error nullDeref
    else Except.ok this
  | _ => Except.error nullDeref

/-- The member function `condense`.  The two recursive calls are run one after
the other, left first. -/
def condense (minPts : Nat) : Nat → HDCluster → Except String HDCluster
  | _, nullptr => Except.error nullDeref
  | level, node m l r =>
    if l.isNull then Except.ok (node m l r)
    else do
      let newlevel := if level = 0 then level else level - 1
      let l1 ← condense minPts newlevel l
      let r1 ← condense minPts newlevel r
      innerCondense minPts (node m l1 r1)

/-- The member function `deselect`.  The call is only made on non-null
pointers; on a node with a null `right` below a non-null `left` the source
would dereference `nullptr`, the model leaves `nullptr` as it is. -/
def deselect : HDCluster → HDCluster
  | nullptr => nullptr
  | node m l r =>
    if m.selected then node { m with selected := false } l r
    else if l.isNull then node m l r
    else node m (deselect l) (deselect r)

/-- The member function `determineStability`: the object after the call and
the value returned.  The two recursive calls work on disjoint subtrees; they are
run left first. -/
def determineStability (minPts : Nat) : HDCluster → Except String (HDCluster × ℚ)
  | nullptr => Except.error nullDeref
  | node m l r =>
    if m.sz < minPts ∧ m.parent.isSome then Except.error "Condense failed"
    else
      let stability : ℚ := m.sum_lambda_p - m.lambda_birth * (m.fallenPoints.length : ℚ)
      if l.isNull then
        if minPts ≤ m.sz then
          Except.ok (node { m with stability := stability, selected := true } l r, stability)
        else Except.ok (node { m with stability := stability } l r, stability)
      else do
        let (l1, sl) ← determineStability minPts l
        let (r1, sr) ← determineStability minPts r
        let childStabilities : ℚ := sl + sr
        let stability : ℚ := stability + m.lambda_death * ((l1.sz + r1.sz : Nat) : ℚ)
        if stability > childStabilities then
          Except.ok (node { m with stability := stability, selected := true }
            (deselect l1) (deselect r1), stability)
        else
          Except.ok (node { m with stability := childStabilities } l1 r1, childStabilities)

/-- The member function `determineSubStability`. -/
def determineSubStability (minPts : Nat) : HDCluster → Except String HDCluster
  | nullptr => Except.error nullDeref
  | node m l r =>
    if m.sz < minPts ∧ m.parent.isSome then Except.error "Condense failed"
    else
      let stability : ℚ := m.sum_lambda_p - m.lambda_birth * (m.fallenPoints.length : ℚ)
      if l.isNull then Except.ok (node { m with stability := stability } l r)
      else do
        let (l1, _) ← determineStability minPts l
        let (r1, _) ← determineStability minPts r
        Except.ok (node { m with stability := stability } l1 r1)

/-- The output array `double* ret`, as a function of the index; `none` stands
for `NA_REAL`. -/
abbrev Ret := Nat → Option ℚ

/-- The assignment `ret[i] = x`. -/
def store (ret : Ret) (i : Nat) (x : Option ℚ) : Ret :=
  fun j => if j = i then x else ret j

/-- The `for_each` over `fallenPoints` in `extract`. -/
def writePoints (currentSelectedCluster : Nat) : List (Nat × ℚ) → Ret → Ret
  | [], ret => ret
  | it :: rest, ret =>
    let ret1 := store ret (it.1 * 2)
      (if currentSelectedCluster = 0 then none else some (currentSelectedCluster : ℚ))
    writePoints currentSelectedCluster rest (store ret1 (it.1 * 2 + 1) (some it.2))

/-- The four-argument member function `extract`: the array and the counter
`selectedClusterCnt` after the call. -/
def extractFrom : HDCluster → Ret → Nat → Nat → Except String (Ret × Nat)
  | nullptr, _, _, _ => Except.error nullDeref
  | node m l r, ret, selectedClusterCnt, currentSelectedCluster =>
    -- if (selected) currentSelectedCluster = selectedClusterCnt++;
    let cur := if m.selected then selectedClusterCnt else currentSelectedCluster
    let cnt := if m.selected then selectedClusterCnt + 1 else selectedClusterCnt
    let ret1 := writePoints cur m.fallenPoints ret
    if l.isNull then Except.ok (ret1, cnt)
    else do
      let (ret2, cnt2) ← extractFrom l ret1 cnt cur
      extractFrom r ret2 cnt2 cur

/-- The three-argument member function `extract`, which passes `NA_REAL` for the
parameter `arma::uword currentSelectedCluster`.  The result of converting
`NA_REAL` to `arma::uword` is not fixed by the language; it is the parameter
`naIndex`. -/
def extract (naIndex : Nat) (this : HDCluster) (ret : Ret) (selectedClusterCnt : Nat) :
    Except String (Ret × Nat) :=
  extractFrom this ret selectedClusterCnt naIndex

/-! ## Specification vocabulary -/

/-- A tree obtained from the leaf constructor and the merge constructor only. -/
inductive Built : HDCluster → Prop
  | leaf (id : Nat) : Built (leaf id)
  | merge {a b n : HDCluster} (id : Nat) (d : ℚ) :
      Built a → Built b → HDCluster.merge a b id d = Except.ok n → Built n

/-- The shape of a tree before condensation: a node without fallen points is
either a childless node of size 1, or has two children, the left one not larger
than the right one, whose sizes add up to its own. -/
def Raw : HDCluster → Prop
  | nullptr => False
  | node m l r =>
    m.fallenPoints = [] ∧
      ((l = nullptr ∧ r = nullptr ∧ m.sz = 1) ∨
        (Raw l ∧ Raw r ∧ l.sz ≤ r.sz ∧ m.sz = l.sz + r.sz))

/-- The condenser postcondition: every node has no children, or has two
children that both have `sz ≥ minPts`. -/
def Condensed (minPts : Nat) : HDCluster → Prop
  | nullptr => True
  | node _ l r =>
    (l = nullptr ∧ r = nullptr) ∨
      (l ≠ nullptr ∧ r ≠ nullptr ∧ minPts ≤ l.sz ∧ minPts ≤ r.sz ∧
        Condensed minPts l ∧ Condensed minPts r)

/-- The ids of the childless nodes of a tree, left to right. -/
def leafIds : HDCluster → List Nat
  | nullptr => []
  | node m l r => if l.isNull && r.isNull then [m.id] else leafIds l ++ leafIds r

/-- The point ids held by a tree: for every node the ids in its `fallenPoints`,
and the node's own id when it is an untouched leaf (childless, of size 1, with
empty `fallenPoints`). -/
def points : HDCluster → List Nat
  | nullptr => []
  | node m l r =>
    m.fallenPoints.map Prod.fst ++
      (if l.isNull && r.isNull && m.sz == 1 && m.fallenPoints.isEmpty then [m.id] else []) ++
      points l ++ points r

/-- The tree of a successful construction (`nullptr` when it stopped). -/
def okOr (e : Except String HDCluster) : HDCluster :=
  match e with
  | Except.ok t => t
  | Except.error _ => nullptr

/-- Example: the leaves 0 and 1 merged at distance 1. -/
def pair01 : HDCluster := okOr (merge (leaf 0) (leaf 1) 10 1)

/-- Example: `pair01` merged with the leaf 2 at distance 2. -/
def chain3 : HDCluster := okOr (merge pair01 (leaf 2) 11 2)

/-- Every node has zero or two children. -/
def ZeroOrTwo : HDCluster → Prop
  | nullptr => True
  | node _ l r =>
    (l = nullptr ∧ r = nullptr) ∨ (l ≠ nullptr ∧ r ≠ nullptr ∧ ZeroOrTwo l ∧ ZeroOrTwo r)

/-- No node of the tree is selected. -/
def NoneSelected : HDCluster → Prop
  | nullptr => True
  | node m l r => m.selected = false ∧ NoneSelected l ∧ NoneSelected r

/-- No selected node has a selected proper descendant. -/
def Antichain : HDCluster → Prop
  | nullptr => True
  | node m l r =>
    (m.selected = true → NoneSelected l ∧ NoneSelected r) ∧ Antichain l ∧ Antichain r

/-- The value `sum_lambda_p - lambda_birth * fallenPoints.size()`. -/
def ownBase (m : Members) : ℚ :=
  m.sum_lambda_p - m.lambda_birth * (m.fallenPoints.length : ℚ)

/-- The score `own` of a node with children: `ownBase` plus
`lambda_death * (left->sz + right->sz)`. -/
def ownScore (m : Members) (l r : HDCluster) : ℚ :=
  ownBase m + m.lambda_death * ((l.sz + r.sz : Nat) : ℚ)

/-- Every node of the tree has `sz ≥ minPts`. -/
def AllBig (minPts : Nat) : HDCluster → Prop
  | nullptr => True
  | node m l r => minPts ≤ m.sz ∧ AllBig minPts l ∧ AllBig minPts r

/-- Every childless node of the tree has `sz ≥ minPts`. -/
def LeavesBig (minPts : Nat) : HDCluster → Prop
  | nullptr => True
  | node m l r =>
    (l = nullptr → r = nullptr → minPts ≤ m.sz) ∧ LeavesBig minPts l ∧ LeavesBig minPts r

/-- The number of selected nodes of a tree. -/
def countSelected : HDCluster → Nat
  | nullptr => 0
  | node m l r => (if m.selected then 1 else 0) + countSelected l + countSelected r

/-- Example: `pair01` after `determineStability(1)`: the root is selected, the
two leaves have been deselected. -/
def pair01Selected : HDCluster :=
  node
    { sz := 2, id := 10, rank := 1, selected := true, stability := 2, lambda_birth := 0,
      lambda_death := 1, sum_lambda_p := 0, fallenPoints := [], parent := none }
    (node { fresh 1 1 with lambda_birth := 1, parent := some 10 } nullptr nullptr)
    (node { fresh 1 0 with lambda_birth := 1, parent := some 10 } nullptr nullptr)

/-- Example: a leaf as it stands inside `pair01`. -/
def leafInPair (id : Nat) : HDCluster :=
  node { fresh 1 id with lambda_birth := 1, parent := some 10 } nullptr nullptr

/-- Example: the data members of the root of `pair01`. -/
def pairMembers : Members := { fresh 2 10 with rank := 1, lambda_death := 1 }

/-- Example: the leaves 2 and 3 merged at distance 1. -/
def pair23 : HDCluster := okOr (merge (leaf 2) (leaf 3) 11 1)

/-- Example: `pair01` and `pair23` merged at distance 2. -/
def balanced4 : HDCluster := okOr (merge pair01 pair23 12 2)

/-- Example: `balanced4` after `condense(2)` and `determineStability(2)`: an
unselected root above two selected childless nodes that hold two points each. -/
def twoClusters : HDCluster :=
  node
    { sz := 4, id := 12, rank := 2, selected := false, stability := 2, lambda_birth := 0,
      lambda_death := 1 / 2, sum_lambda_p := 0, fallenPoints := [], parent := none }
    (node
      { sz := 2, id := 11, rank := 0, selected := true, stability := 1, lambda_birth := 1 / 2,
        lambda_death := 1, sum_lambda_p := 2, fallenPoints := [(3, 1), (2, 1)],
        parent := some 12 }
      nullptr nullptr)
    (node
      { sz := 2, id := 10, rank := 0, selected := true, stability := 1, lambda_birth := 1 / 2,
        lambda_death := 1, sum_lambda_p := 2, fallenPoints := [(1, 1), (0, 1)],
        parent := some 12 }
      nullptr nullptr)

/-- What `extract` writes at `ret[2 * pointId]` for a carried cluster index. -/
def reported (currentSelectedCluster : Nat) : Option ℚ :=
  if currentSelectedCluster = 0 then none else some (currentSelectedCluster : ℚ)

/-- Specification of `extract`, following the description of the export: the
entries `(pointId, index, scale)` of all `fallenPoints` in preorder, where
`index` is the number of the nearest selected node among the node itself and its
ancestors, or `cur` when there is none, and the selected nodes are numbered in
preorder starting at `cnt`. -/
def specAssignments (cnt cur : Nat) : HDCluster → List (Nat × Nat × ℚ)
  | nullptr => []
  | node m l r =>
    let own := if m.selected then cnt else cur
    let next := if m.selected then cnt + 1 else cnt
    m.fallenPoints.map (fun it => (it.1, own, it.2)) ++ specAssignments next own l ++
      specAssignments (next + countSelected l) own r

/-- The array after the writes `ret[2 * pointId] = reported index` and
`ret[2 * pointId + 1] = scale`, made in the order of the list. -/
def writeAll : List (Nat × Nat × ℚ) → Ret → Ret
  | [], ret => ret
  | (p, c, s) :: rest, ret =>
    writeAll rest (store (store ret (p * 2) (reported c)) (p * 2 + 1) (some s))

/-- The ids in the `fallenPoints` of all nodes, in preorder. -/
def fallenIds : HDCluster → List Nat
  | nullptr => []
  | node m l r => m.fallenPoints.map Prod.fst ++ fallenIds l ++ fallenIds r

/-- The steps of `condense` on a tree of the pre-condensation shape, as a
relation between the tree before and the tree after: a leaf stays; a node whose
children are both smaller than `minPts` absorbs both; a node whose left child
only is smaller absorbs it and takes the place of its right child; any other
node keeps its condensed children. -/
inductive CondensesTo (minPts : Nat) : HDCluster → HDCluster → Prop
  | leaf (m : Members) : m.sz = 1 → m.fallenPoints = [] →
      CondensesTo minPts (node m nullptr nullptr) (node m nullptr nullptr)
  | foldBoth {m ml mr : Members} {l r : HDCluster} :
      m.fallenPoints = [] → m.sz = l.sz + r.sz →
      CondensesTo minPts l (node ml nullptr nullptr) →
      CondensesTo minPts r (node mr nullptr nullptr) →
      ml.sz < minPts → mr.sz < minPts →
      CondensesTo minPts (node m l r)
        (node { absorb (absorb m ml) mr with rank := 0 } nullptr nullptr)
  | keep {m ml mr : Members} {l r rl rr : HDCluster} (rk : Nat) :
      m.fallenPoints = [] → m.sz = l.sz + r.sz →
      CondensesTo minPts l (node ml nullptr nullptr) →
      CondensesTo minPts r (node mr rl rr) →
      ml.sz < minPts → minPts ≤ mr.sz →
      CondensesTo minPts (node m l r)
        (node { absorb (absorb m ml) mr with
          lambda_death := max (absorb (absorb m ml) mr).lambda_death mr.lambda_death,
          rank := rk } rl rr)
  | unchanged {m : Members} {l r l1 r1 : HDCluster} :
      m.fallenPoints = [] → m.sz = l.sz + r.sz →
      CondensesTo minPts l l1 → CondensesTo minPts r r1 →
      l1 ≠ nullptr → r1 ≠ nullptr → minPts ≤ l1.sz → minPts ≤ r1.sz →
      CondensesTo minPts (node m l r) (node m l1 r1)

/-- Every node has `sum_lambda_p = 0`. -/
def ZeroSums : HDCluster → Prop
  | nullptr => True
  | node m l r => m.sum_lambda_p = 0 ∧ ZeroSums l ∧ ZeroSums r

/-- Every node's `sz` is the sum of the `sz` of its children and of the number
of its `fallenPoints`, plus 1 for a childless node without fallen points. -/
def SzOK : HDCluster → Prop
  | nullptr => True
  | node m l r =>
    m.sz = l.sz + r.sz + m.fallenPoints.length +
        (if l.isNull && r.isNull && m.fallenPoints.isEmpty then 1 else 0) ∧
      SzOK l ∧ SzOK r

/-- The `fallenPoints` of all nodes of a tree. -/
def allFallen : HDCluster → List (Nat × ℚ)
  | nullptr => []
  | node m l r => m.fallenPoints ++ allFallen l ++ allFallen r

/-- The points held by a tree with their scales: the `fallenPoints` of every
node, and for an untouched leaf its id with its `lambda_birth`. -/
def held : HDCluster → List (Nat × ℚ)
  | nullptr => []
  | node m l r =>
    m.fallenPoints ++
      (if l.isNull && r.isNull && m.sz == 1 && m.fallenPoints.isEmpty
        then [(m.id, m.lambda_birth)] else []) ++
      held l ++ held r

/-- The childless nodes of a tree, each as its id with its `lambda_birth`. -/
def leafBirths : HDCluster → List (Nat × ℚ)
  | nullptr => []
  | node m l r =>
    if l.isNull && r.isNull then [(m.id, m.lambda_birth)] else leafBirths l ++ leafBirths r

/-- Every node other than the root has `sz ≥ minPts`. -/
def BelowRootBig (minPts : Nat) : HDCluster → Prop
  | nullptr => True
  | node _ l r => AllBig minPts l ∧ AllBig minPts r

/-- Every node with children has a left child of size 1. -/
def Caterpillar : HDCluster → Prop
  | nullptr => True
  | node _ l r => (l = nullptr ∧ r = nullptr) ∨ (l.sz = 1 ∧ Caterpillar l ∧ Caterpillar r)

/-- The test `left == nullptr && right == nullptr` on a non-null pointer. -/
def childless : HDCluster → Bool
  | nullptr => false
  | node _ l r => l.isNull && r.isNull

/-- The entry recorded for `a` when it is merged at distance `d`: for a childless
node its id with `1/d`, nothing for a node with children. -/
def consumedLeaf (a : HDCluster) (d : ℚ) : List (Nat × ℚ) :=
  match a with
  | nullptr => []
  | node m l r => if (node m l r).childless then [(m.id, 1 / d)] else []

/-- A tree built with the two constructors, together with the leaves that have
been merged so far, each as its id with `1/d` of the merge whose direct child it
is. -/
inductive BuiltWith : HDCluster → List (Nat × ℚ) → Prop
  | leaf (id : Nat) : BuiltWith (leaf id) []
  | merge {a b n : HDCluster} {pa pb : List (Nat × ℚ)} (id : Nat) (d : ℚ) :
      BuiltWith a pa → BuiltWith b pb → HDCluster.merge a b id d = Except.ok n →
      BuiltWith n (pa ++ pb ++ consumedLeaf a d ++ consumedLeaf b d)

/-- The property that the size of every node is 1 plus the sizes of its children
plus the number of its `fallenPoints`. -/
def SzPlusOne : HDCluster → Prop
  | nullptr => True
  | node m l r => m.sz = 1 + (l.sz + r.sz) + m.fallenPoints.length ∧ SzPlusOne l ∧ SzPlusOne r

/-- Example: `chain3` after `condense(2)`. -/
def chain3Condensed : HDCluster :=
  node
    { sz := 3, id := 11, rank := 0, selected := false, stability := 0, lambda_birth := 0,
      lambda_death := 1, sum_lambda_p := 5 / 2, fallenPoints := [(2, 1 / 2), (1, 1), (0, 1)],
      parent := none }
    nullptr nullptr

/-- Every node satisfies `sum_lambda_p ≥ lambda_birth * |fallenPoints|`, and
every node with children has `lambda_death ≥ 0`. -/
def ScalesOrdered : HDCluster → Prop
  | nullptr => True
  | node m l r =>
    m.lambda_birth * (m.fallenPoints.length : ℚ) ≤ m.sum_lambda_p ∧
      (l ≠ nullptr → 0 ≤ m.lambda_death) ∧ ScalesOrdered l ∧ ScalesOrdered r

/-- The member `stability` read through a pointer (0 for `nullptr`). -/
def stability : HDCluster → ℚ
  | nullptr => 0
  | node m _ _ => m.stability

/-- The `selected` flags along every path from the root to a childless node. -/
def pathFlags : HDCluster → List (List Bool)
  | nullptr => []
  | node m l r =>
    if l.isNull && r.isNull then [[m.selected]]
    else (pathFlags l ++ pathFlags r).map (fun p => m.selected :: p)

/-- The selected nodes form a cut: every path from the root to a childless node
contains exactly one selected node. -/
def IsCut (t : HDCluster) : Prop :=
  ∀ p ∈ pathFlags t, p.count true = 1

/-- The own score of a node: `sum_lambda_p - lambda_birth * |fallenPoints|`, plus
`lambda_death * (left.sz + right.sz)` for a node with children. -/
def ownOf (m : Members) (l r : HDCluster) : ℚ :=
  if l.isNull then ownBase m else ownScore m l r

/-- The total own score of the selected nodes. -/
def selectedScore : HDCluster → ℚ
  | nullptr => 0
  | node m l r => (if m.selected then ownOf m l r else 0) + selectedScore l + selectedScore r

/-- The tree with every `selected` flag and every `stability` cleared: two trees
with the same image differ in nothing else. -/
def unflag : HDCluster → HDCluster
  | nullptr => nullptr
  | node m l r => node { m with selected := false, stability := 0 } (unflag l) (unflag r)

/-- The member `left` read through a pointer. -/
def left : HDCluster → HDCluster
  | nullptr => nullptr
  | node _ l _ => l

/-- The member `right` read through a pointer. -/
def right : HDCluster → HDCluster
  | nullptr => nullptr
  | node _ _ r => r

/-- The member `selected` read through a pointer. -/
def selected : HDCluster → Bool
  | nullptr => false
  | node m _ _ => m.selected

/-- The member `fallenPoints` read through a pointer. -/
def fallenPoints : HDCluster → List (Nat × ℚ)
  | nullptr => []
  | node m _ _ => m.fallenPoints

/-- The balanced dendrogram on the leaves `i0 … i7`: four pair merges at the
distances `dA dB dC dD`, two merges of pairs at distance 3, the root merge at
distance 4. -/
def balanced8 (i0 i1 i2 i3 i4 i5 i6 i7 : Nat) (dA dB dC dD : ℚ) : HDCluster :=
  okOr (merge
    (okOr (merge (okOr (merge (leaf i0) (leaf i1) 8 dA))
      (okOr (merge (leaf i2) (leaf i3) 9 dB)) 12 3))
    (okOr (merge (okOr (merge (leaf i4) (leaf i5) 10 dC))
      (okOr (merge (leaf i6) (leaf i7) 11 dD)) 13 3))
    14 4)

/-- The ways to give four pair merges the distances 1, 1, 2, 2. -/
def pairDistances : List (ℚ × ℚ × ℚ × ℚ) :=
  [(1, 1, 2, 2), (1, 2, 1, 2), (1, 2, 2, 1), (2, 1, 1, 2), (2, 1, 2, 1), (2, 2, 1, 1)]

/-- The reference arguments of `reportHierarchy`.  The two vectors indexed by
point id are functions of the index: every `fallenPoints` id is taken to be
within their bounds, as the caller sizes them by the number of points. -/
structure Hierarchy where
  clusterCnt : Nat
  nodeMembership : Nat → Nat
  lambdas : Nat → ℚ
  clusterParent : List Nat
  clusterSelected : List Bool
  clusterStability : List ℚ

/-- The assignment `v[i] = x` on a vector seen as a function. -/
def assign {α : Type} (v : Nat → α) (i : Nat) (x : α) : Nat → α :=
  fun j => if j = i then x else v j

/-- The `for_each` over `fallenPoints` in `reportHierarchy`. -/
def recordPoints (thisCluster : Nat) : List (Nat × ℚ) → Hierarchy → Hierarchy
  | [], h => h
  | it :: rest, h =>
    recordPoints thisCluster rest
      { h with nodeMembership := assign h.nodeMembership it.1 thisCluster,
               lambdas := assign h.lambdas it.1 it.2 }

/-- The guarded call `if (p != nullptr) p->reportHierarchy(..., parentCluster)`
of the seven-argument member function `reportHierarchy`. -/
def reportGuarded : HDCluster → Hierarchy → Nat → Hierarchy
  | nullptr, h, _ => h
  | node m l r, h, parentCluster =>
    -- arma::uword thisCluster = clusterCnt++;
    let thisCluster := h.clusterCnt
    let h1 := recordPoints thisCluster m.fallenPoints { h with clusterCnt := h.clusterCnt + 1 }
    let h2 : Hierarchy :=
      { h1 with clusterParent := h1.clusterParent ++ [parentCluster],
                clusterSelected := h1.clusterSelected ++ [m.selected],
                clusterStability := h1.clusterStability ++ [m.stability] }
    reportGuarded r (reportGuarded l h2 thisCluster) thisCluster

/-- The six-argument member function `reportHierarchy`, which passes `NA_REAL`
for the parameter `const arma::uword parentCluster`; `naIndex` is the value of
that conversion. -/
def reportHierarchy (naIndex : Nat) (this : HDCluster) (h : Hierarchy) :
    Except String Hierarchy :=
  if this.isNull then Except.error nullDeref else Except.ok (reportGuarded this h naIndex)

/-- The number of nodes of a tree. -/
def nodeCount : HDCluster → Nat
  | nullptr => 0
  | node _ l r => 1 + nodeCount l + nodeCount r

/-- The nodes of a tree in preorder: node, left subtree, right subtree. -/
def preorder : HDCluster → List Members
  | nullptr => []
  | node m l r => m :: (preorder l ++ preorder r)

/-- Specification of the parent column: with the nodes numbered in preorder from
`first`, the number of the parent of every node, `parent` for the root. -/
def specParents (first parent : Nat) : HDCluster → List Nat
  | nullptr => []
  | node _ l r =>
    parent :: (specParents (first + 1) first l ++
      specParents (first + 1 + nodeCount l) first r)

/-- Specification of the per-point columns: with the nodes numbered in preorder
from `first`, the entries `(pointId, node number, scale)` of all `fallenPoints`
in preorder. -/
def specMembership (first : Nat) : HDCluster → List (Nat × Nat × ℚ)
  | nullptr => []
  | node m l r =>
    m.fallenPoints.map (fun it => (it.1, first, it.2)) ++
      (specMembership (first + 1) l ++ specMembership (first + 1 + nodeCount l) r)

/-- The vector `nodeMembership` after the writes of a list of entries. -/
def membershipAfter : List (Nat × Nat × ℚ) → (Nat → Nat) → (Nat → Nat)
  | [], v => v
  | (p, i, _) :: rest, v => membershipAfter rest (assign v p i)

/-- The vector `lambdas` after the writes of a list of entries. -/
def lambdasAfter : List (Nat × Nat × ℚ) → (Nat → ℚ) → (Nat → ℚ)
  | [], v => v
  | (p, _, s) :: rest, v => lambdasAfter rest (assign v p s)

/-- The result of `reportHierarchy` in terms of the specification columns. -/
def specReport (t : HDCluster) (h : Hierarchy) (parent : Nat) : Hierarchy :=
  { clusterCnt := h.clusterCnt + nodeCount t,
    nodeMembership := membershipAfter (specMembership h.clusterCnt t) h.nodeMembership,
    lambdas := lambdasAfter (specMembership h.clusterCnt t) h.lambdas,
    clusterParent := h.clusterParent ++ specParents h.clusterCnt parent t,
    clusterSelected := h.clusterSelected ++ (preorder t).map Members.selected,
    clusterStability := h.clusterStability ++ (preorder t).map Members.stability }

/-- No node is smaller than one of its children: `sz` counts the points below a
node, as the constructors set it (`sz = a.sz + b.sz`) and `condense` keeps it. -/
def SzMonotone : HDCluster → Prop
  | nullptr => True
  | node m l r => l.sz ≤ m.sz ∧ r.sz ≤ m.sz ∧ SzMonotone l ∧ SzMonotone r

/-! ### Binary64 arithmetic -/

/-- The binary logarithm of `n`, rounded down, computed by halving at most `fuel`
times. -/
def log2Aux : Nat → Nat → Nat
  | 0, _ => 0
  | fuel + 1, n => if n < 2 then 0 else log2Aux fuel (n / 2) + 1

/-- The binary logarithm of `n ≥ 1`, rounded down. -/
def ilog2 (n : Nat) : Nat := log2Aux n n

/-- The exponent `e` of a positive rational `x`: `2^e ≤ x < 2^(e+1)`. -/
def binade (x : ℚ) : ℤ :=
  let e0 : ℤ := (ilog2 x.num.natAbs : ℤ) - (ilog2 x.den : ℤ)
  if (2 : ℚ) ^ e0 ≤ x then e0 else e0 - 1

/-- The integer nearest to `y`, the even one of the two when `y` is half-way. -/
def roundHalfEven (y : ℚ) : ℤ :=
  let f := ⌊y⌋
  let r := y - f
  if r < 1 / 2 then f else if 1 / 2 < r then f + 1 else if f % 2 = 0 then f else f + 1

/-- The exponent that binary64 uses for a positive `x`: the exponent of `x`, and
`-1022` below the normal range. -/
def expo (x : ℚ) : ℤ := max (binade x) (-1022)

/-- The spacing of the binary64 numbers around a positive `x`: `2^(e-52)` for the
exponent `e` that binary64 uses for `x`. -/
def ulp (x : ℚ) : ℚ := (2 : ℚ) ^ (expo x - 52)

/-- Rounding of a non-negative real result to binary64. -/
def flAbs (x : ℚ) : ℚ :=
  if x = 0 then 0 else (roundHalfEven (x / ulp x) : ℚ) * ulp x

/-- The binary64 result of an operation whose exact result is `x`: round to
nearest, ties to even, with gradual underflow.  Overflow is not part of this
function: results of magnitude `2^1024 - 2^970` or more, which binary64 replaces
by an infinity, are outside the model of the tree. -/
def fl (x : ℚ) : ℚ :=
  if x < 0 then -flAbs (-x) else flAbs x

/-- A value of the C++ type `double`: a NaN, an infinity with its sign, or a
finite number given by its sign and its magnitude (`-0.0` is `fin true 0`). -/
inductive Double where
  | nan : Double
  | inf (neg : Bool) : Double
  | fin (neg : Bool) (mag : ℚ) : Double
  deriving DecidableEq

/-- Equality of two outcomes can be decided. -/
instance decEqExcept {ε α : Type} [DecidableEq ε] [DecidableEq α] : DecidableEq (Except ε α)
  | Except.ok a, Except.ok b =>
    if h : a = b then isTrue (congrArg Except.ok h)
    else isFalse (fun e => h (Except.ok.inj e))
  | Except.error a, Except.error b =>
    if h : a = b then isTrue (congrArg Except.error h)
    else isFalse (fun e => h (Except.error.inj e))
  | Except.ok _, Except.error _ => isFalse (fun e => Except.noConfusion e)
  | Except.error _, Except.ok _ => isFalse (fun e => Except.noConfusion e)

/-- A value that a `double` can hold: the magnitude of a finite one is a binary64
number below `2^1024`. -/
def Double.Valid : Double → Prop
  | Double.fin _ m => 0 ≤ m ∧ m < 2 ^ 1024 ∧ fl m = m
  | _ => True

/-- The magnitude from which round-to-nearest gives an infinity:
`2^1024 - 2^970`, half a spacing above the largest binary64 number. -/
def overflowAt : ℚ := 2 ^ 1024 - 2 ^ 970

/-- The expression `1/d` in binary64 arithmetic. -/
def recip : Double → Double
  | Double.nan => Double.nan
  | Double.inf s => Double.fin s 0
  | Double.fin s m =>
    if m = 0 then Double.inf s
    else if overflowAt ≤ 1 / m then Double.inf s
    else Double.fin s (fl (1 / m))

/-- Error reported when the code stores a value that is not finite (`-∞` or a
NaN): the members of a node are finite numbers in this model. -/
def nonFinite : String := "value is not finite"

/-- The constructor `HDCluster(HDCluster* a, HDCluster* b, id, d)` in binary64
arithmetic. -/
def merge64 (a b : HDCluster) (id : Nat) (d : Double) : Except String HDCluster :=
  match a, b with
  | node ma _ _, node mb _ _ =>
    -- lambda_death(1/d); if (lambda_death == INFINITY) stop("death is infinity");
    match recip d with
    | Double.inf false => Except.error "death is infinity"
    | Double.fin s q =>
      let lambda_death : ℚ := if s then -q else q
      let m : Members :=
        { fresh (ma.sz + mb.sz) id with
          rank := max ma.rank mb.rank + 1, lambda_birth := 0, lambda_death := lambda_death }
      let a1 := adopt id lambda_death a
      let b1 := adopt id lambda_death b
      if ma.sz < mb.sz then Except.ok (node m a1 b1) else Except.ok (node m b1 a1)
    | _ => Except.error nonFinite
  | _, _ => Except.error nullDeref

/-! ### The condensation in binary64 arithmetic -/

/-- The finite value of the expression `1/d` in binary64 arithmetic; 0 stands in
when the quotient is an infinity or a NaN, where the constructor builds no node
of this model. -/
def quot (d : Double) : ℚ :=
  match recip d with
  | Double.fin s q => if s then -q else q
  | _ => 0

/-- The effect of `mergeUp` in binary64 arithmetic on the data members of `this`,
given the data members of `left`: a child of size 1 is recorded as a fallen point
with its `lambda_birth`, any other child contributes its `sum_lambda_p`, and the
sum is rounded; in both cases the child's `fallenPoints` are spliced to the end
of the list. -/
def absorb64 (m ml : Members) : Members :=
  let m1 : Members :=
    if ml.sz = 1 then
      { m with sum_lambda_p := fl (m.sum_lambda_p + ml.lambda_birth),
               fallenPoints := m.fallenPoints ++ [(ml.id, ml.lambda_birth)] }
    else { m with sum_lambda_p := fl (m.sum_lambda_p + ml.sum_lambda_p) }
  { m1 with fallenPoints := m1.fallenPoints ++ ml.fallenPoints }

/-- The member function `mergeUp` in binary64 arithmetic.  After the splice the
list of `left` is empty. -/
def mergeUp64 : HDCluster → Except String HDCluster
  | node m (node ml ll lr) r =>
    Except.ok (node (absorb64 m ml) (node { ml with fallenPoints := [] } ll lr) r)
  | _ => Except.error nullDeref

/-- The member function `condenseSingleton` in binary64 arithmetic.  The check
against `INFINITY` cannot fire on finite values. -/
def condenseSingleton64 (this : HDCluster) : Except String HDCluster := do
  match (← mergeUp64 this) with
  | node m (node ml ll lr) _ =>
    -- right = left->right; left = keep->left; the shell `keep` is dropped
    Except.ok (node { m with lambda_death := max m.lambda_death ml.lambda_death } ll lr)
  | _ => Except.error nullDeref

/-- The member function `condenseTooSmall` in binary64 arithmetic.  The check
against `INFINITY` cannot fire on finite values. -/
def condenseTooSmall64 (this : HDCluster) : Except String HDCluster := do
  match (← mergeUp64 this) with
  | node m (node _ _ _) r =>
    -- left->left = nullptr; left->right = nullptr; delete left; left = nullptr;
    Except.ok (node m nullptr r)
  | _ => Except.error nullDeref

/-- The member function `innerCondense` in binary64 arithmetic. -/
def innerCondense64 (minPts : Nat) (this : HDCluster) : Except String HDCluster :=
  match this with
  | node _ (node ml _ _) _ =>
    if ml.sz < minPts then do
      let t1 ← condenseTooSmall64 this
      let t2 := swapChildren t1
      match t2 with
      | node _ (node ml2 _ _) _ =>
        if ml2.sz < minPts then do
          let t3 ← condenseTooSmall64 t2
          Except.ok (resetRank t3)
        else do
          let t3 ← condenseSingleton64 t2
          updateRank t3
      | _ => Except.error nullDeref
    else Except.ok this
  | _ => Except.error nullDeref

/-- The member function `condense` in binary64 arithmetic.  The two recursive
calls are run one after the other, left first. -/
def condense64 (minPts : Nat) : Nat → HDCluster → Except String HDCluster
  | _, nullptr => Except.error nullDeref
  | level, node m l r =>
    if l.isNull then Except.ok (node m l r)
    else do
      let newlevel := if level = 0 then level else level - 1
      let l1 ← condense64 minPts newlevel l
      let r1 ← condense64 minPts newlevel r
      innerCondense64 minPts (node m l1 r1)

/-- The steps of `condense` in binary64 arithmetic on a tree of the pre-condensation shape, as a
relation between the tree before and the tree after: a leaf stays; a node whose
children are both smaller than `minPts` absorbs both; a node whose left child
only is smaller absorbs it and takes the place of its right child; any other
node keeps its condensed children. -/
inductive CondensesTo64 (minPts : Nat) : HDCluster → HDCluster → Prop
  | leaf (m : Members) : m.sz = 1 → m.fallenPoints = [] →
      CondensesTo64 minPts (node m nullptr nullptr) (node m nullptr nullptr)
  | foldBoth {m ml mr : Members} {l r : HDCluster} :
      m.fallenPoints = [] → m.sz = l.sz + r.sz →
      CondensesTo64 minPts l (node ml nullptr nullptr) →
      CondensesTo64 minPts r (node mr nullptr nullptr) →
      ml.sz < minPts → mr.sz < minPts →
      CondensesTo64 minPts (node m l r)
        (node { absorb64 (absorb64 m ml) mr with rank := 0 } nullptr nullptr)
  | keep {m ml mr : Members} {l r rl rr : HDCluster} (rk : Nat) :
      m.fallenPoints = [] → m.sz = l.sz + r.sz →
      CondensesTo64 minPts l (node ml nullptr nullptr) →
      CondensesTo64 minPts r (node mr rl rr) →
      ml.sz < minPts → minPts ≤ mr.sz →
      CondensesTo64 minPts (node m l r)
        (node { absorb64 (absorb64 m ml) mr with
          lambda_death := max (absorb64 (absorb64 m ml) mr).lambda_death mr.lambda_death,
          rank := rk } rl rr)
  | unchanged {m : Members} {l r l1 r1 : HDCluster} :
      m.fallenPoints = [] → m.sz = l.sz + r.sz →
      CondensesTo64 minPts l l1 → CondensesTo64 minPts r r1 →
      l1 ≠ nullptr → r1 ≠ nullptr → minPts ≤ l1.sz → minPts ≤ r1.sz →
      CondensesTo64 minPts (node m l r) (node m l1 r1)

/-- The entry recorded for `a` when it is merged at distance `d`: for a childless
node its id with the binary64 quotient `1/d`, nothing for a node with children. -/
def consumedLeaf64 (a : HDCluster) (d : Double) : List (Nat × ℚ) :=
  match a with
  | nullptr => []
  | node m l r => if (node m l r).childless then [(m.id, quot d)] else []

/-- A tree obtained from the leaf constructor and the merge constructor in
binary64 arithmetic only. -/
inductive Built64 : HDCluster → Prop
  | leaf (id : Nat) : Built64 (leaf id)
  | merge {a b n : HDCluster} (id : Nat) (d : Double) :
      Built64 a → Built64 b → merge64 a b id d = Except.ok n → Built64 n

/-- A tree built with the two constructors in binary64 arithmetic, together with
the leaves that have been merged so far, each as its id with the binary64
quotient `1/d` of the merge whose direct child it is. -/
inductive BuiltWith64 : HDCluster → List (Nat × ℚ) → Prop
  | leaf (id : Nat) : BuiltWith64 (leaf id) []
  | merge {a b n : HDCluster} {pa pb : List (Nat × ℚ)} (id : Nat) (d : Double) :
      BuiltWith64 a pa → BuiltWith64 b pb → merge64 a b id d = Except.ok n →
      BuiltWith64 n (pa ++ pb ++ consumedLeaf64 a d ++ consumedLeaf64 b d)

/-- A chain dendrogram built in binary64 arithmetic: the first merge joins two
leaves, every later merge joins the chain built so far with one new leaf (in
either argument order).  The list holds every leaf id with the binary64 quotient
`1/d` of the merge that consumed the leaf. -/
inductive Chain64 : HDCluster → List (Nat × ℚ) → Prop
  | first (i j id : Nat) (d : Double) {n : HDCluster} :
      merge64 (leaf i) (leaf j) id d = Except.ok n → Chain64 n [(i, quot d), (j, quot d)]
  | extend (i id : Nat) (d : Double) {c n : HDCluster} {ps : List (Nat × ℚ)} :
      Chain64 c ps →
      (merge64 c (leaf i) id d = Except.ok n ∨
        merge64 (leaf i) c id d = Except.ok n) →
      Chain64 n ((i, quot d) :: ps)

/-- The sum of a list in binary64 arithmetic, adding from the left. -/
def sumLeft (xs : List ℚ) : ℚ := xs.foldl (fun a x => fl (a + x)) 0

/-- The sum of a list in binary64 arithmetic, adding from the right. -/
def sumRight (xs : List ℚ) : ℚ := xs.foldr (fun x a => fl (x + a)) 0

/-- Example: the pairs (0, 1) at distance 1 and (2, 3) at distance 6, merged at
distance 6, in binary64 arithmetic. -/
def pairs16 : HDCluster :=
  okOr (merge64 (okOr (merge64 (leaf 0) (leaf 1) 4 (Double.fin false 1)))
    (okOr (merge64 (leaf 2) (leaf 3) 5 (Double.fin false 6))) 6 (Double.fin false 6))

/-- The binary64 number nearest to 1/6. -/
def sixth : ℚ := 6004799503160661 / 2 ^ 55

/-- The binary64 number nearest to 1/3. -/
def third : ℚ := 6004799503160661 / 2 ^ 54

/-- Example: the data members of the root of `pairs16` after `condense(3)`. -/
def pairs16Members : Members :=
  { sz := 4, id := 6, rank := 0, selected := false, stability := 0, lambda_birth := 0,
    lambda_death := sixth, sum_lambda_p := 5254199565265579 / 2 ^ 51,
    fallenPoints := [(3, sixth), (2, sixth), (1, 1), (0, 1)], parent := none }

/-- Example: the leaves 0 and 1 merged at distance 1, then merged with the leaf 2
at distance 3, in binary64 arithmetic. -/
def chain13 : HDCluster :=
  okOr (merge64 (okOr (merge64 (leaf 0) (leaf 1) 3 (Double.fin false 1))) (leaf 2) 4
    (Double.fin false 3))

/-- Example: the data members of the root of `chain13` after `condense(2)`. -/
def chain13Members : Members :=
  { sz := 3, id := 4, rank := 0, selected := false, stability := 0, lambda_birth := 0,
    lambda_death := 1, sum_lambda_p := 5254199565265579 / 2 ^ 51,
    fallenPoints := [(2, third), (1, 1), (0, 1)], parent := none }

/-- The ways to add up a list of numbers in binary64 arithmetic, in the order of
the list: the empty sum is 0, a single number is itself, and the sums of two
consecutive parts are added with one rounding. -/
inductive RoundedSum : List ℚ → ℚ → Prop
  | nil : RoundedSum [] 0
  | one (x : ℚ) : RoundedSum [x] x
  | add {xs ys : List ℚ} {a b : ℚ} :
      RoundedSum xs a → RoundedSum ys b → RoundedSum (xs ++ ys) (fl (a + b))

/-- Every node's `sum_lambda_p` is a binary64 sum of the scales in its own
`fallenPoints`, taken in the order of the list. -/
def RSumOK : HDCluster → Prop
  | nullptr => True
  | node m l r =>
    RoundedSum (m.fallenPoints.map Prod.snd) m.sum_lambda_p ∧ RSumOK l ∧ RSumOK r

/-! ### Stability and selection in binary64 arithmetic -/

/-- The value `sum_lambda_p - lambda_birth * fallenPoints.size()` in binary64
arithmetic: the product and the difference are rounded.  The conversion of the
size to `double` is exact below `2^53`. -/
def ownBase64 (m : Members) : ℚ :=
  fl (m.sum_lambda_p - fl (m.lambda_birth * (m.fallenPoints.length : ℚ)))

/-- The score `own` of a node with children in binary64 arithmetic: `ownBase64`
plus `lambda_death * (left->sz + right->sz)`, the product and the sum rounded. -/
def ownScore64 (m : Members) (l r : HDCluster) : ℚ :=
  fl (ownBase64 m + fl (m.lambda_death * ((l.sz + r.sz : Nat) : ℚ)))

/-- The member function `determineStability` in binary64 arithmetic: the object
after the call and the value returned.  Every operation on `double` is rounded
on its own (no fused multiply-add).  The two recursive calls work on disjoint
subtrees; they are run left first. -/
def determineStability64 (minPts : Nat) : HDCluster → Except String (HDCluster × ℚ)
  | nullptr => Except.error nullDeref
  | node m l r =>
    if m.sz < minPts ∧ m.parent.isSome then Except.error "Condense failed"
    else
      let stability : ℚ :=
        fl (m.sum_lambda_p - fl (m.lambda_birth * (m.fallenPoints.length : ℚ)))
      if l.isNull then
        if minPts ≤ m.sz then
          Except.ok (node { m with stability := stability, selected := true } l r, stability)
        else Except.ok (node { m with stability := stability } l r, stability)
      else do
        let (l1, sl) ← determineStability64 minPts l
        let (r1, sr) ← determineStability64 minPts r
        let childStabilities : ℚ := fl (sl + sr)
        let stability : ℚ := fl (stability + fl (m.lambda_death * ((l1.sz + r1.sz : Nat) : ℚ)))
        if stability > childStabilities then
          Except.ok (node { m with stability := stability, selected := true }
            (deselect l1) (deselect r1), stability)
        else
          Except.ok (node { m with stability := childStabilities } l1 r1, childStabilities)

/-- The own score of a node in binary64 arithmetic: `ownBase64` for a childless
node, `ownScore64` for a node with children. -/
def ownOf64 (m : Members) (l r : HDCluster) : ℚ :=
  if l.isNull then ownBase64 m else ownScore64 m l r

/-- The total own score of a cut in binary64 arithmetic, added up along the tree:
a selected node counts its own score, a node above the cut adds the totals of its
two subtrees, with rounding. -/
def cutScore64 : HDCluster → ℚ
  | nullptr => 0
  | node m l r =>
    if m.selected then ownOf64 m l r
    else if l.isNull then 0
    else fl (cutScore64 l + cutScore64 r)

/-- The six-leaf dendrogram with the pairs (0, 1) at distance 3 and (2, 3) at
distance 4 merged at distance 8, and the result merged at distance 8 with the
pair (4, 5) of distance 6, in binary64 arithmetic. -/
def sixLeaves : HDCluster :=
  okOr (merge64
    (okOr (merge64 (okOr (merge64 (leaf 0) (leaf 1) 6 (Double.fin false 3)))
      (okOr (merge64 (leaf 2) (leaf 3) 7 (Double.fin false 4))) 8 (Double.fin false 8)))
    (okOr (merge64 (leaf 4) (leaf 5) 9 (Double.fin false 6))) 10 (Double.fin false 8))

/-- Example: the data members of the root of `sixLeaves` after `condense(2)`. -/
def sixRoot : Members :=
  { fresh 6 10 with rank := 3, lambda_death := 1 / 8 }

/-- Example: the left child of the root of `sixLeaves` after `condense(2)`: the
pair (4, 5). -/
def sixLeft : HDCluster :=
  node
    { sz := 2, id := 9, rank := 0, selected := false, stability := 0, lambda_birth := 1 / 8,
      lambda_death := sixth, sum_lambda_p := third, fallenPoints := [(5, sixth), (4, sixth)],
      parent := some 10 }
    nullptr nullptr

/-- Example: the right child of the root of `sixLeaves` after `condense(2)`: the
node above the pairs (2, 3) and (0, 1). -/
def sixRight : HDCluster :=
  node
    { sz := 4, id := 8, rank := 2, selected := false, stability := 0, lambda_birth := 1 / 8,
      lambda_death := 1 / 8, sum_lambda_p := 0, fallenPoints := [], parent := some 10 }
    (node
      { sz := 2, id := 7, rank := 0, selected := false, stability := 0, lambda_birth := 1 / 8,
        lambda_death := 1 / 4, sum_lambda_p := 1 / 2, fallenPoints := [(3, 1 / 4), (2, 1 / 4)],
        parent := some 8 }
      nullptr nullptr)
    (node
      { sz := 2, id := 6, rank := 0, selected := false, stability := 0, lambda_birth := 1 / 8,
        lambda_death := third, sum_lambda_p := 2 * third,
        fallenPoints := [(1, third), (0, third)], parent := some 8 }
      nullptr nullptr)

/-- Example: `sixLeft` after `determineStability(2)`. -/
def sixLeftDone : HDCluster :=
  node
    { sz := 2, id := 9, rank := 0, selected := true, stability := third - 1 / 4,
      lambda_birth := 1 / 8, lambda_death := sixth, sum_lambda_p := third,
      fallenPoints := [(5, sixth), (4, sixth)], parent := some 10 }
    nullptr nullptr

/-- Example: `sixRight` after `determineStability(2)`. -/
def sixRightDone : HDCluster :=
  node
    { sz := 4, id := 8, rank := 2, selected := false, stability := 2 * third,
      lambda_birth := 1 / 8, lambda_death := 1 / 8, sum_lambda_p := 0, fallenPoints := [],
      parent := some 10 }
    (node
      { sz := 2, id := 7, rank := 0, selected := true, stability := 1 / 4,
        lambda_birth := 1 / 8, lambda_death := 1 / 4, sum_lambda_p := 1 / 2,
        fallenPoints := [(3, 1 / 4), (2, 1 / 4)], parent := some 8 }
      nullptr nullptr)
    (node
      { sz := 2, id := 6, rank := 0, selected := true, stability := 2 * third - 1 / 4,
        lambda_birth := 1 / 8, lambda_death := third, sum_lambda_p := 2 * third,
        fallenPoints := [(1, third), (0, third)], parent := some 8 }
      nullptr nullptr)

/-- Example: the result of `determineStability(2)` on the condensed `sixLeaves`
with the flags changed to the cut that consists of the root alone. -/
def sixRootOnly : HDCluster :=
  node { sixRoot with stability := 3 / 4, selected := true }
    (deselect sixLeftDone) (deselect sixRightDone)

/-! ## Theorems -/

/-! ### Computation rules -/

@[simp] theorem sz_node (m : Members) (l r : HDCluster) : (node m l r).sz = m.sz := rfl

@[simp] theorem adopt_sz (id : Nat) (ld : ℚ) (t : HDCluster) : (adopt id ld t).sz = t.sz := by
  cases t <;> rfl

@[simp] theorem absorb_sz (m ml : Members) : (absorb m ml).sz = m.sz := by
  unfold absorb; split_ifs <;> rfl

theorem isNull_iff (t : HDCluster) : t.isNull = true ↔ t = nullptr := by
  cases t <;> simp [isNull]

theorem innerCondense_node (minPts : Nat) (m ml mr : Members) (ll lr rl rr : HDCluster) :
    innerCondense minPts (node m (node ml ll lr) (node mr rl rr)) =
      if ml.sz < minPts then
        if mr.sz < minPts then
          Except.ok (node { absorb (absorb m ml) mr with rank := 0 } nullptr nullptr)
        else
          updateRank (node { absorb (absorb m ml) mr with
            lambda_death := max (absorb (absorb m ml) mr).lambda_death mr.lambda_death } rl rr)
      else Except.ok (node m (node ml ll lr) (node mr rl rr)) := by
  by_cases h1 : ml.sz < minPts
  · by_cases h2 : mr.sz < minPts
    · simp [innerCondense, condenseTooSmall, mergeUp, swapChildren, resetRank, h1, h2, bind,
        Except.bind]
    · simp [innerCondense, condenseTooSmall, condenseSingleton, mergeUp, swapChildren, h1, h2,
        bind, Except.bind]
  · simp [innerCondense, h1]

theorem condense_node (minPts level : Nat) (m ml : Members) (ll lr r : HDCluster) :
    condense minPts level (node m (node ml ll lr) r) =
      (condense minPts (if level = 0 then level else level - 1) (node ml ll lr)).bind fun l1 =>
      (condense minPts (if level = 0 then level else level - 1) r).bind fun r1 =>
        innerCondense minPts (node m l1 r1) := by
  rw [condense]
  simp [isNull, bind]

theorem condense_leaf (minPts level : Nat) (m : Members) (r : HDCluster) :
    condense minPts level (node m nullptr r) = Except.ok (node m nullptr r) := by
  simp [condense, isNull]

/-! ### Trees built with the constructors -/

theorem Raw.sz_pos : ∀ {t : HDCluster}, Raw t → 1 ≤ t.sz
  | nullptr, h => by simp [Raw] at h
  | node m l r, h => by
    rcases h with ⟨_, ⟨_, _, h1⟩ | ⟨hl, hr, _, hs⟩⟩
    · simp [h1]
    · have := Raw.sz_pos hl
      simp only [sz_node] at *
      omega

theorem Raw.adopt {t : HDCluster} (id : Nat) (ld : ℚ) (h : Raw t) : Raw (adopt id ld t) := by
  cases t with
  | nullptr => simp [Raw] at h
  | node m l r => simpa [HDCluster.adopt, Raw] using h

theorem Built.raw {t : HDCluster} (h : Built t) : Raw t := by
  induction h with
  | leaf id => simp [leaf, Raw, fresh]
  | @merge a b n id d _ _ hm iha ihb =>
    cases a with
    | nullptr => simp [Raw] at iha
    | node ma la ra =>
      cases b with
      | nullptr => simp [Raw] at ihb
      | node mb lb rb =>
        simp only [HDCluster.merge] at hm
        split_ifs at hm with hd hlt
        · cases hm
          refine ⟨rfl, Or.inr ⟨iha.adopt _ _, ihb.adopt _ _, ?_, ?_⟩⟩
          · simp only [adopt_sz, sz_node]; omega
          · simp only [adopt_sz, sz_node, fresh]
        · cases hm
          refine ⟨rfl, Or.inr ⟨ihb.adopt _ _, iha.adopt _ _, ?_, ?_⟩⟩
          · simp only [adopt_sz, sz_node]; omega
          · simp only [adopt_sz, sz_node, fresh]; omega

theorem built_chain3 : Built chain3 :=
  Built.merge 11 2 (Built.merge 10 1 (Built.leaf 0) (Built.leaf 1) rfl) (Built.leaf 2) rfl

/-! ### Condensation -/

/-- The ids recorded by `mergeUp` for a childless child are the points of that child. -/
theorem absorb_ids_childless (m ml : Members) (h1 : ml.sz = 1 → ml.fallenPoints = []) :
    (absorb m ml).fallenPoints.map Prod.fst =
      m.fallenPoints.map Prod.fst ++ points (node ml nullptr nullptr) := by
  by_cases hs : ml.sz = 1
  · simp [absorb, points, hs, h1 hs, isNull]
  · simp [absorb, points, hs, isNull]

theorem absorb_ids_big (m ml : Members) (hs : ml.sz ≠ 1) :
    (absorb m ml).fallenPoints.map Prod.fst =
      m.fallenPoints.map Prod.fst ++ ml.fallenPoints.map Prod.fst := by
  simp [absorb, hs]

theorem points_big (m : Members) (l r : HDCluster) (hs : m.sz ≠ 1) :
    points (node m l r) = m.fallenPoints.map Prod.fst ++ points l ++ points r := by
  simp [points, hs]

/-- What `condense` does to a tree of the pre-condensation shape: it returns a
node of the same size that satisfies the postcondition and holds the same
points; a tree smaller than `minPts` collapses into a childless node. -/
theorem condense_raw (minPts : Nat) : ∀ (t : HDCluster) (level : Nat), Raw t →
    ∃ m1 l1 r1, condense minPts level t = Except.ok (node m1 l1 r1) ∧ m1.sz = t.sz ∧
      Condensed minPts (node m1 l1 r1) ∧ (points (node m1 l1 r1)).Perm (leafIds t) ∧
      (t.sz < minPts → l1 = nullptr ∧ r1 = nullptr) ∧ (m1.sz = 1 → m1.fallenPoints = [])
  | nullptr, _, h => by simp [Raw] at h
  | node m l r, level, h => by
    rcases h with ⟨hfp, ⟨hl, hr, h1⟩ | ⟨hl, hr, hle, hs⟩⟩
    · subst hl hr
      refine ⟨m, nullptr, nullptr, condense_leaf _ _ _ _, rfl, Or.inl ⟨rfl, rfl⟩, ?_, ?_, ?_⟩
      · simp [points, leafIds, isNull, h1, hfp]
      · intro _; exact ⟨rfl, rfl⟩
      · intro _; exact hfp
    · obtain ⟨ml, ll, lr, el, hsl, hcl, hpl, hsml, hol⟩ :=
        condense_raw minPts l (if level = 0 then level else level - 1) hl
      obtain ⟨mr, rl, rr, er, hsr, hcr, hpr, hsmr, hor⟩ :=
        condense_raw minPts r (if level = 0 then level else level - 1) hr
      have hlpos := hl.sz_pos
      have hrpos := hr.sz_pos
      have hids : leafIds (node m l r) = leafIds l ++ leafIds r := by
        cases l with
        | nullptr => simp [Raw] at hl
        | node _ _ _ => simp [leafIds, isNull]
      have hc : condense minPts level (node m l r) =
          innerCondense minPts (node m (node ml ll lr) (node mr rl rr)) := by
        cases l with
        | nullptr => simp [Raw] at hl
        | node _ _ _ => rw [condense_node, el, er]; rfl
      rw [hc, innerCondense_node, hids]
      simp only [sz_node] at hs ⊢
      by_cases c1 : ml.sz < minPts
      · obtain ⟨rfl, rfl⟩ := hsml (hsl ▸ c1)
        by_cases c2 : mr.sz < minPts
        · obtain ⟨rfl, rfl⟩ := hsmr (hsr ▸ c2)
          refine ⟨_, _, _, by rw [if_pos c1, if_pos c2], by simp, Or.inl ⟨rfl, rfl⟩, ?_, ?_, ?_⟩
          · rw [points_big _ _ _ (by simp; omega)]
            simp only [points, List.append_nil]
            rw [absorb_ids_childless _ _ hor, absorb_ids_childless _ _ hol, hfp]
            simpa using hpl.append hpr
          · intro _; exact ⟨rfl, rfl⟩
          · intro h; simp at h; omega
        · have hne : mr.sz ≠ 1 := by omega
          rcases hcr with ⟨rfl, rfl⟩ | ⟨hn1, hn2, hm1, hm2, hc1, hc2⟩
          · refine ⟨_, _, _, by rw [if_pos c1, if_neg c2]; rfl, by simp, Or.inl ⟨rfl, rfl⟩,
              ?_, ?_, ?_⟩
            · rw [points_big _ _ _ (by simp; omega)]
              simp only [points, List.append_nil]
              rw [absorb_ids_big _ _ hne, absorb_ids_childless _ _ hol, hfp]
              rw [points_big _ _ _ hne] at hpr
              simpa [points] using hpl.append hpr
            · intro h; omega
            · intro h; simp at h; omega
          · cases rl with
            | nullptr => exact absurd rfl hn1
            | node mrl rll rlr =>
              cases rr with
              | nullptr => exact absurd rfl hn2
              | node mrr rrl rrr =>
                refine ⟨_, _, _, by rw [if_pos c1, if_neg c2]; rfl, by simp,
                  Or.inr ⟨hn1, hn2, hm1, hm2, hc1, hc2⟩, ?_, ?_, ?_⟩
                · rw [points_big _ _ _ (by simp; omega)]
                  rw [points_big _ _ _ hne] at hpr
                  simp only [absorb_ids_big _ _ hne, absorb_ids_childless _ _ hol, hfp]
                  simpa [List.append_assoc] using hpl.append hpr
                · intro h; omega
                · intro h; simp at h; omega
      · refine ⟨_, _, _, by rw [if_neg c1], rfl, Or.inr ⟨by simp, by simp, ?_, ?_, hcl, hcr⟩,
          ?_, ?_, ?_⟩
        · simp only [sz_node]; omega
        · simp only [sz_node]; omega
        · rw [points_big _ _ _ (by omega), hfp]
          simpa using hpl.append hpr
        · intro h; omega
        · intro h; omega

/-- C1: for every tree built with the leaf and merge constructors and every
`minPts`, `condense` returns a tree in which every node either has no children
or has two children that both have `sz ≥ minPts`. -/
theorem condense_postcondition (t : HDCluster) (minPts level : Nat) (h : Built t) :
    ∃ t1, condense minPts level t = Except.ok t1 ∧ t1 ≠ nullptr ∧ Condensed minPts t1 := by
  obtain ⟨m1, l1, r1, e, _, hc, _⟩ := condense_raw minPts t level h.raw
  exact ⟨_, e, by simp, hc⟩

theorem condense_postcondition_witness :
    Built chain3 ∧
      ∃ t1, condense 2 0 chain3 = Except.ok t1 ∧ t1 ≠ nullptr ∧ Condensed 2 t1 :=
  ⟨built_chain3, condense_postcondition chain3 2 0 built_chain3⟩

/-- C2: for every tree built with the two constructors from leaves with
pairwise distinct ids and every `minPts`, the ids in the `fallenPoints` of the
nodes of the condensed tree together with the ids of its untouched leaves are
the ids of the original leaves, each exactly once. -/
theorem condense_keeps_points (t : HDCluster) (minPts level : Nat) (h : Built t)
    (hd : (leafIds t).Nodup) :
    ∃ t1, condense minPts level t = Except.ok t1 ∧ (points t1).Perm (leafIds t) ∧
      (points t1).Nodup := by
  obtain ⟨m1, l1, r1, e, _, _, hp, _⟩ := condense_raw minPts t level h.raw
  exact ⟨_, e, hp, hp.nodup_iff.mpr hd⟩

theorem condense_keeps_points_witness :
    Built chain3 ∧ (leafIds chain3).Nodup ∧
      ∃ t1, condense 2 0 chain3 = Except.ok t1 ∧ (points t1).Perm (leafIds chain3) ∧
        (points t1).Nodup :=
  ⟨built_chain3, by decide, condense_keeps_points chain3 2 0 built_chain3 (by decide)⟩

/-! ### Stability and selection -/

theorem determineStability_leaf (minPts : Nat) (m : Members) (r : HDCluster) :
    determineStability minPts (node m nullptr r) =
      if m.sz < minPts ∧ m.parent.isSome then Except.error "Condense failed"
      else if minPts ≤ m.sz then
        Except.ok (node { m with stability := ownBase m, selected := true } nullptr r, ownBase m)
      else Except.ok (node { m with stability := ownBase m } nullptr r, ownBase m) := by
  simp [determineStability, isNull, ownBase]

theorem determineStability_node (minPts : Nat) (m ml : Members) (ll lr r : HDCluster) :
    determineStability minPts (node m (node ml ll lr) r) =
      if m.sz < minPts ∧ m.parent.isSome then Except.error "Condense failed"
      else
        (determineStability minPts (node ml ll lr)).bind fun p =>
        (determineStability minPts r).bind fun q =>
          if ownBase m + m.lambda_death * ((p.1.sz + q.1.sz : Nat) : ℚ) > p.2 + q.2 then
            Except.ok (node { m with
                stability := ownBase m + m.lambda_death * ((p.1.sz + q.1.sz : Nat) : ℚ),
                selected := true } (deselect p.1) (deselect q.1),
              ownBase m + m.lambda_death * ((p.1.sz + q.1.sz : Nat) : ℚ))
          else Except.ok (node { m with stability := p.2 + q.2 } p.1 q.1, p.2 + q.2) := by
  rw [determineStability]
  simp only [isNull, ownBase, bind]
  rfl


/-- A successful call on a node with a non-null `left`, taken apart. -/
theorem determineStability_node_ok {minPts : Nat} {m ml : Members} {ll lr r t1 : HDCluster}
    {v : ℚ} (h : determineStability minPts (node m (node ml ll lr) r) = Except.ok (t1, v)) :
    ∃ l1 sl r1 sr, determineStability minPts (node ml ll lr) = Except.ok (l1, sl) ∧
      determineStability minPts r = Except.ok (r1, sr) ∧
      ¬ (m.sz < minPts ∧ m.parent.isSome) ∧
      (t1, v) =
        if ownBase m + m.lambda_death * ((l1.sz + r1.sz : Nat) : ℚ) > sl + sr then
          (node { m with
              stability := ownBase m + m.lambda_death * ((l1.sz + r1.sz : Nat) : ℚ),
              selected := true } (deselect l1) (deselect r1),
            ownBase m + m.lambda_death * ((l1.sz + r1.sz : Nat) : ℚ))
        else (node { m with stability := sl + sr } l1 r1, sl + sr) := by
  rw [determineStability_node] at h
  split_ifs at h with hg
  cases hl : determineStability minPts (node ml ll lr) with
  | error e => simp [hl, Except.bind] at h
  | ok p =>
    cases hr : determineStability minPts r with
    | error e => simp [hl, hr, Except.bind] at h
    | ok q =>
      obtain ⟨l1, sl⟩ := p
      obtain ⟨r1, sr⟩ := q
      refine ⟨l1, sl, r1, sr, rfl, rfl, hg, ?_⟩
      simp only [hl, hr, Except.bind] at h
      split_ifs at h with hc
      · rw [if_pos hc]; exact (Except.ok.inj h).symm
      · rw [if_neg hc]; exact (Except.ok.inj h).symm

/-- `determineStability` returns a node of the same size. -/
theorem determineStability_sz {minPts : Nat} : ∀ {t t1 : HDCluster} {v : ℚ},
    determineStability minPts t = Except.ok (t1, v) → t1 ≠ nullptr ∧ t1.sz = t.sz
  | nullptr, _, _, h => by simp [determineStability] at h
  | node m nullptr r, t1, v, h => by
    rw [determineStability_leaf] at h
    split_ifs at h <;> cases h <;> simp
  | node m (node ml ll lr) r, t1, v, h => by
    obtain ⟨l1, sl, r1, sr, _, _, _, e⟩ := determineStability_node_ok h
    split_ifs at e <;> cases e <;> simp

@[simp] theorem deselect_sz (t : HDCluster) : (deselect t).sz = t.sz := by
  cases t with
  | nullptr => rfl
  | node m l r =>
    rw [deselect]
    split_ifs <;> rfl

theorem deselect_ne_null {t : HDCluster} (h : t ≠ nullptr) : deselect t ≠ nullptr := by
  cases t with
  | nullptr => exact absurd rfl h
  | node m l r =>
    rw [deselect]
    split_ifs <;> simp

theorem deselect_zeroOrTwo : ∀ {t : HDCluster}, ZeroOrTwo t → ZeroOrTwo (deselect t)
  | nullptr, _ => by simp [deselect, ZeroOrTwo]
  | node m l r, h => by
    rw [deselect]
    split_ifs with h1 h2
    · exact h
    · exact h
    · rcases h with ⟨rfl, _⟩ | ⟨hl, hr, zl, zr⟩
      · simp [isNull] at h2
      · exact Or.inr ⟨deselect_ne_null hl, deselect_ne_null hr, deselect_zeroOrTwo zl,
          deselect_zeroOrTwo zr⟩

/-- On an antichain, `deselect` clears every flag. -/
theorem deselect_noneSelected : ∀ {t : HDCluster}, ZeroOrTwo t → Antichain t →
    NoneSelected (deselect t)
  | nullptr, _, _ => by simp [deselect, NoneSelected]
  | node m l r, hz, ha => by
    rw [deselect]
    obtain ⟨hs, al, ar⟩ := ha
    split_ifs with h1 h2
    · exact ⟨rfl, (hs h1).1, (hs h1).2⟩
    · rcases hz with ⟨rfl, rfl⟩ | ⟨hl, _⟩
      · exact ⟨by simpa using h1, trivial, trivial⟩
      · exact absurd ((isNull_iff l).mp h2) hl
    · rcases hz with ⟨rfl, _⟩ | ⟨_, _, zl, zr⟩
      · simp [isNull] at h2
      · exact ⟨by simpa using h1, deselect_noneSelected zl al, deselect_noneSelected zr ar⟩

theorem NoneSelected.antichain : ∀ {t : HDCluster}, NoneSelected t → Antichain t
  | nullptr, _ => trivial
  | node _ _ _, ⟨_, hl, hr⟩ => ⟨fun _ => ⟨hl, hr⟩, hl.antichain, hr.antichain⟩

theorem determineStability_antichain_aux {minPts : Nat} : ∀ {t t1 : HDCluster} {v : ℚ},
    ZeroOrTwo t → NoneSelected t → determineStability minPts t = Except.ok (t1, v) →
    ZeroOrTwo t1 ∧ Antichain t1
  | nullptr, _, _, _, _, h => by simp [determineStability] at h
  | node m nullptr r, t1, v, hz, hn, h => by
    rw [determineStability_leaf] at h
    obtain ⟨_, _, hnr⟩ := hn
    split_ifs at h <;> cases h
    · exact ⟨hz, fun _ => ⟨trivial, hnr⟩, trivial, hnr.antichain⟩
    · exact ⟨hz, fun _ => ⟨trivial, hnr⟩, trivial, hnr.antichain⟩
  | node m (node ml ll lr) r, t1, v, hz, hn, h => by
    obtain ⟨l1, sl, r1, sr, el, er, _, e⟩ := determineStability_node_ok h
    obtain ⟨hsel, hnl, hnr⟩ := hn
    rcases hz with ⟨h0, _⟩ | ⟨_, _, zl, zr⟩
    · cases h0
    obtain ⟨zl1, al1⟩ := determineStability_antichain_aux zl hnl el
    obtain ⟨zr1, ar1⟩ := determineStability_antichain_aux zr hnr er
    have nl1 := (determineStability_sz el).1
    have nr1 := (determineStability_sz er).1
    split_ifs at e <;> cases e
    · have dl := deselect_noneSelected zl1 al1
      have dr := deselect_noneSelected zr1 ar1
      exact ⟨Or.inr ⟨deselect_ne_null nl1, deselect_ne_null nr1, deselect_zeroOrTwo zl1,
        deselect_zeroOrTwo zr1⟩, fun _ => ⟨dl, dr⟩, dl.antichain, dr.antichain⟩
    · refine ⟨Or.inr ⟨nl1, nr1, zl1, zr1⟩, fun hs => ?_, al1, ar1⟩
      simp [hsel] at hs

/-- C3: on a tree in which every node has zero or two children and no node is
selected, a call of `determineStability` that returns without error leaves the
selected nodes an antichain: no selected node has a selected proper descendant. -/
theorem determineStability_antichain (minPts : Nat) (t t1 : HDCluster) (v : ℚ)
    (hz : ZeroOrTwo t) (hn : NoneSelected t)
    (h : determineStability minPts t = Except.ok (t1, v)) : Antichain t1 :=
  (determineStability_antichain_aux hz hn h).2


theorem determineStability_node_ne (minPts : Nat) (m : Members) {l : HDCluster} (r : HDCluster)
    (hl : l ≠ nullptr) :
    determineStability minPts (node m l r) =
      if m.sz < minPts ∧ m.parent.isSome then Except.error "Condense failed"
      else
        (determineStability minPts l).bind fun p =>
        (determineStability minPts r).bind fun q =>
          if ownBase m + m.lambda_death * ((p.1.sz + q.1.sz : Nat) : ℚ) > p.2 + q.2 then
            Except.ok (node { m with
                stability := ownBase m + m.lambda_death * ((p.1.sz + q.1.sz : Nat) : ℚ),
                selected := true } (deselect p.1) (deselect q.1),
              ownBase m + m.lambda_death * ((p.1.sz + q.1.sz : Nat) : ℚ))
          else Except.ok (node { m with stability := p.2 + q.2 } p.1 q.1, p.2 + q.2) := by
  cases l with
  | nullptr => exact absurd rfl hl
  | node ml ll lr => exact determineStability_node minPts m ml ll lr r

/-- The result of a call on a node with a non-null `left`, from the results of
the calls on the two children. -/
theorem determineStability_node_eval {minPts : Nat} (m : Members) {l r l1 r1 : HDCluster}
    {sl sr : ℚ} (hl : l ≠ nullptr) (hg : ¬ (m.sz < minPts ∧ m.parent.isSome))
    (el : determineStability minPts l = Except.ok (l1, sl))
    (er : determineStability minPts r = Except.ok (r1, sr)) :
    determineStability minPts (node m l r) = Except.ok
      (if ownBase m + m.lambda_death * ((l1.sz + r1.sz : Nat) : ℚ) > sl + sr then
        (node { m with
            stability := ownBase m + m.lambda_death * ((l1.sz + r1.sz : Nat) : ℚ),
            selected := true } (deselect l1) (deselect r1),
          ownBase m + m.lambda_death * ((l1.sz + r1.sz : Nat) : ℚ))
      else (node { m with stability := sl + sr } l1 r1, sl + sr)) := by
  rw [determineStability_node_ne _ _ _ hl, if_neg hg, el, er]
  simp only [Except.bind]
  split_ifs <;> rfl

theorem determineStability_leaf_eval {minPts : Nat} (m : Members) (r : HDCluster)
    (hg : ¬ (m.sz < minPts ∧ m.parent.isSome)) :
    determineStability minPts (node m nullptr r) = Except.ok
      (if minPts ≤ m.sz then
        (node { m with stability := ownBase m, selected := true } nullptr r, ownBase m)
      else (node { m with stability := ownBase m } nullptr r, ownBase m)) := by
  rw [determineStability_leaf, if_neg hg]
  split_ifs <;> rfl

/-- A second run, started from the result of a first run or from that result
after `deselect`, reproduces the result of the first run. -/
theorem determineStability_rerun {minPts : Nat} : ∀ {t t1 : HDCluster} {v : ℚ},
    NoneSelected t → determineStability minPts t = Except.ok (t1, v) →
    determineStability minPts t1 = Except.ok (t1, v) ∧
      determineStability minPts (deselect t1) = Except.ok (t1, v)
  | nullptr, _, _, _, h => by simp [determineStability] at h
  | node m nullptr r, t1, v, hn, h => by
    rw [determineStability_leaf] at h
    obtain ⟨hsel, _, _⟩ := hn
    split_ifs at h with hg hp <;> cases h
    · constructor
      · refine (determineStability_leaf_eval _ r ?_).trans (congrArg Except.ok (if_pos ?_))
        exacts [hg, hp]
      · have hd : deselect (node { m with stability := ownBase m, selected := true } nullptr r)
            = node { m with stability := ownBase m, selected := false } nullptr r := by
          simp [deselect]
        rw [hd]
        refine (determineStability_leaf_eval _ r ?_).trans (congrArg Except.ok (if_pos ?_))
        exacts [hg, hp]
    · constructor
      · refine (determineStability_leaf_eval _ r ?_).trans (congrArg Except.ok (if_neg ?_))
        exacts [hg, hp]
      · have hd : deselect (node { m with stability := ownBase m } nullptr r)
            = node { m with stability := ownBase m } nullptr r := by
          simp [deselect, hsel, isNull]
        rw [hd]
        refine (determineStability_leaf_eval _ r ?_).trans (congrArg Except.ok (if_neg ?_))
        exacts [hg, hp]
  | node m (node ml ll lr) r, t1, v, hn, h => by
    obtain ⟨l1, sl, r1, sr, el, er, hg, e⟩ := determineStability_node_ok h
    obtain ⟨hsel, hnl, hnr⟩ := hn
    obtain ⟨il, idl⟩ := determineStability_rerun hnl el
    obtain ⟨ir, idr⟩ := determineStability_rerun hnr er
    have nl1 := (determineStability_sz el).1
    split_ifs at e with hc <;> cases e
    · constructor
      · refine (determineStability_node_eval _ (deselect_ne_null nl1) ?_ idl idr).trans
          (congrArg Except.ok (if_pos ?_))
        exacts [hg, hc]
      · have hd : deselect (node { m with
              stability := ownBase m + m.lambda_death * ((l1.sz + r1.sz : Nat) : ℚ),
              selected := true } (deselect l1) (deselect r1))
            = node { m with
              stability := ownBase m + m.lambda_death * ((l1.sz + r1.sz : Nat) : ℚ),
              selected := false } (deselect l1) (deselect r1) := by
          simp [deselect]
        rw [hd]
        refine (determineStability_node_eval _ (deselect_ne_null nl1) ?_ idl idr).trans
          (congrArg Except.ok (if_pos ?_))
        exacts [hg, hc]
    · constructor
      · refine (determineStability_node_eval _ nl1 ?_ il ir).trans (congrArg Except.ok (if_neg ?_))
        exacts [hg, hc]
      · have hd : deselect (node { m with stability := sl + sr } l1 r1)
            = node { m with stability := sl + sr } (deselect l1) (deselect r1) := by
          cases l1 with
          | nullptr => exact absurd rfl nl1
          | node _ _ _ => simp [deselect, hsel, isNull]
        rw [hd]
        refine (determineStability_node_eval _ (deselect_ne_null nl1) ?_ idl idr).trans
          (congrArg Except.ok (if_neg ?_))
        exacts [hg, hc]

/-- C7: when `determineStability` has completed without error on a tree whose
flags were all false, a second run on the result returns the same value and
leaves the whole tree, hence every `selected` flag and every `stability`,
exactly as the first run left it. -/
theorem determineStability_idempotent (minPts : Nat) (t t1 : HDCluster) (v : ℚ)
    (hn : NoneSelected t) (h : determineStability minPts t = Except.ok (t1, v)) :
    determineStability minPts t1 = Except.ok (t1, v) :=
  (determineStability_rerun hn h).1

theorem run_pair01 : determineStability 1 pair01 = Except.ok (pair01Selected, 2) := by
  norm_num [determineStability, pair01, pair01Selected, okOr, merge, leaf, fresh, adopt, isNull,
    deselect, bind, Except.bind]

theorem zeroOrTwo_pair01 : ZeroOrTwo pair01 := by
  simp [ZeroOrTwo, pair01, okOr, merge, leaf, fresh, adopt]

theorem noneSelected_pair01 : NoneSelected pair01 := by
  simp [NoneSelected, pair01, okOr, merge, leaf, fresh, adopt]

theorem determineStability_antichain_witness :
    ZeroOrTwo pair01 ∧ NoneSelected pair01 ∧
      determineStability 1 pair01 = Except.ok (pair01Selected, 2) ∧ Antichain pair01Selected :=
  ⟨zeroOrTwo_pair01, noneSelected_pair01, run_pair01,
    determineStability_antichain 1 pair01 pair01Selected 2 zeroOrTwo_pair01 noneSelected_pair01
      run_pair01⟩

theorem determineStability_idempotent_witness :
    NoneSelected pair01 ∧ determineStability 1 pair01 = Except.ok (pair01Selected, 2) ∧
      determineStability 1 pair01Selected = Except.ok (pair01Selected, 2) :=
  ⟨noneSelected_pair01, run_pair01,
    determineStability_idempotent 1 pair01 pair01Selected 2 noneSelected_pair01 run_pair01⟩

/-- C6: when the merge constructor succeeds on the nodes `a` and `b`, the new
node has `sz = a.sz + b.sz`, `rank = max(a.rank, b.rank) + 1`, `lambda_birth = 0`
and `lambda_death = 1/d`; both children get `lambda_birth = 1/d` and the new
node as parent; `left = a`, `right = b` when `a.sz < b.sz`, otherwise `left = b`,
`right = a`, so that `left.sz ≤ right.sz`. -/
theorem merge_spec (ma mb : Members) (la ra lb rb n : HDCluster) (id : Nat) (d : ℚ)
    (h : merge (node ma la ra) (node mb lb rb) id d = Except.ok n) :
    ∃ m l r, n = node m l r ∧ m.id = id ∧ m.sz = ma.sz + mb.sz ∧
      m.rank = max ma.rank mb.rank + 1 ∧ m.lambda_birth = 0 ∧ m.lambda_death = 1 / d ∧
      (ma.sz < mb.sz →
        l = node { ma with parent := some id, lambda_birth := 1 / d } la ra ∧
        r = node { mb with parent := some id, lambda_birth := 1 / d } lb rb) ∧
      (¬ ma.sz < mb.sz →
        l = node { mb with parent := some id, lambda_birth := 1 / d } lb rb ∧
        r = node { ma with parent := some id, lambda_birth := 1 / d } la ra) ∧
      l.sz ≤ r.sz := by
  simp only [merge] at h
  split_ifs at h with hd hlt
  · cases h
    refine ⟨_, _, _, rfl, rfl, rfl, rfl, rfl, rfl, fun _ => ⟨rfl, rfl⟩,
      fun hn => absurd hlt hn, ?_⟩
    simp only [adopt_sz, sz_node]; omega
  · cases h
    refine ⟨_, _, _, rfl, rfl, rfl, rfl, rfl, rfl, fun hn => absurd hn hlt,
      fun _ => ⟨rfl, rfl⟩, ?_⟩
    simp only [adopt_sz, sz_node]; omega


theorem merge_spec_witness :
    merge (node (fresh 1 0) nullptr nullptr) (node (fresh 1 1) nullptr nullptr) 10 1 =
        Except.ok pair01 ∧
      ∃ m l r, pair01 = node m l r ∧ m.id = 10 ∧ m.sz = (fresh 1 0).sz + (fresh 1 1).sz ∧
        m.rank = max (fresh 1 0).rank (fresh 1 1).rank + 1 ∧ m.lambda_birth = 0 ∧
        m.lambda_death = 1 / 1 ∧
        ((fresh 1 0).sz < (fresh 1 1).sz →
          l = node { fresh 1 0 with parent := some 10, lambda_birth := 1 / 1 } nullptr nullptr ∧
          r = node { fresh 1 1 with parent := some 10, lambda_birth := 1 / 1 } nullptr nullptr) ∧
        (¬ (fresh 1 0).sz < (fresh 1 1).sz →
          l = node { fresh 1 1 with parent := some 10, lambda_birth := 1 / 1 } nullptr nullptr ∧
          r = node { fresh 1 0 with parent := some 10, lambda_birth := 1 / 1 } nullptr nullptr) ∧
        l.sz ≤ r.sz :=
  ⟨rfl, merge_spec (fresh 1 0) (fresh 1 1) nullptr nullptr nullptr nullptr pair01 10 1 rfl⟩

theorem determineSubStability_node (minPts : Nat) (m : Members) {l : HDCluster} (r : HDCluster)
    (hl : l ≠ nullptr) :
    determineSubStability minPts (node m l r) =
      if m.sz < minPts ∧ m.parent.isSome then Except.error "Condense failed"
      else
        (determineStability minPts l).bind fun p =>
        (determineStability minPts r).bind fun q =>
          Except.ok (node { m with stability := ownBase m } p.1 q.1) := by
  cases l with
  | nullptr => exact absurd rfl hl
  | node ml ll lr =>
    rw [determineSubStability]
    simp only [isNull, ownBase, bind]
    rfl

/-- On a tree in which every node has zero or two children and every childless
node has `sz ≥ minPts`, a completed call of `determineStability` leaves at least
one node selected. -/
theorem determineStability_selects {minPts : Nat} : ∀ {t t1 : HDCluster} {v : ℚ},
    ZeroOrTwo t → LeavesBig minPts t → determineStability minPts t = Except.ok (t1, v) →
    1 ≤ countSelected t1
  | nullptr, _, _, _, _, h => by simp [determineStability] at h
  | node m nullptr r, t1, v, hz, hb, h => by
    rcases hz with ⟨_, rfl⟩ | ⟨h0, _⟩
    · rw [determineStability_leaf] at h
      have hm : minPts ≤ m.sz := hb.1 rfl rfl
      split_ifs at h with hg
      cases h
      simp [countSelected]
    · exact absurd rfl h0
  | node m (node ml ll lr) r, t1, v, hz, hb, h => by
    obtain ⟨l1, sl, r1, sr, el, er, _, e⟩ := determineStability_node_ok h
    rcases hz with ⟨h0, _⟩ | ⟨_, _, zl, zr⟩
    · cases h0
    have cl := determineStability_selects zl hb.2.1 el
    split_ifs at e <;> cases e
    · simp only [countSelected, if_true]; omega
    · simp only [countSelected]; omega

/-- On a tree in which every node has zero or two children and `sz ≥ minPts`,
`determineStability` completes without error. -/
theorem determineStability_completes {minPts : Nat} : ∀ {t : HDCluster},
    t ≠ nullptr → ZeroOrTwo t → AllBig minPts t →
    ∃ t1 v, determineStability minPts t = Except.ok (t1, v)
  | nullptr, h, _, _ => absurd rfl h
  | node m l r, _, hz, hb => by
    obtain ⟨hm, hbl, hbr⟩ := hb
    have hg : ¬ (m.sz < minPts ∧ m.parent.isSome) := fun h => absurd h.1 (not_lt.mpr hm)
    rcases hz with ⟨rfl, rfl⟩ | ⟨hl, hr, zl, zr⟩
    · exact ⟨_, _, determineStability_leaf_eval m nullptr hg⟩
    · obtain ⟨l1, sl, el⟩ := determineStability_completes hl zl hbl
      obtain ⟨r1, sr, er⟩ := determineStability_completes hr zr hbr
      exact ⟨_, _, determineStability_node_eval m hl hg el er⟩

/-- On a tree in which each node has zero or two children, no node is selected,
the root has two children and every childless node has `sz ≥ minPts`, a call of
`determineSubStability` that completes without error leaves the root unselected,
has processed each child exactly as `determineStability` does and ends with at
least one selected node in each child's subtree; the call completes when the
root has no parent and every other node has `sz ≥ minPts`. -/
theorem determineSubStability_partial (minPts : Nat) (m : Members) (l r : HDCluster)
    (hl : l ≠ nullptr) (hr : r ≠ nullptr) (hz : ZeroOrTwo (node m l r))
    (hn : NoneSelected (node m l r)) (hb : LeavesBig minPts (node m l r)) :
    (∀ t1, determineSubStability minPts (node m l r) = Except.ok t1 →
      ∃ m1 l1 sl r1 sr, determineStability minPts l = Except.ok (l1, sl) ∧
        determineStability minPts r = Except.ok (r1, sr) ∧
        t1 = node m1 l1 r1 ∧ m1.selected = false ∧
        1 ≤ countSelected l1 ∧ 1 ≤ countSelected r1 ∧ 2 ≤ countSelected t1) ∧
    (m.parent = none → AllBig minPts l → AllBig minPts r →
      ∃ t1, determineSubStability minPts (node m l r) = Except.ok t1) := by
  rcases hz with ⟨h0, _⟩ | ⟨_, _, zl, zr⟩
  · exact absurd h0 hl
  constructor
  · intro t1 h
    rw [determineSubStability_node _ _ _ hl] at h
    split_ifs at h with hg
    cases el : determineStability minPts l with
    | error e => simp [el, Except.bind] at h
    | ok p =>
      cases er : determineStability minPts r with
      | error e => simp [el, er, Except.bind] at h
      | ok q =>
        obtain ⟨l1, sl⟩ := p
        obtain ⟨r1, sr⟩ := q
        simp only [el, er, Except.bind] at h
        cases h
        have cl := determineStability_selects zl hb.2.1 el
        have cr := determineStability_selects zr hb.2.2 er
        exact ⟨_, l1, sl, r1, sr, rfl, rfl, rfl, hn.1, cl, cr, by
          simp only [countSelected]; omega⟩
  · intro hroot hbl hbr
    obtain ⟨l1, sl, el⟩ := determineStability_completes hl zl hbl
    obtain ⟨r1, sr, er⟩ := determineStability_completes hr zr hbr
    refine ⟨node { m with stability := ownBase m } l1 r1, ?_⟩
    rw [determineSubStability_node _ _ _ hl, if_neg (by simp [hroot]), el, er]
    rfl

/-- With `minPts = 1` nothing is condensed. -/
theorem condense_one_raw : ∀ (t : HDCluster) (level : Nat), Raw t →
    condense 1 level t = Except.ok t
  | nullptr, _, h => by simp [Raw] at h
  | node m l r, level, h => by
    rcases h with ⟨_, ⟨rfl, rfl, _⟩ | ⟨hl, hr, _, _⟩⟩
    · exact condense_leaf _ _ _ _
    · have el := condense_one_raw l (if level = 0 then level else level - 1) hl
      have er := condense_one_raw r (if level = 0 then level else level - 1) hr
      have hlpos := hl.sz_pos
      cases l with
      | nullptr => simp [Raw] at hl
      | node ml ll lr =>
        cases r with
        | nullptr => simp [Raw] at hr
        | node mr rl rr =>
          rw [condense_node, el, er]
          simp only [Except.bind]
          rw [innerCondense_node, if_neg (by simp only [sz_node] at hlpos; omega)]

/-- C10: on a tree built with the two constructors `condense(1)` returns the
tree unchanged, so `determineStability(1)` gives the same result on the
condensed tree as on the uncondensed one. -/
theorem condense_one_unchanged (t : HDCluster) (level : Nat) (h : Built t) :
    condense 1 level t = Except.ok t ∧
      ∀ t1, condense 1 level t = Except.ok t1 →
        determineStability 1 t1 = determineStability 1 t := by
  have e := condense_one_raw t level h.raw
  refine ⟨e, fun t1 h1 => ?_⟩
  rw [e] at h1
  cases h1
  rfl

theorem condense_one_unchanged_witness :
    Built chain3 ∧ condense 1 0 chain3 = Except.ok chain3 ∧
      ∀ t1, condense 1 0 chain3 = Except.ok t1 →
        determineStability 1 t1 = determineStability 1 chain3 :=
  ⟨built_chain3, condense_one_unchanged chain3 0 built_chain3⟩

/-! ### Export -/

theorem writeAll_append (xs ys : List (Nat × Nat × ℚ)) (ret : Ret) :
    writeAll (xs ++ ys) ret = writeAll ys (writeAll xs ret) := by
  induction xs generalizing ret with
  | nil => rfl
  | cons x xs ih =>
    obtain ⟨p, c, s⟩ := x
    rw [List.cons_append, writeAll, writeAll, ih]

theorem writePoints_eq (cur : Nat) (fp : List (Nat × ℚ)) (ret : Ret) :
    writePoints cur fp ret = writeAll (fp.map (fun it => (it.1, cur, it.2))) ret := by
  induction fp generalizing ret with
  | nil => rfl
  | cons x xs ih => simp only [writePoints, List.map_cons, writeAll, reported, ih]

theorem extractFrom_node (m : Members) {l : HDCluster} (r : HDCluster) (ret : Ret)
    (cnt cur : Nat) (hl : l ≠ nullptr) :
    extractFrom (node m l r) ret cnt cur =
      (extractFrom l (writePoints (if m.selected then cnt else cur) m.fallenPoints ret)
        (if m.selected then cnt + 1 else cnt) (if m.selected then cnt else cur)).bind
        fun q => extractFrom r q.1 q.2 (if m.selected then cnt else cur) := by
  cases l with
  | nullptr => exact absurd rfl hl
  | node ml ll lr =>
    rw [extractFrom]
    simp only [isNull, bind]
    rfl

theorem extractFrom_spec : ∀ (t : HDCluster) (ret : Ret) (cnt cur : Nat),
    t ≠ nullptr → ZeroOrTwo t →
    extractFrom t ret cnt cur =
      Except.ok (writeAll (specAssignments cnt cur t) ret, cnt + countSelected t)
  | nullptr, _, _, _, h, _ => absurd rfl h
  | node m l r, ret, cnt, cur, _, hz => by
    rcases hz with ⟨rfl, rfl⟩ | ⟨hl, hr, zl, zr⟩
    · simp only [extractFrom, isNull, if_true, specAssignments, countSelected, writePoints_eq,
        List.append_nil, Nat.add_zero]
      split_ifs <;> rfl
    · rw [extractFrom_node m r ret cnt cur hl, extractFrom_spec l _ _ _ hl zl]
      simp only [Except.bind]
      rw [extractFrom_spec r _ _ _ hr zr]
      simp only [specAssignments, writeAll_append, writePoints_eq, countSelected]
      split_ifs <;> simp only [Nat.add_assoc, Nat.add_comm, Nat.add_left_comm, Nat.add_zero]

theorem writeAll_untouched (xs : List (Nat × Nat × ℚ)) (ret : Ret) (i : Nat)
    (h : ∀ x ∈ xs, i ≠ x.1 * 2 ∧ i ≠ x.1 * 2 + 1) : writeAll xs ret i = ret i := by
  induction xs generalizing ret with
  | nil => rfl
  | cons x xs ih =>
    obtain ⟨p, c, s⟩ := x
    have hx := h (p, c, s) (List.mem_cons_self _ _)
    rw [writeAll, ih _ (fun y hy => h y (List.mem_cons_of_mem _ hy))]
    simp [store, hx.1, hx.2]

theorem writeAll_entry : ∀ (xs : List (Nat × Nat × ℚ)) (ret : Ret),
    (xs.map (fun x => x.1)).Nodup → ∀ p c s, (p, c, s) ∈ xs →
    writeAll xs ret (p * 2) = reported c ∧ writeAll xs ret (p * 2 + 1) = some s
  | [], _, _, _, _, _, h => by simp at h
  | (p0, c0, s0) :: rest, ret, hd, p, c, s, h => by
    rw [List.map_cons, List.nodup_cons] at hd
    rw [writeAll]
    rcases List.mem_cons.mp h with heq | hmem
    · cases heq
      have hfree : ∀ x ∈ rest, p0 ≠ x.1 := fun x hx hpx =>
        hd.1 (List.mem_map.mpr ⟨x, hx, hpx.symm⟩)
      rw [writeAll_untouched rest _ (p0 * 2) (fun x hx => by have := hfree x hx; omega),
        writeAll_untouched rest _ (p0 * 2 + 1) (fun x hx => by have := hfree x hx; omega)]
      simp [store]
    · exact writeAll_entry rest _ hd.2 p c s hmem

theorem specAssignments_ids (cnt cur : Nat) (t : HDCluster) :
    (specAssignments cnt cur t).map (fun x => x.1) = fallenIds t := by
  induction t generalizing cnt cur with
  | nullptr => rfl
  | node m l r ihl ihr =>
    simp only [specAssignments, fallenIds, List.map_append, List.map_map, ihl, ihr]
    rfl

/-- C5, amended: on a tree in which each node has zero or two children,
`extract` started with the counter at `cnt` numbers the selected nodes
`cnt, cnt + 1, ...` in preorder and makes, for the entries of all `fallenPoints`
in preorder, the writes `ret[2 * pointId + 1] = scale` and
`ret[2 * pointId] = ` the carried index (that of the nearest selected node among
the node and its ancestors, or the value passed for `NA_REAL` when there is
none), where the index 0 is written as `NA_REAL`; with distinct point ids these
are the final values of the array. -/
theorem extract_spec (naIndex cnt : Nat) (t : HDCluster) (ret : Ret)
    (ht : t ≠ nullptr) (hz : ZeroOrTwo t) :
    extract naIndex t ret cnt =
        Except.ok (writeAll (specAssignments cnt naIndex t) ret, cnt + countSelected t) ∧
      ((fallenIds t).Nodup → ∀ p c s, (p, c, s) ∈ specAssignments cnt naIndex t →
        writeAll (specAssignments cnt naIndex t) ret (p * 2) =
            (if c = 0 then none else some (c : ℚ)) ∧
          writeAll (specAssignments cnt naIndex t) ret (p * 2 + 1) = some s) := by
  refine ⟨extractFrom_spec t ret cnt naIndex ht hz, fun hd p c s h => ?_⟩
  exact writeAll_entry _ ret (by rw [specAssignments_ids]; exact hd) p c s h

/-- The tree `twoClusters` is what `condense(2)` followed by
`determineStability(2)` makes of `balanced4`. -/
theorem twoClusters_reached :
    (condense 2 0 balanced4).bind (determineStability 2) = Except.ok (twoClusters, 2) := by
  norm_num [balanced4, pair23, pair01, okOr, merge, leaf, fresh, adopt, condense, isNull,
    innerCondense, condenseTooSmall, condenseSingleton, mergeUp, absorb, swapChildren,
    updateRank, resetRank, determineStability, twoClusters, bind, Except.bind]

theorem specAssignments_twoClusters (naIndex : Nat) :
    specAssignments 0 naIndex twoClusters =
      [(3, 0, 1), (2, 0, 1), (1, 1, 1), (0, 1, 1)] := by
  simp [specAssignments, twoClusters, countSelected]

/-- C5, counterexample: started with the counter at 0 on `twoClusters` and a
zero-filled array (the `NA_REAL` argument taken as 0), `extract` numbers the two selected nodes 0 and 1 and reports the points 3 and 2 of the
first one with `NA_REAL`, not with the index 0, while the points 1 and 0 of the
second one are reported with the index 1. -/
theorem extract_first_cluster_NA :
    ∃ ret1, extract 0 twoClusters (fun _ => some 0) 0 = Except.ok (ret1, 2) ∧
      ret1 (3 * 2) = none ∧ ret1 (2 * 2) = none ∧
      ret1 (3 * 2) ≠ some 0 ∧ ret1 (2 * 2) ≠ some 0 ∧
      ret1 (1 * 2) = some 1 ∧ ret1 (0 * 2) = some 1 := by
  refine ⟨writeAll [(3, 0, 1), (2, 0, 1), (1, 1, 1), (0, 1, 1)] (fun _ => some 0), ?_, ?_⟩
  · rw [extract, extractFrom_spec _ _ _ _ (by simp [twoClusters])
      (by simp [ZeroOrTwo, twoClusters]), specAssignments_twoClusters]
    simp [countSelected, twoClusters]
  · simp [writeAll, store, reported]

theorem extract_spec_witness :
    twoClusters ≠ nullptr ∧ ZeroOrTwo twoClusters ∧
      extract 0 twoClusters (fun _ => none) 0 =
        Except.ok (writeAll (specAssignments 0 0 twoClusters) (fun _ => none),
          0 + countSelected twoClusters) ∧
      ((fallenIds twoClusters).Nodup → ∀ p c s, (p, c, s) ∈ specAssignments 0 0 twoClusters →
        writeAll (specAssignments 0 0 twoClusters) (fun _ => none) (p * 2) =
            (if c = 0 then none else some (c : ℚ)) ∧
          writeAll (specAssignments 0 0 twoClusters) (fun _ => none) (p * 2 + 1) = some s) :=
  ⟨by simp [twoClusters], by simp [ZeroOrTwo, twoClusters],
    extract_spec 0 0 twoClusters (fun _ => none) (by simp [twoClusters])
      (by simp [ZeroOrTwo, twoClusters])⟩

/-! ### Condensation, step by step -/

theorem condense_condensesTo (minPts : Nat) : ∀ (t : HDCluster) (level : Nat), Raw t →
    ∃ t1, condense minPts level t = Except.ok t1 ∧ CondensesTo minPts t t1
  | nullptr, _, h => by simp [Raw] at h
  | node m l r, level, h => by
    rcases h with ⟨hfp, ⟨hl, hr, h1⟩ | ⟨hl, hr, hle, hs⟩⟩
    · subst hl hr
      exact ⟨_, condense_leaf _ _ _ _, CondensesTo.leaf m h1 hfp⟩
    · obtain ⟨ml, ll, lr, el, hsl, _, _, hsml, _⟩ :=
        condense_raw minPts l (if level = 0 then level else level - 1) hl
      obtain ⟨mr, rl, rr, er, hsr, hcr, _, hsmr, _⟩ :=
        condense_raw minPts r (if level = 0 then level else level - 1) hr
      obtain ⟨l1, el1, cl⟩ :=
        condense_condensesTo minPts l (if level = 0 then level else level - 1) hl
      obtain ⟨r1, er1, cr⟩ :=
        condense_condensesTo minPts r (if level = 0 then level else level - 1) hr
      obtain rfl : l1 = node ml ll lr := Except.ok.inj (el1.symm.trans el)
      obtain rfl : r1 = node mr rl rr := Except.ok.inj (er1.symm.trans er)
      have hc : condense minPts level (node m l r) =
          innerCondense minPts (node m (node ml ll lr) (node mr rl rr)) := by
        cases l with
        | nullptr => simp [Raw] at hl
        | node _ _ _ => rw [condense_node, el, er]; rfl
      rw [hc, innerCondense_node]
      by_cases c1 : ml.sz < minPts
      · obtain ⟨rfl, rfl⟩ := hsml (hsl ▸ c1)
        rw [if_pos c1]
        by_cases c2 : mr.sz < minPts
        · obtain ⟨rfl, rfl⟩ := hsmr (hsr ▸ c2)
          rw [if_pos c2]
          exact ⟨_, rfl, CondensesTo.foldBoth hfp hs cl cr c1 c2⟩
        · rw [if_neg c2]
          rcases hcr with ⟨rfl, rfl⟩ | ⟨hn1, hn2, _⟩
          · exact ⟨_, rfl, CondensesTo.keep 0 hfp hs cl cr c1 (not_lt.mp c2)⟩
          · cases rl with
            | nullptr => exact absurd rfl hn1
            | node mrl rll rlr =>
              cases rr with
              | nullptr => exact absurd rfl hn2
              | node mrr rrl rrr =>
                exact ⟨_, rfl, CondensesTo.keep _ hfp hs cl cr c1 (not_lt.mp c2)⟩
      · rw [if_neg c1]
        have h1 : minPts ≤ ml.sz := not_lt.mp c1
        refine ⟨_, rfl, CondensesTo.unchanged hfp hs cl cr (by simp) (by simp) h1 ?_⟩
        simp only [sz_node]; omega

theorem CondensesTo.sz_eq {minPts : Nat} {t t1 : HDCluster} (h : CondensesTo minPts t t1) :
    t1.sz = t.sz := by
  cases h <;> simp

theorem CondensesTo.src_sz_pos {minPts : Nat} {t t1 : HDCluster} (h : CondensesTo minPts t t1) :
    1 ≤ t.sz := by
  induction h with
  | leaf m h1 _ => simp [h1]
  | foldBoth _ hs _ _ _ _ ihl _ => simp only [sz_node] at *; omega
  | keep _ _ hs _ _ _ _ ihl _ => simp only [sz_node] at *; omega
  | unchanged _ hs _ _ _ _ _ _ ihl _ => simp only [sz_node] at *; omega

/-- A result of size 1 is an untouched leaf. -/
theorem CondensesTo.of_sz_one {minPts : Nat} {t : HDCluster} {m1 : Members} {l1 r1 : HDCluster}
    (h : CondensesTo minPts t (node m1 l1 r1)) (h1 : m1.sz = 1) :
    m1.fallenPoints = [] ∧ l1 = nullptr ∧ r1 = nullptr := by
  have hsz := h.sz_eq
  cases h with
  | leaf _ _ hfp => exact ⟨hfp, rfl, rfl⟩
  | foldBoth _ hs cl cr _ _ =>
    have := cl.src_sz_pos; have := cr.src_sz_pos
    simp only [sz_node, absorb_sz] at *; omega
  | keep _ _ hs cl cr _ _ =>
    have := cl.src_sz_pos; have := cr.src_sz_pos
    simp only [sz_node, absorb_sz] at *; omega
  | unchanged _ hs cl cr _ _ _ _ =>
    have := cl.src_sz_pos; have := cr.src_sz_pos
    simp only [sz_node] at *; omega

theorem CondensesTo.parent_eq {minPts : Nat} {m m1 : Members} {l r l1 r1 : HDCluster}
    (h : CondensesTo minPts (node m l r) (node m1 l1 r1)) :
    m1.parent = m.parent ∧ m1.selected = m.selected ∧ m1.lambda_birth = m.lambda_birth ∧
      m1.id = m.id := by
  cases h <;> simp [absorb] <;> split_ifs <;> simp

theorem CondensesTo.src_ne_null {minPts : Nat} {t t1 : HDCluster}
    (h : CondensesTo minPts t t1) : t ≠ nullptr := by
  cases h <;> simp

@[simp] theorem sz_nullptr : nullptr.sz = 0 := rfl

@[simp] theorem isNull_nullptr : nullptr.isNull = true := rfl

@[simp] theorem isNull_node (m : Members) (l r : HDCluster) : (node m l r).isNull = false := rfl

theorem CondensesTo.res_sz_pos {minPts : Nat} {t : HDCluster} {m1 : Members}
    {l1 r1 : HDCluster} (h : CondensesTo minPts t (node m1 l1 r1)) : 1 ≤ m1.sz := by
  have h1 := h.src_sz_pos
  have h2 := h.sz_eq
  rw [sz_node] at h2
  omega

/-- The size of a childless node that satisfies the size equation, in terms of
its `fallenPoints`. -/
theorem szOK_childless {ml : Members} (hs : SzOK (node ml nullptr nullptr)) :
    (ml.fallenPoints = [] ∧ ml.sz = 1) ∨
      (ml.fallenPoints ≠ [] ∧ ml.sz = ml.fallenPoints.length) := by
  have e := hs.1
  cases hfp : ml.fallenPoints with
  | nil => left; simpa [hfp] using e
  | cons x xs => right; simpa [hfp] using e

/-- The number of entries that `mergeUp` adds for a childless child is the size
of the child. -/
theorem absorb_length (m ml : Members) (hs : SzOK (node ml nullptr nullptr))
    (h1 : ml.sz = 1 → ml.fallenPoints = []) :
    (absorb m ml).fallenPoints.length = m.fallenPoints.length + ml.sz := by
  by_cases hs1 : ml.sz = 1
  · simp [absorb, hs1, h1 hs1]
  · rcases szOK_childless hs with ⟨_, h⟩ | ⟨_, h⟩
    · exact absurd h hs1
    · simp [absorb, hs1, ← h]

theorem absorb_length_big (m mr : Members) (hs1 : mr.sz ≠ 1) :
    (absorb m mr).fallenPoints.length = m.fallenPoints.length + mr.fallenPoints.length := by
  simp [absorb, hs1]

theorem szOK_of_nonempty {m : Members} {l r : HDCluster} (hl : SzOK l) (hr : SzOK r)
    (hne : 1 ≤ m.fallenPoints.length)
    (h : m.sz = l.sz + r.sz + m.fallenPoints.length) : SzOK (node m l r) := by
  refine ⟨?_, hl, hr⟩
  have : m.fallenPoints.isEmpty = false := by
    cases hfp : m.fallenPoints with
    | nil => simp [hfp] at hne
    | cons _ _ => rfl
  simp [this, h]

theorem CondensesTo.szOK {minPts : Nat} {t t1 : HDCluster} (h : CondensesTo minPts t t1) :
    SzOK t1 := by
  induction h with
  | leaf m h1 hfp => exact ⟨by simp [h1, hfp], trivial, trivial⟩
  | @foldBoth m ml mr l r hfp hs cl cr _ _ ihl ihr =>
    have e1 := absorb_length m ml ihl fun h => (cl.of_sz_one h).1
    have e2 := absorb_length (absorb m ml) mr ihr fun h => (cr.of_sz_one h).1
    have pl := cl.res_sz_pos
    have el := cl.sz_eq
    have er := cr.sz_eq
    rw [sz_node] at el er
    apply szOK_of_nonempty (show SzOK nullptr from trivial) (show SzOK nullptr from trivial)
    · show 1 ≤ (absorb (absorb m ml) mr).fallenPoints.length
      omega
    · show (absorb (absorb m ml) mr).sz =
        0 + 0 + (absorb (absorb m ml) mr).fallenPoints.length
      rw [absorb_sz, absorb_sz, e2, e1, hfp, hs, ← el, ← er]
      simp
  | @keep m ml mr l r rl rr rk hfp hs cl cr c1 c2 ihl ihr =>
    have e1 := absorb_length m ml ihl fun h => (cl.of_sz_one h).1
    have pl := cl.res_sz_pos
    have el := cl.sz_eq
    have er := cr.sz_eq
    rw [sz_node] at el er
    have hne1 : mr.sz ≠ 1 := by omega
    have e2 := absorb_length_big (absorb m ml) mr hne1
    have er2 : mr.sz = rl.sz + rr.sz + mr.fallenPoints.length := by
      have e := ihr.1
      by_cases hind : (rl.isNull && rr.isNull && mr.fallenPoints.isEmpty) = true
      · rw [if_pos hind] at e
        simp only [Bool.and_eq_true] at hind
        obtain ⟨⟨h1, h2⟩, h3⟩ := hind
        rw [(isNull_iff _).mp h1, (isNull_iff _).mp h2] at e
        rw [List.isEmpty_iff] at h3
        simp [h3] at e
        omega
      · rw [if_neg hind] at e
        exact e
    apply szOK_of_nonempty ihr.2.1 ihr.2.2
    · show 1 ≤ (absorb (absorb m ml) mr).fallenPoints.length
      omega
    · show (absorb (absorb m ml) mr).sz =
        rl.sz + rr.sz + (absorb (absorb m ml) mr).fallenPoints.length
      rw [absorb_sz, absorb_sz, e2, e1, hfp, hs, ← el, ← er]
      simp
      omega
  | @unchanged m l r l1 r1 hfp hs cl cr hn1 _ _ _ ihl ihr =>
    refine ⟨?_, ihl, ihr⟩
    have hnull : l1.isNull = false := by
      cases l1 with
      | nullptr => exact absurd rfl hn1
      | node _ _ _ => rfl
    simp [hnull, hfp, hs, cl.sz_eq, cr.sz_eq]

/-- The entries that `mergeUp` records for a childless child are what the child holds. -/
theorem absorb_held (m ml : Members) (h1 : ml.sz = 1 → ml.fallenPoints = []) :
    (absorb m ml).fallenPoints = m.fallenPoints ++ held (node ml nullptr nullptr) := by
  by_cases hs : ml.sz = 1
  · simp [absorb, held, hs, h1 hs]
  · simp [absorb, held, hs]

theorem absorb_fallen_big (m mr : Members) (hs : mr.sz ≠ 1) :
    (absorb m mr).fallenPoints = m.fallenPoints ++ mr.fallenPoints := by
  simp [absorb, hs]

theorem held_big (m : Members) (l r : HDCluster) (hs : m.sz ≠ 1) :
    held (node m l r) = m.fallenPoints ++ held l ++ held r := by
  simp [held, hs]

theorem leafBirths_node (m : Members) {l : HDCluster} (r : HDCluster) (hl : l ≠ nullptr) :
    leafBirths (node m l r) = leafBirths l ++ leafBirths r := by
  cases l with
  | nullptr => exact absurd rfl hl
  | node _ _ _ => simp [leafBirths]

/-- The condensed tree holds the leaves of the original tree, each with the
`lambda_birth` it had there. -/
theorem CondensesTo.held_perm {minPts : Nat} {t t1 : HDCluster}
    (h : CondensesTo minPts t t1) : (held t1).Perm (leafBirths t) := by
  induction h with
  | leaf m h1 hfp => simp [held, leafBirths, h1, hfp]
  | @foldBoth m ml mr l r hfp hs cl cr _ _ ihl ihr =>
    have pl := cl.src_sz_pos
    have pr := cr.src_sz_pos
    rw [leafBirths_node _ _ cl.src_ne_null, held_big _ _ _ (by simp; omega)]
    show ((absorb (absorb m ml) mr).fallenPoints ++ held nullptr ++ held nullptr).Perm _
    rw [absorb_held _ _ fun h => (cr.of_sz_one h).1,
      absorb_held _ _ fun h => (cl.of_sz_one h).1, hfp]
    simpa [held] using ihl.append ihr
  | @keep m ml mr l r rl rr rk hfp hs cl cr c1 c2 ihl ihr =>
    have pl := cl.src_sz_pos
    have pr := cr.src_sz_pos
    have hl1 := cl.res_sz_pos
    have hne : mr.sz ≠ 1 := by omega
    rw [leafBirths_node _ _ cl.src_ne_null, held_big _ _ _ (by simp; omega)]
    show ((absorb (absorb m ml) mr).fallenPoints ++ held rl ++ held rr).Perm _
    rw [absorb_fallen_big _ _ hne, absorb_held _ _ fun h => (cl.of_sz_one h).1, hfp]
    rw [held_big _ _ _ hne] at ihr
    simpa [List.append_assoc] using ihl.append ihr
  | @unchanged m l r l1 r1 hfp hs cl cr hn1 _ _ _ ihl ihr =>
    have pl := cl.src_sz_pos
    have pr := cr.src_sz_pos
    rw [leafBirths_node _ _ cl.src_ne_null, held_big _ _ _ (by omega), hfp]
    simpa using ihl.append ihr

theorem allFallen_sublist_held : ∀ (t : HDCluster), (allFallen t).Sublist (held t)
  | nullptr => List.Sublist.refl _
  | node m l r => by
    simp only [allFallen, held, List.append_assoc]
    exact (List.Sublist.refl _).append
      ((List.sublist_append_right _ _).trans
        ((List.Sublist.refl _).append ((allFallen_sublist_held l).append
          (allFallen_sublist_held r))))

/-- The condensed tree has zero or two children at each node, and every node
other than the root has `sz ≥ minPts`. -/
theorem CondensesTo.shape {minPts : Nat} {t t1 : HDCluster} (h : CondensesTo minPts t t1) :
    ZeroOrTwo t1 ∧ BelowRootBig minPts t1 := by
  induction h with
  | leaf m _ _ => exact ⟨Or.inl ⟨rfl, rfl⟩, trivial, trivial⟩
  | foldBoth _ _ _ _ _ _ _ _ => exact ⟨Or.inl ⟨rfl, rfl⟩, trivial, trivial⟩
  | @keep m ml mr l r rl rr rk _ _ _ _ _ _ _ ihr => exact ⟨ihr.1, ihr.2⟩
  | @unchanged m l r l1 r1 _ _ cl cr hn1 hn2 hb1 hb2 ihl ihr =>
    refine ⟨Or.inr ⟨hn1, hn2, ihl.1, ihr.1⟩, ?_, ?_⟩
    · cases l1 with
      | nullptr => exact absurd rfl hn1
      | node _ _ _ => exact ⟨hb1, ihl.2⟩
    · cases r1 with
      | nullptr => exact absurd rfl hn2
      | node _ _ _ => exact ⟨hb2, ihr.2⟩

theorem BuiltWith.built {t : HDCluster} {ps : List (Nat × ℚ)} (h : BuiltWith t ps) :
    Built t := by
  induction h with
  | leaf id => exact Built.leaf id
  | merge id d _ _ hm iha ihb => exact Built.merge id d iha ihb hm

/-- The result of a successful merge, in terms of its arguments. -/
theorem merge_ok {a b n : HDCluster} {id : Nat} {d : ℚ}
    (h : HDCluster.merge a b id d = Except.ok n) :
    a ≠ nullptr ∧ b ≠ nullptr ∧ d ≠ 0 ∧
      ∃ m, m.parent = none ∧ m.sum_lambda_p = 0 ∧ m.fallenPoints = [] ∧
        m.selected = false ∧
        ((a.sz < b.sz ∧ n = node m (adopt id (1 / d) a) (adopt id (1 / d) b)) ∨
          (¬ a.sz < b.sz ∧ n = node m (adopt id (1 / d) b) (adopt id (1 / d) a))) := by
  cases a with
  | nullptr => simp [HDCluster.merge] at h
  | node ma la ra =>
    cases b with
    | nullptr => simp [HDCluster.merge] at h
    | node mb lb rb =>
      simp only [HDCluster.merge] at h
      split_ifs at h with hd hlt
      · cases h
        exact ⟨by simp, by simp, hd, _, rfl, rfl, rfl, rfl, Or.inl ⟨hlt, rfl⟩⟩
      · cases h
        exact ⟨by simp, by simp, hd, _, rfl, rfl, rfl, rfl, Or.inr ⟨hlt, rfl⟩⟩

theorem zeroSums_adopt {t : HDCluster} (id : Nat) (ld : ℚ) (h : ZeroSums t) :
    ZeroSums (adopt id ld t) := by
  cases t with
  | nullptr => trivial
  | node m l r => exact h

theorem Built.zeroSums {t : HDCluster} (h : Built t) : ZeroSums t := by
  induction h with
  | leaf id => exact ⟨rfl, trivial, trivial⟩
  | merge id d _ _ hm iha ihb =>
    obtain ⟨_, _, _, m, _, hs, _, _, ⟨_, rfl⟩ | ⟨_, rfl⟩⟩ := merge_ok hm
    · exact ⟨hs, zeroSums_adopt _ _ iha, zeroSums_adopt _ _ ihb⟩
    · exact ⟨hs, zeroSums_adopt _ _ ihb, zeroSums_adopt _ _ iha⟩

theorem Built.root_parent {t : HDCluster} (h : Built t) :
    ∃ m l r, t = node m l r ∧ m.parent = none := by
  cases h with
  | leaf id => exact ⟨_, _, _, rfl, rfl⟩
  | merge id d _ _ hm =>
    obtain ⟨_, _, _, m, hp, _, _, _, ⟨_, rfl⟩ | ⟨_, rfl⟩⟩ := merge_ok hm
    · exact ⟨_, _, _, rfl, hp⟩
    · exact ⟨_, _, _, rfl, hp⟩

/-- The childless nodes below an adopted child, with their `lambda_birth`. -/
theorem leafBirths_adopt {a : HDCluster} {pa : List (Nat × ℚ)} (id : Nat) (d : ℚ)
    (h : (a.childless = true → pa = []) ∧ (a.childless = false → (leafBirths a).Perm pa))
    (ha : a ≠ nullptr) :
    (leafBirths (adopt id (1 / d) a)).Perm (pa ++ consumedLeaf a d) := by
  cases a with
  | nullptr => exact absurd rfl ha
  | node m l r =>
    by_cases hc : (node m l r).childless = true
    · have hc2 : (l.isNull && r.isNull) = true := hc
      rw [h.1 hc]
      simp [adopt, leafBirths, consumedLeaf, hc, hc2]
    · have hc2 : ¬ (l.isNull && r.isNull) = true := hc
      have := h.2 (by simpa using hc)
      simpa [adopt, leafBirths, consumedLeaf, hc, hc2] using this

theorem childless_merge {a b n : HDCluster} {id : Nat} {d : ℚ}
    (h : HDCluster.merge a b id d = Except.ok n) : n.childless = false := by
  obtain ⟨hna, hnb, _, m, _, _, _, _, ⟨_, rfl⟩ | ⟨_, rfl⟩⟩ := merge_ok h
  · cases a with
    | nullptr => exact absurd rfl hna
    | node _ _ _ => rfl
  · cases b with
    | nullptr => exact absurd rfl hnb
    | node _ _ _ => rfl

theorem leafBirths_merge {a b n : HDCluster} {id : Nat} {d : ℚ}
    (h : HDCluster.merge a b id d = Except.ok n) :
    (leafBirths n).Perm
      (leafBirths (adopt id (1 / d) a) ++ leafBirths (adopt id (1 / d) b)) := by
  obtain ⟨hna, hnb, _, m, _, _, _, _, ⟨_, rfl⟩ | ⟨_, rfl⟩⟩ := merge_ok h
  · rw [leafBirths_node]
    cases a with
    | nullptr => exact absurd rfl hna
    | node _ _ _ => simp [adopt]
  · rw [leafBirths_node]
    · exact List.perm_append_comm
    · cases b with
      | nullptr => exact absurd rfl hnb
      | node _ _ _ => simp [adopt]

theorem BuiltWith.leafBirths {t : HDCluster} {ps : List (Nat × ℚ)} (h : BuiltWith t ps) :
    (t.childless = true → ps = []) ∧ (t.childless = false → (leafBirths t).Perm ps) := by
  induction h with
  | leaf id => exact ⟨fun _ => rfl, fun h => by cases (show true = false from h)⟩
  | @merge a b n pa pb id d ha hb hm iha ihb =>
    have hna := (merge_ok hm).1
    have hnb := (merge_ok hm).2.1
    refine ⟨fun hc => ?_, fun _ => ?_⟩
    · rw [childless_merge hm] at hc
      cases hc
    · refine (leafBirths_merge hm).trans ?_
      refine ((leafBirths_adopt id d iha hna).append (leafBirths_adopt id d ihb hnb)).trans ?_
      simp only [List.append_assoc]
      exact List.Perm.append_left _ (List.perm_append_comm_assoc _ _ _)

/-! ### Bookkeeping of condensation -/

theorem condense_chain3 : condense 2 0 chain3 = Except.ok chain3Condensed := by
  norm_num [chain3, pair01, okOr, merge, leaf, fresh, adopt, condense, isNull, innerCondense,
    condenseTooSmall, condenseSingleton, mergeUp, absorb, swapChildren, updateRank, resetRank,
    chain3Condensed, bind, Except.bind]

/-- C16, amended: on a tree built with the two constructors, `condense` returns
a tree in which the `sz` of every node is the sum of the `sz` of its children and
of the number of its `fallenPoints`, plus 1 only for an untouched leaf (a
childless node with empty `fallenPoints`). -/
theorem condense_sz (t : HDCluster) (minPts level : Nat) (h : Built t) :
    ∃ t1, condense minPts level t = Except.ok t1 ∧ SzOK t1 := by
  obtain ⟨t1, e, c⟩ := condense_condensesTo minPts t level h.raw
  exact ⟨t1, e, c.szOK⟩

theorem condense_sz_witness :
    Built chain3 ∧ ∃ t1, condense 2 0 chain3 = Except.ok t1 ∧ SzOK t1 :=
  ⟨built_chain3, condense_sz chain3 2 0 built_chain3⟩

/-- C16, counterexample: `condense(2)` turns `chain3` into a childless root of
`sz = 3` with three fallen points, where `1 + 0 + 3 = 4`. -/
theorem condense_sz_not_plus_one :
    Built chain3 ∧ condense 2 0 chain3 = Except.ok chain3Condensed ∧
      ¬ SzPlusOne chain3Condensed :=
  ⟨built_chain3, condense_chain3, by simp [SzPlusOne, chain3Condensed]⟩

/-- C18: on a tree built with the two constructors, every entry
`(pointId, scale)` in the `fallenPoints` of a node of the condensed tree is a
leaf id paired with `1/d` of the merge whose direct child that leaf was. -/
theorem condense_keeps_scales (t : HDCluster) (ps : List (Nat × ℚ)) (minPts level : Nat)
    (h : BuiltWith t ps) :
    ∃ t1, condense minPts level t = Except.ok t1 ∧ ∀ e ∈ allFallen t1, e ∈ ps := by
  obtain ⟨t1, e, c⟩ := condense_condensesTo minPts t level h.built.raw
  refine ⟨t1, e, fun x hx => ?_⟩
  have hx1 : x ∈ leafBirths t := c.held_perm.subset ((allFallen_sublist_held t1).subset hx)
  by_cases hc : t.childless = true
  · -- a lone leaf is returned as it is and has no fallen points
    cases t with
    | nullptr => cases hc
    | node m l r =>
      have hl : l = nullptr := by
        cases l with
        | nullptr => rfl
        | node _ _ _ => cases hc
      have hr : r = nullptr := by
        cases r with
        | nullptr => rfl
        | node _ _ _ => subst hl; cases hc
      subst hl hr
      rw [condense_leaf] at e
      cases e
      have hfp : m.fallenPoints = [] := h.built.raw.1
      simp [allFallen, hfp] at hx
  · exact (h.leafBirths.2 (by simpa using hc)).subset hx1

theorem builtWith_chain3 :
    BuiltWith chain3 [(0, 1 / 1), (1, 1 / 1), (2, 1 / 2)] :=
  BuiltWith.merge 11 2 (BuiltWith.merge 10 1 (BuiltWith.leaf 0) (BuiltWith.leaf 1) rfl)
    (BuiltWith.leaf 2) rfl

theorem condense_keeps_scales_witness :
    BuiltWith chain3 [(0, 1 / 1), (1, 1 / 1), (2, 1 / 2)] ∧
      ∃ t1, condense 2 0 chain3 = Except.ok t1 ∧
        ∀ e ∈ allFallen t1, e ∈ [(0, 1 / 1), (1, 1 / 1), ((2 : Nat), (1 / 2 : ℚ))] :=
  ⟨builtWith_chain3, condense_keeps_scales chain3 _ 2 0 builtWith_chain3⟩

/-- `determineStability` completes on a tree whose root has no parent, whose
nodes have zero or two children and whose nodes other than the root have
`sz ≥ minPts`. -/
theorem determineStability_completes_root {minPts : Nat} {m : Members} {l r : HDCluster}
    (hp : m.parent = none) (hz : ZeroOrTwo (node m l r))
    (hb : BelowRootBig minPts (node m l r)) :
    ∃ t1 v, determineStability minPts (node m l r) = Except.ok (t1, v) := by
  have hg : ¬ (m.sz < minPts ∧ m.parent.isSome) := by simp [hp]
  rcases hz with ⟨rfl, rfl⟩ | ⟨hl, hr, zl, zr⟩
  · exact ⟨_, _, determineStability_leaf_eval m nullptr hg⟩
  · obtain ⟨l1, sl, el⟩ := determineStability_completes hl zl hb.1
    obtain ⟨r1, sr, er⟩ := determineStability_completes hr zr hb.2
    exact ⟨_, _, determineStability_node_eval m hl hg el er⟩

theorem determineSubStability_completes_root {minPts : Nat} {m : Members} {l r : HDCluster}
    (hp : m.parent = none) (hz : ZeroOrTwo (node m l r))
    (hb : BelowRootBig minPts (node m l r)) :
    ∃ t1, determineSubStability minPts (node m l r) = Except.ok t1 := by
  rcases hz with ⟨rfl, rfl⟩ | ⟨hl, hr, zl, zr⟩
  · exact ⟨node { m with stability := ownBase m } nullptr nullptr, by
      simp [determineSubStability, hp, ownBase]⟩
  · obtain ⟨l1, sl, el⟩ := determineStability_completes hl zl hb.1
    obtain ⟨r1, sr, er⟩ := determineStability_completes hr zr hb.2
    refine ⟨node { m with stability := ownBase m } l1 r1, ?_⟩
    rw [determineSubStability_node _ _ _ hl, if_neg (by simp [hp]), el, er]
    rfl

/-- C19: on a tree built with the two constructors, `condense` returns a tree
whose root has a null `parent` and whose other nodes all have `sz ≥ minPts`, so
the test before "Condense failed" never holds: `determineStability` and
`determineSubStability` both complete on it. -/
theorem condense_then_stability (t : HDCluster) (minPts level : Nat) (h : Built t) :
    ∃ m1 l1 r1, condense minPts level t = Except.ok (node m1 l1 r1) ∧
      m1.parent = none ∧ BelowRootBig minPts (node m1 l1 r1) ∧
      (∃ t2 v, determineStability minPts (node m1 l1 r1) = Except.ok (t2, v)) ∧
      (∃ t2, determineSubStability minPts (node m1 l1 r1) = Except.ok t2) := by
  obtain ⟨t1, e, c⟩ := condense_condensesTo minPts t level h.raw
  obtain ⟨m, l, r, rfl, hp⟩ := h.root_parent
  have hsh := c.shape
  cases t1 with
  | nullptr => cases c
  | node m1 l1 r1 =>
    have hp1 : m1.parent = none := by rw [c.parent_eq.1, hp]
    exact ⟨m1, l1, r1, e, hp1, hsh.2, determineStability_completes_root hp1 hsh.1 hsh.2,
      determineSubStability_completes_root hp1 hsh.1 hsh.2⟩

theorem condense_then_stability_witness :
    Built chain3 ∧
      ∃ m1 l1 r1, condense 2 0 chain3 = Except.ok (node m1 l1 r1) ∧
        m1.parent = none ∧ BelowRootBig 2 (node m1 l1 r1) ∧
        (∃ t2 v, determineStability 2 (node m1 l1 r1) = Except.ok (t2, v)) ∧
        (∃ t2, determineSubStability 2 (node m1 l1 r1) = Except.ok t2) :=
  ⟨built_chain3, condense_then_stability chain3 2 0 built_chain3⟩

theorem caterpillar_adopt {t : HDCluster} (id : Nat) (ld : ℚ) (h : Caterpillar t) :
    Caterpillar (adopt id ld t) := by
  cases t with
  | nullptr => trivial
  | node m l r => exact h

theorem caterpillar_leaf (i : Nat) : Caterpillar (leaf i) := Or.inl ⟨rfl, rfl⟩

theorem sz_leaf (i : Nat) : (leaf i).sz = 1 := rfl

/-! ### Non-negative stability -/

theorem determineStability_nonneg_aux {minPts : Nat} : ∀ {t t1 : HDCluster} {v : ℚ},
    ScalesOrdered t → determineStability minPts t = Except.ok (t1, v) →
    0 ≤ v ∧ t1.stability = v
  | nullptr, _, _, _, h => by simp [determineStability] at h
  | node m nullptr r, t1, v, hs, h => by
    rw [determineStability_leaf] at h
    have : 0 ≤ ownBase m := by
      have := hs.1
      unfold ownBase
      linarith
    split_ifs at h <;> cases h <;> exact ⟨this, rfl⟩
  | node m (node ml ll lr) r, t1, v, hs, h => by
    obtain ⟨l1, sl, r1, sr, el, er, _, e⟩ := determineStability_node_ok h
    have hl := (determineStability_nonneg_aux hs.2.2.1 el).1
    have hr := (determineStability_nonneg_aux hs.2.2.2 er).1
    split_ifs at e with hc <;> cases e
    · exact ⟨by linarith, rfl⟩
    · exact ⟨by linarith, rfl⟩

/-- C15: on a tree in which every node satisfies
`sum_lambda_p ≥ lambda_birth * |fallenPoints|` and every node with children has
`lambda_death ≥ 0`, the value that `determineStability` returns on the root, which
is also the stability stored in the root, is non-negative. -/
theorem determineStability_nonneg (minPts : Nat) (t t1 : HDCluster) (v : ℚ)
    (hs : ScalesOrdered t) (h : determineStability minPts t = Except.ok (t1, v)) :
    0 ≤ v ∧ t1.stability = v :=
  determineStability_nonneg_aux hs h

theorem determineStability_nonneg_witness :
    ScalesOrdered pair01 ∧ determineStability 1 pair01 = Except.ok (pair01Selected, 2) ∧
      (0 : ℚ) ≤ 2 ∧ pair01Selected.stability = 2 :=
  ⟨by norm_num [ScalesOrdered, pair01, okOr, merge, leaf, fresh, adopt], run_pair01,
    determineStability_nonneg 1 pair01 pair01Selected 2
      (by norm_num [ScalesOrdered, pair01, okOr, merge, leaf, fresh, adopt]) run_pair01⟩

/-! ### The selected nodes as an optimal cut -/

theorem unflag_null_iff (t : HDCluster) : unflag t = nullptr ↔ t = nullptr := by
  cases t <;> simp [unflag]

theorem unflag_sz (t : HDCluster) : (unflag t).sz = t.sz := by
  cases t <;> rfl

theorem unflag_isNull (t : HDCluster) : (unflag t).isNull = t.isNull := by
  cases t <;> rfl

theorem unflag_deselect : ∀ (t : HDCluster), unflag (deselect t) = unflag t
  | nullptr => rfl
  | node m l r => by
    rw [deselect]
    split_ifs
    · rfl
    · rfl
    · simp only [unflag, unflag_deselect l, unflag_deselect r]

theorem zeroOrTwo_unflag : ∀ (t : HDCluster), ZeroOrTwo (unflag t) ↔ ZeroOrTwo t
  | nullptr => Iff.rfl
  | node m l r => by
    simp only [unflag, ZeroOrTwo, unflag_null_iff, ne_eq, zeroOrTwo_unflag l,
      zeroOrTwo_unflag r]

theorem pathFlags_node (m : Members) {l : HDCluster} (r : HDCluster) (hl : l ≠ nullptr) :
    pathFlags (node m l r) = (pathFlags l ++ pathFlags r).map (fun p => m.selected :: p) := by
  cases l with
  | nullptr => exact absurd rfl hl
  | node _ _ _ => simp [pathFlags]

theorem pathFlags_ne_nil : ∀ {t : HDCluster}, t ≠ nullptr → ZeroOrTwo t → pathFlags t ≠ []
  | nullptr, h, _ => absurd rfl h
  | node m l r, _, hz => by
    rcases hz with ⟨rfl, rfl⟩ | ⟨hl, _, zl, _⟩
    · simp [pathFlags]
    · rw [pathFlags_node _ _ hl]
      have := pathFlags_ne_nil hl zl
      cases hp : pathFlags l with
      | nil => exact absurd hp this
      | cons _ _ => simp

/-- A tree without selected nodes has no selected node on any path, and score 0. -/
theorem NoneSelected.paths : ∀ {t : HDCluster}, NoneSelected t →
    (∀ p ∈ pathFlags t, p.count true = 0) ∧ selectedScore t = 0
  | nullptr, _ => ⟨by simp [pathFlags], rfl⟩
  | node m l r, ⟨hs, hl, hr⟩ => by
    have il := hl.paths
    have ir := hr.paths
    refine ⟨fun p hp => ?_, by simp [selectedScore, hs, il.2, ir.2]⟩
    unfold pathFlags at hp
    split_ifs at hp
    · simp only [List.mem_singleton] at hp
      subst hp
      simp [hs]
    · simp only [List.mem_map, List.mem_append] at hp
      obtain ⟨q, hq, rfl⟩ := hp
      rw [hs]
      rcases hq with hq | hq
      · simpa using il.1 q hq
      · simpa using ir.1 q hq

/-- If no path carries a selected node, no node is selected. -/
theorem noneSelected_of_paths : ∀ {t : HDCluster}, ZeroOrTwo t →
    (∀ p ∈ pathFlags t, p.count true = 0) → NoneSelected t
  | nullptr, _, _ => trivial
  | node m l r, hz, h => by
    rcases hz with ⟨rfl, rfl⟩ | ⟨hl, hr, zl, zr⟩
    · have := h [m.selected] (by simp [pathFlags])
      refine ⟨?_, trivial, trivial⟩
      cases hm : m.selected with
      | false => rfl
      | true => simp [hm] at this
    · rw [pathFlags_node _ _ hl] at h
      have hsel : m.selected = false := by
        have hne := pathFlags_ne_nil hl zl
        cases hp : pathFlags l with
        | nil => exact absurd hp hne
        | cons q qs =>
          have := h (m.selected :: q) (by simp [hp])
          cases hm : m.selected with
          | false => rfl
          | true => simp [hm] at this
      refine ⟨hsel, noneSelected_of_paths zl fun p hp => ?_,
        noneSelected_of_paths zr fun p hp => ?_⟩
      · have := h (m.selected :: p) (by simp; exact Or.inl hp)
        simpa [hsel] using this
      · have := h (m.selected :: p) (by simp; exact Or.inr hp)
        simpa [hsel] using this

theorem isCut_selected {m : Members} {l r : HDCluster} (hs : m.selected = true)
    (nl : NoneSelected l) (nr : NoneSelected r) : IsCut (node m l r) := by
  intro p hp
  unfold pathFlags at hp
  split_ifs at hp
  · simp only [List.mem_singleton] at hp
    subst hp
    simp [hs]
  · simp only [List.mem_map, List.mem_append] at hp
    obtain ⟨q, hq, rfl⟩ := hp
    rcases hq with hq | hq
    · simpa [hs] using nl.paths.1 q hq
    · simpa [hs] using nr.paths.1 q hq

theorem isCut_unselected {m : Members} {l r : HDCluster} (hs : m.selected = false)
    (hl : l ≠ nullptr) (cl : IsCut l) (cr : IsCut r) : IsCut (node m l r) := by
  intro p hp
  rw [pathFlags_node _ _ hl] at hp
  simp only [List.mem_map, List.mem_append] at hp
  obtain ⟨q, hq, rfl⟩ := hp
  rcases hq with hq | hq
  · simpa [hs] using cl q hq
  · simpa [hs] using cr q hq

/-! ### The balanced dendrogram on eight leaves -/

set_option maxHeartbeats 2000000 in
/-- The run of `condense` and `determineStability` on `balanced8`, evaluated for each
arrangement of the pair distances. -/
theorem balanced8_run (i0 i1 i2 i3 i4 i5 i6 i7 : Nat) (dA dB dC dD : ℚ)
    (hd : (dA, dB, dC, dD) ∈ pairDistances) :
    ∃ C S v, condense 3 0 (balanced8 i0 i1 i2 i3 i4 i5 i6 i7 dA dB dC dD) = Except.ok C ∧
      C.left.childless = true ∧ C.right.childless = true ∧
      C.left.fallenPoints.map Prod.fst = [i7, i6, i5, i4] ∧
      C.right.fallenPoints.map Prod.fst = [i3, i2, i1, i0] ∧
      determineStability 3 C = Except.ok (S, v) ∧
      S.selected = false ∧ S.left.selected = true ∧ S.right.selected = true := by
  simp only [pairDistances, List.mem_cons, Prod.mk.injEq, List.mem_singleton, List.not_mem_nil,
    or_false] at hd
  rcases hd with ⟨rfl, rfl, rfl, rfl⟩ | ⟨rfl, rfl, rfl, rfl⟩ | ⟨rfl, rfl, rfl, rfl⟩ |
    ⟨rfl, rfl, rfl, rfl⟩ | ⟨rfl, rfl, rfl, rfl⟩ | ⟨rfl, rfl, rfl, rfl⟩ <;>
  norm_num [balanced8, okOr, merge, leaf, fresh, adopt, condense, isNull, innerCondense,
    condenseTooSmall, condenseSingleton, mergeUp, absorb, swapChildren, updateRank, resetRank,
    determineStability, deselect, bind, Except.bind, left, right, selected, fallenPoints,
    childless]

/-- C12: the balanced dendrogram on 8 leaves with the pair merges at distances
1, 1, 2, 2 (in any arrangement), the two merges of pairs at distance 3 and the
root merge at distance 4 condenses with `minPts = 3` into a root with two
childless children that hold four points each; `determineStability(3)` then
selects both children and not the root. -/
theorem balanced8_scenario (i0 i1 i2 i3 i4 i5 i6 i7 : Nat) (dA dB dC dD : ℚ)
    (hd : (dA, dB, dC, dD) ∈ pairDistances) :
    ∃ C S v, condense 3 0 (balanced8 i0 i1 i2 i3 i4 i5 i6 i7 dA dB dC dD) = Except.ok C ∧
      C.left.childless = true ∧ C.right.childless = true ∧
      C.left.fallenPoints.map Prod.fst = [i7, i6, i5, i4] ∧
      C.right.fallenPoints.map Prod.fst = [i3, i2, i1, i0] ∧
      determineStability 3 C = Except.ok (S, v) ∧
      S.selected = false ∧ S.left.selected = true ∧ S.right.selected = true :=
  balanced8_run i0 i1 i2 i3 i4 i5 i6 i7 dA dB dC dD hd

theorem balanced8_scenario_witness :
    ((1 : ℚ), (1 : ℚ), (2 : ℚ), (2 : ℚ)) ∈ pairDistances ∧
      ∃ C S v, condense 3 0 (balanced8 0 1 2 3 4 5 6 7 1 1 2 2) = Except.ok C ∧
        C.left.childless = true ∧ C.right.childless = true ∧
        C.left.fallenPoints.map Prod.fst = [7, 6, 5, 4] ∧
        C.right.fallenPoints.map Prod.fst = [3, 2, 1, 0] ∧
        determineStability 3 C = Except.ok (S, v) ∧
        S.selected = false ∧ S.left.selected = true ∧ S.right.selected = true :=
  ⟨by simp [pairDistances],
    balanced8_scenario 0 1 2 3 4 5 6 7 1 1 2 2 (by simp [pairDistances])⟩

/-! ### The hierarchy report -/

theorem membershipAfter_append (xs ys : List (Nat × Nat × ℚ)) (v : Nat → Nat) :
    membershipAfter (xs ++ ys) v = membershipAfter ys (membershipAfter xs v) := by
  induction xs generalizing v with
  | nil => rfl
  | cons x xs ih =>
    obtain ⟨p, i, s⟩ := x
    rw [List.cons_append, membershipAfter, membershipAfter, ih]

theorem lambdasAfter_append (xs ys : List (Nat × Nat × ℚ)) (v : Nat → ℚ) :
    lambdasAfter (xs ++ ys) v = lambdasAfter ys (lambdasAfter xs v) := by
  induction xs generalizing v with
  | nil => rfl
  | cons x xs ih =>
    obtain ⟨p, i, s⟩ := x
    rw [List.cons_append, lambdasAfter, lambdasAfter, ih]

theorem recordPoints_eq (c : Nat) (fp : List (Nat × ℚ)) (h : Hierarchy) :
    recordPoints c fp h =
      { h with
        nodeMembership := membershipAfter (fp.map (fun it => (it.1, c, it.2))) h.nodeMembership,
        lambdas := lambdasAfter (fp.map (fun it => (it.1, c, it.2))) h.lambdas } := by
  induction fp generalizing h with
  | nil => rfl
  | cons x xs ih => simp only [recordPoints, List.map_cons, membershipAfter, lambdasAfter, ih]

theorem reportGuarded_spec : ∀ (t : HDCluster) (h : Hierarchy) (parent : Nat),
    reportGuarded t h parent = specReport t h parent
  | nullptr, h, _ => by
    simp [reportGuarded, specReport, nodeCount, specMembership, membershipAfter, lambdasAfter,
      specParents, preorder]
  | node m l r, h, parent => by
    rw [reportGuarded]
    simp only [reportGuarded_spec l, reportGuarded_spec r, recordPoints_eq]
    simp only [specReport, nodeCount, specMembership, specParents, preorder,
      membershipAfter_append, lambdasAfter_append, List.map_cons, List.map_append,
      List.append_assoc, List.singleton_append, List.cons_append, List.nil_append,
      Nat.add_assoc]

theorem specParents_length (first parent : Nat) (t : HDCluster) :
    (specParents first parent t).length = nodeCount t := by
  induction t generalizing first parent with
  | nullptr => rfl
  | node m l r ihl ihr => simp [specParents, nodeCount, ihl, ihr]; omega

theorem preorder_length (t : HDCluster) : (preorder t).length = nodeCount t := by
  induction t with
  | nullptr => rfl
  | node m l r ihl ihr => simp [preorder, nodeCount, ihl, ihr]; omega

/-- In the parent column every entry after the first is the number of an earlier
node. -/
theorem specParents_lt : ∀ (t : HDCluster) (first parent j q : Nat),
    (specParents first parent t)[j]? = some q →
    (j = 0 ∧ q = parent) ∨ (0 < j ∧ first ≤ q ∧ q < first + j)
  | nullptr, _, _, _, _, h => by simp [specParents] at h
  | node m l r, first, parent, j, q, h => by
    cases j with
    | zero =>
      simp only [specParents, List.getElem?_cons_zero, Option.some.injEq] at h
      exact Or.inl ⟨rfl, h.symm⟩
    | succ k =>
      right
      simp only [specParents, List.getElem?_cons_succ] at h
      by_cases hk : k < (specParents (first + 1) first l).length
      · rw [List.getElem?_append_left hk] at h
        rcases specParents_lt l (first + 1) first k q h with ⟨_, rfl⟩ | ⟨_, h1, h2⟩
        · exact ⟨by omega, by omega, by omega⟩
        · exact ⟨by omega, by omega, by omega⟩
      · rw [List.getElem?_append_right (not_lt.mp hk)] at h
        rw [specParents_length] at h hk
        rcases specParents_lt r (first + 1 + nodeCount l) first _ q h with ⟨_, rfl⟩ | ⟨_, h1, h2⟩
        · exact ⟨by omega, by omega, by omega⟩
        · exact ⟨by omega, by omega, by omega⟩

theorem specMembership_ids (first : Nat) (t : HDCluster) :
    (specMembership first t).map (fun x => x.1) = fallenIds t := by
  induction t generalizing first with
  | nullptr => rfl
  | node m l r ihl ihr =>
    simp only [specMembership, fallenIds, List.map_append, List.map_map, ihl, ihr,
      List.append_assoc]
    rfl

theorem membershipAfter_untouched (xs : List (Nat × Nat × ℚ)) (v : Nat → Nat) (p : Nat)
    (h : ∀ x ∈ xs, p ≠ x.1) : membershipAfter xs v p = v p := by
  induction xs generalizing v with
  | nil => rfl
  | cons x xs ih =>
    obtain ⟨p0, i, s⟩ := x
    have hx := h (p0, i, s) (List.mem_cons_self _ _)
    rw [membershipAfter, ih _ (fun y hy => h y (List.mem_cons_of_mem _ hy))]
    simp [assign, hx]

theorem lambdasAfter_untouched (xs : List (Nat × Nat × ℚ)) (v : Nat → ℚ) (p : Nat)
    (h : ∀ x ∈ xs, p ≠ x.1) : lambdasAfter xs v p = v p := by
  induction xs generalizing v with
  | nil => rfl
  | cons x xs ih =>
    obtain ⟨p0, i, s⟩ := x
    have hx := h (p0, i, s) (List.mem_cons_self _ _)
    rw [lambdasAfter, ih _ (fun y hy => h y (List.mem_cons_of_mem _ hy))]
    simp [assign, hx]

theorem after_entry : ∀ (xs : List (Nat × Nat × ℚ)) (v : Nat → Nat) (w : Nat → ℚ),
    (xs.map (fun x => x.1)).Nodup → ∀ p i s, (p, i, s) ∈ xs →
    membershipAfter xs v p = i ∧ lambdasAfter xs w p = s
  | [], _, _, _, _, _, _, h => by simp at h
  | (p0, i0, s0) :: rest, v, w, hd, p, i, s, h => by
    rw [List.map_cons, List.nodup_cons] at hd
    rw [membershipAfter, lambdasAfter]
    rcases List.mem_cons.mp h with heq | hmem
    · cases heq
      have hfree : ∀ x ∈ rest, p0 ≠ x.1 := fun x hx hpx =>
        hd.1 (List.mem_map.mpr ⟨x, hx, hpx.symm⟩)
      rw [membershipAfter_untouched rest _ p0 hfree, lambdasAfter_untouched rest _ p0 hfree]
      simp [assign]
    · exact after_entry rest _ _ hd.2 p i s hmem

/-- C13: started with `clusterCnt = 0` and empty `clusterParent`,
`clusterSelected` and `clusterStability` on a tree with `M` nodes,
`reportHierarchy` numbers the nodes `0 … M-1` in preorder and ends with
`clusterCnt = M` and three vectors of length `M`: `clusterSelected` and
`clusterStability` hold the flag and the stability of the nodes in preorder,
`clusterParent` holds for every node but the root the number of its parent, which
is smaller than its own; the entries of all `fallenPoints` are written in
preorder as `nodeMembership[pointId] = ` number of the node and
`lambdas[pointId] = scale` (the final values when the point ids are distinct),
and the entries of all other point ids are unchanged. -/
theorem reportHierarchy_spec (naIndex : Nat) (t : HDCluster) (nm : Nat → Nat) (lam : Nat → ℚ)
    (ht : t ≠ nullptr) :
    ∃ h, reportHierarchy naIndex t
        { clusterCnt := 0, nodeMembership := nm, lambdas := lam, clusterParent := [],
          clusterSelected := [], clusterStability := [] } = Except.ok h ∧
      h.clusterCnt = nodeCount t ∧ h.clusterParent.length = nodeCount t ∧
      h.clusterSelected.length = nodeCount t ∧ h.clusterStability.length = nodeCount t ∧
      h.clusterSelected = (preorder t).map Members.selected ∧
      h.clusterStability = (preorder t).map Members.stability ∧
      h.clusterParent = specParents 0 naIndex t ∧
      (∀ i q, 0 < i → h.clusterParent[i]? = some q → q < i) ∧
      h.nodeMembership = membershipAfter (specMembership 0 t) nm ∧
      h.lambdas = lambdasAfter (specMembership 0 t) lam ∧
      ((fallenIds t).Nodup → ∀ p i s, (p, i, s) ∈ specMembership 0 t →
        h.nodeMembership p = i ∧ h.lambdas p = s) ∧
      (∀ p, p ∉ fallenIds t → h.nodeMembership p = nm p ∧ h.lambdas p = lam p) := by
  have hnull : t.isNull = false := by
    cases t with
    | nullptr => exact absurd rfl ht
    | node _ _ _ => rfl
  refine ⟨_, by rw [reportHierarchy, hnull, reportGuarded_spec]; rfl, ?_⟩
  simp only [specReport, Nat.zero_add, List.nil_append, List.length_map, specParents_length,
    preorder_length, true_and]
  refine ⟨fun i q hi hq => ?_, fun hd p i s hp => ?_, fun p hp => ?_⟩
  · rcases specParents_lt t 0 naIndex i q hq with ⟨h0, _⟩ | ⟨_, _, h2⟩
    · omega
    · omega
  · exact after_entry _ nm lam (by rw [specMembership_ids]; exact hd) p i s hp
  · have hfree : ∀ x ∈ specMembership 0 t, p ≠ x.1 := fun x hx hpx =>
      hp (by rw [← specMembership_ids 0 t]; exact List.mem_map.mpr ⟨x, hx, hpx.symm⟩)
    exact ⟨membershipAfter_untouched _ nm p hfree, lambdasAfter_untouched _ lam p hfree⟩

theorem reportHierarchy_spec_witness :
    twoClusters ≠ nullptr ∧
      ∃ h, reportHierarchy 0 twoClusters
          { clusterCnt := 0, nodeMembership := fun _ => 0, lambdas := fun _ => 0,
            clusterParent := [], clusterSelected := [], clusterStability := [] } =
            Except.ok h ∧
        h.clusterCnt = nodeCount twoClusters ∧
        h.clusterParent.length = nodeCount twoClusters ∧
        h.clusterSelected.length = nodeCount twoClusters ∧
        h.clusterStability.length = nodeCount twoClusters ∧
        h.clusterSelected = (preorder twoClusters).map Members.selected ∧
        h.clusterStability = (preorder twoClusters).map Members.stability ∧
        h.clusterParent = specParents 0 0 twoClusters ∧
        (∀ i q, 0 < i → h.clusterParent[i]? = some q → q < i) ∧
        h.nodeMembership = membershipAfter (specMembership 0 twoClusters) (fun _ => 0) ∧
        h.lambdas = lambdasAfter (specMembership 0 twoClusters) (fun _ => 0) ∧
        ((fallenIds twoClusters).Nodup → ∀ p i s, (p, i, s) ∈ specMembership 0 twoClusters →
          h.nodeMembership p = i ∧ h.lambdas p = s) ∧
        (∀ p, p ∉ fallenIds twoClusters →
          h.nodeMembership p = (fun _ => 0) p ∧ h.lambdas p = (fun _ => 0) p) :=
  ⟨by simp [twoClusters],
    reportHierarchy_spec 0 twoClusters (fun _ => 0) (fun _ => 0) (by simp [twoClusters])⟩

/-- The columns that `reportHierarchy` produces for `twoClusters`. -/
theorem report_twoClusters :
    specParents 0 0 twoClusters = [0, 0, 0] ∧
      (preorder twoClusters).map Members.selected = [false, true, true] ∧
      specMembership 0 twoClusters = [(3, 1, 1), (2, 1, 1), (1, 2, 1), (0, 2, 1)] := by
  simp [specParents, preorder, specMembership, twoClusters, nodeCount]

/-! ### Trees whose nodes are as big as their children -/

/-- On a tree in which no node is smaller than its children, the size bound on
the childless nodes holds for every node. -/
theorem allBig_of_leavesBig {minPts : Nat} : ∀ {t : HDCluster},
    ZeroOrTwo t → LeavesBig minPts t → SzMonotone t → AllBig minPts t
  | nullptr, _, _, _ => trivial
  | node m l r, hz, hb, hs => by
    obtain ⟨hb0, hbl, hbr⟩ := hb
    obtain ⟨hsl, hsr, sl, sr⟩ := hs
    rcases hz with ⟨rfl, rfl⟩ | ⟨hl, hr, zl, zr⟩
    · exact ⟨hb0 rfl rfl, trivial, trivial⟩
    · have al := allBig_of_leavesBig zl hbl sl
      have ar := allBig_of_leavesBig zr hbr sr
      refine ⟨?_, al, ar⟩
      cases l with
      | nullptr => exact absurd rfl hl
      | node ml ll lr =>
        have := al.1
        simp only [sz_node] at hsl
        omega

theorem szMonotone_adopt {t : HDCluster} (id : Nat) (ld : ℚ) (h : SzMonotone t) :
    SzMonotone (adopt id ld t) := by
  cases t with
  | nullptr => trivial
  | node m l r => exact h

/-- In a tree of the pre-condensation shape no node is smaller than its children. -/
theorem Raw.szMonotone : ∀ {t : HDCluster}, Raw t → SzMonotone t
  | nullptr, h => by simp [Raw] at h
  | node m l r, h => by
    rcases h with ⟨_, ⟨rfl, rfl, _⟩ | ⟨hl, hr, _, hs⟩⟩
    · exact ⟨Nat.zero_le _, Nat.zero_le _, trivial, trivial⟩
    · exact ⟨by omega, by omega, Raw.szMonotone hl, Raw.szMonotone hr⟩

/-- Condensation keeps the property that no node is smaller than its children. -/
theorem CondensesTo.res_szMonotone {minPts : Nat} {t t1 : HDCluster}
    (h : CondensesTo minPts t t1) : SzMonotone t1 := by
  induction h with
  | leaf m _ _ => exact ⟨Nat.zero_le _, Nat.zero_le _, trivial, trivial⟩
  | foldBoth _ _ _ _ _ _ _ _ => exact ⟨Nat.zero_le _, Nat.zero_le _, trivial, trivial⟩
  | @keep m ml mr l r rl rr rk _ hsz cl cr _ _ _ ihr =>
    obtain ⟨h1, h2, h3, h4⟩ := ihr
    have er := cr.sz_eq
    simp only [sz_node] at er h1 h2
    refine ⟨?_, ?_, h3, h4⟩
    · show rl.sz ≤ (absorb (absorb m ml) mr).sz
      rw [absorb_sz, absorb_sz]; omega
    · show rr.sz ≤ (absorb (absorb m ml) mr).sz
      rw [absorb_sz, absorb_sz]; omega
  | @unchanged m l r l1 r1 _ hsz cl cr _ _ _ _ ihl ihr =>
    have el := cl.sz_eq
    have er := cr.sz_eq
    exact ⟨by show l1.sz ≤ m.sz; omega, by show r1.sz ≤ m.sz; omega, ihl, ihr⟩

/-- After `condense` on a tree built with the two constructors no node is smaller
than its children. -/
theorem condense_szMonotone (t : HDCluster) (minPts level : Nat) (h : Built t) :
    ∃ t1, condense minPts level t = Except.ok t1 ∧ SzMonotone t1 := by
  obtain ⟨t1, e, c⟩ := condense_condensesTo minPts t level h.raw
  exact ⟨t1, e, c.res_szMonotone⟩

/-- C8: on a tree in which each node has zero or two children and is at least as
big as its children (as the constructors and `condense` leave it), with no node
selected, a root with two children and every childless node of `sz ≥ minPts`,
`determineSubStability` completes, leaves the root unselected, processes each of
the two children exactly as `determineStability` called on that child does, and
ends with at least one selected node in each child's subtree, hence at least two
selected nodes. -/
theorem determineSubStability_spec (minPts : Nat) (m : Members) (l r : HDCluster)
    (hl : l ≠ nullptr) (hr : r ≠ nullptr) (hz : ZeroOrTwo (node m l r))
    (hn : NoneSelected (node m l r)) (hb : LeavesBig minPts (node m l r))
    (hs : SzMonotone (node m l r)) :
    ∃ m1 l1 sl r1 sr,
      determineSubStability minPts (node m l r) = Except.ok (node m1 l1 r1) ∧
        determineStability minPts l = Except.ok (l1, sl) ∧
        determineStability minPts r = Except.ok (r1, sr) ∧
        m1.selected = false ∧ 1 ≤ countSelected l1 ∧ 1 ≤ countSelected r1 ∧
        2 ≤ countSelected (node m1 l1 r1) := by
  have hbig := allBig_of_leavesBig hz hb hs
  rcases hz with ⟨h0, _⟩ | ⟨_, _, zl, zr⟩
  · exact absurd h0 hl
  obtain ⟨l1, sl, el⟩ := determineStability_completes hl zl hbig.2.1
  obtain ⟨r1, sr, er⟩ := determineStability_completes hr zr hbig.2.2
  have hg : ¬ (m.sz < minPts ∧ m.parent.isSome) := fun h => absurd h.1 (not_lt.mpr hbig.1)
  have e : determineSubStability minPts (node m l r) =
      Except.ok (node { m with stability := ownBase m } l1 r1) := by
    rw [determineSubStability_node _ _ _ hl, if_neg hg, el, er]
    rfl
  have cl := determineStability_selects zl hb.2.1 el
  have cr := determineStability_selects zr hb.2.2 er
  exact ⟨_, l1, sl, r1, sr, e, el, er, hn.1, cl, cr, by simp only [countSelected]; omega⟩

theorem determineSubStability_spec_witness :
    leafInPair 1 ≠ nullptr ∧ leafInPair 0 ≠ nullptr ∧
      ZeroOrTwo (node pairMembers (leafInPair 1) (leafInPair 0)) ∧
      NoneSelected (node pairMembers (leafInPair 1) (leafInPair 0)) ∧
      LeavesBig 1 (node pairMembers (leafInPair 1) (leafInPair 0)) ∧
      SzMonotone (node pairMembers (leafInPair 1) (leafInPair 0)) ∧
      ∃ m1 l1 sl r1 sr,
        determineSubStability 1 (node pairMembers (leafInPair 1) (leafInPair 0)) =
            Except.ok (node m1 l1 r1) ∧
          determineStability 1 (leafInPair 1) = Except.ok (l1, sl) ∧
          determineStability 1 (leafInPair 0) = Except.ok (r1, sr) ∧
          m1.selected = false ∧ 1 ≤ countSelected l1 ∧ 1 ≤ countSelected r1 ∧
          2 ≤ countSelected (node m1 l1 r1) :=
  have hl : leafInPair 1 ≠ nullptr := by simp [leafInPair]
  have hr : leafInPair 0 ≠ nullptr := by simp [leafInPair]
  have hz : ZeroOrTwo (node pairMembers (leafInPair 1) (leafInPair 0)) := by
    simp [ZeroOrTwo, leafInPair]
  have hn : NoneSelected (node pairMembers (leafInPair 1) (leafInPair 0)) := by
    simp [NoneSelected, leafInPair, pairMembers, fresh]
  have hb : LeavesBig 1 (node pairMembers (leafInPair 1) (leafInPair 0)) := by
    simp [LeavesBig, leafInPair, fresh]
  have hs : SzMonotone (node pairMembers (leafInPair 1) (leafInPair 0)) := by
    simp [SzMonotone, leafInPair, pairMembers, fresh]
  ⟨hl, hr, hz, hn, hb, hs,
    determineSubStability_spec 1 pairMembers (leafInPair 1) (leafInPair 0) hl hr hz hn hb hs⟩

/-! ### Binary64 arithmetic and the merge constructor -/

theorem log2Aux_spec : ∀ (fuel n : Nat), 0 < n → n ≤ fuel →
    2 ^ log2Aux fuel n ≤ n ∧ n < 2 ^ (log2Aux fuel n + 1)
  | 0, n, h0, h => by omega
  | fuel + 1, n, h0, h => by
    unfold log2Aux
    split_ifs with h2
    · constructor <;> simp <;> omega
    · have ih := log2Aux_spec fuel (n / 2) (by omega) (by omega)
      rw [pow_succ, pow_succ]
      constructor
      · have := Nat.div_mul_le_self n 2
        nlinarith [ih.1]
      · have := Nat.lt_div_mul_add (a := n) (b := 2) (by norm_num)
        nlinarith [ih.2]

theorem ilog2_spec {n : Nat} (h : 0 < n) : 2 ^ ilog2 n ≤ n ∧ n < 2 ^ (ilog2 n + 1) :=
  log2Aux_spec n n h le_rfl

theorem binade_spec {x : ℚ} (hx : 0 < x) :
    (2 : ℚ) ^ binade x ≤ x ∧ x < (2 : ℚ) ^ (binade x + 1) := by
  have hnum : 0 < x.num := Rat.num_pos.mpr hx
  have hn : 0 < x.num.natAbs := Int.natAbs_pos.mpr hnum.ne'
  have hd : 0 < x.den := x.den_pos
  obtain ⟨a1, a2⟩ := ilog2_spec hn
  obtain ⟨b1, b2⟩ := ilog2_spec hd
  have hdq : (0 : ℚ) < (x.den : ℚ) := by exact_mod_cast hd
  have hxe : x * (x.den : ℚ) = (x.num.natAbs : ℚ) := by
    have h1 : ((x.num.natAbs : ℤ) : ℚ) = (x.num : ℚ) := by
      rw [Int.natAbs_of_nonneg hnum.le]
    have h2 : ((x.num.natAbs : ℕ) : ℚ) = ((x.num.natAbs : ℤ) : ℚ) := (Int.cast_natCast _).symm
    rw [h2, h1]
    exact Rat.mul_den_eq_num x
  have a1q : (2 : ℚ) ^ ilog2 x.num.natAbs ≤ (x.num.natAbs : ℚ) := by exact_mod_cast a1
  have a2q : (x.num.natAbs : ℚ) < (2 : ℚ) ^ ilog2 x.num.natAbs * 2 := by
    rw [← pow_succ]; exact_mod_cast a2
  have b1q : (2 : ℚ) ^ ilog2 x.den ≤ (x.den : ℚ) := by exact_mod_cast b1
  have b2q : (x.den : ℚ) < (2 : ℚ) ^ ilog2 x.den * 2 := by
    rw [← pow_succ]; exact_mod_cast b2
  have two : (2 : ℚ) ≠ 0 := by norm_num
  have e0 : (2 : ℚ) ^ ((ilog2 x.num.natAbs : ℤ) - (ilog2 x.den : ℤ)) =
      (2 : ℚ) ^ ilog2 x.num.natAbs / (2 : ℚ) ^ ilog2 x.den := by
    rw [zpow_sub₀ two, zpow_natCast, zpow_natCast]
  have pa : (0 : ℚ) < (2 : ℚ) ^ ilog2 x.num.natAbs := by positivity
  have pb : (0 : ℚ) < (2 : ℚ) ^ ilog2 x.den := by positivity
  unfold binade
  simp only
  generalize (2 : ℚ) ^ ilog2 x.num.natAbs = P at *
  generalize (2 : ℚ) ^ ilog2 x.den = Q at *
  generalize (x.num.natAbs : ℚ) = N at *
  generalize (x.den : ℚ) = D at *
  split_ifs with hc
  · refine ⟨hc, ?_⟩
    rw [zpow_add_one₀ two, e0, div_mul_eq_mul_div, lt_div_iff₀ pb]
    nlinarith
  · rw [not_le] at hc
    refine ⟨?_, by rwa [sub_add_cancel]⟩
    rw [zpow_sub_one₀ two, e0, div_mul_eq_mul_div, div_le_iff₀ pb]
    have : P * 2⁻¹ = P / 2 := by ring
    rw [this]
    nlinarith

theorem roundHalfEven_bounds (y : ℚ) : ⌊y⌋ ≤ roundHalfEven y ∧ roundHalfEven y ≤ ⌊y⌋ + 1 := by
  unfold roundHalfEven
  simp only
  split_ifs <;> constructor <;> omega

theorem roundHalfEven_near (y : ℚ) :
    (roundHalfEven y : ℚ) - y ≤ 1 / 2 ∧ y - (roundHalfEven y : ℚ) ≤ 1 / 2 := by
  have h1 := Int.floor_le y
  have h2 := Int.lt_floor_add_one y
  unfold roundHalfEven
  simp only
  split_ifs with a b c <;> push_cast <;> constructor <;> linarith

theorem roundHalfEven_intCast (n : ℤ) : roundHalfEven (n : ℚ) = n := by
  unfold roundHalfEven
  simp

theorem roundHalfEven_mono {y z : ℚ} (h : y ≤ z) : roundHalfEven y ≤ roundHalfEven z := by
  have hf : ⌊y⌋ ≤ ⌊z⌋ := Int.floor_mono h
  rcases hf.eq_or_lt with e | l
  · unfold roundHalfEven
    simp only
    rw [← e]
    split_ifs <;> first | omega | (exfalso; linarith)
  · have := (roundHalfEven_bounds y).2
    have := (roundHalfEven_bounds z).1
    omega

theorem roundHalfEven_nonneg {y : ℚ} (h : 0 ≤ y) : 0 ≤ roundHalfEven y :=
  le_trans (Int.floor_nonneg.mpr h) (roundHalfEven_bounds y).1

theorem ulp_pos (x : ℚ) : 0 < ulp x := by
  unfold ulp; positivity

theorem lt_expo {x : ℚ} (hx : 0 < x) : x < (2 : ℚ) ^ (expo x + 1) :=
  lt_of_lt_of_le (binade_spec hx).2
    (zpow_le_zpow_right₀ (by norm_num) (by unfold expo; omega))

theorem expo_mono {x y : ℚ} (hx : 0 < x) (h : x ≤ y) : expo x ≤ expo y := by
  have h1 := (binade_spec hx).1
  have h2 := (binade_spec (lt_of_lt_of_le hx h)).2
  have h3 : (2 : ℚ) ^ binade x < (2 : ℚ) ^ (binade y + 1) := lt_of_le_of_lt (h1.trans h) h2
  have h4 := (zpow_lt_zpow_iff_right₀ (by norm_num : (1 : ℚ) < 2)).mp h3
  unfold expo
  omega

theorem ulp_mul (x : ℚ) (k : ℤ) : (2 : ℚ) ^ k * ulp x = (2 : ℚ) ^ (k + (expo x - 52)) := by
  unfold ulp
  rw [← zpow_add₀ (by norm_num : (2 : ℚ) ≠ 0)]

theorem flAbs_nonneg {x : ℚ} (hx : 0 ≤ x) : 0 ≤ flAbs x := by
  unfold flAbs
  split_ifs
  · exact le_rfl
  · have : 0 ≤ roundHalfEven (x / ulp x) :=
      roundHalfEven_nonneg (div_nonneg hx (ulp_pos x).le)
    have h2 : (0 : ℚ) ≤ (roundHalfEven (x / ulp x) : ℚ) := by exact_mod_cast this
    exact mul_nonneg h2 (ulp_pos x).le

/-- The rounded value does not leave the binade upwards. -/
theorem flAbs_le_top {x : ℚ} (hx : 0 < x) : flAbs x ≤ (2 : ℚ) ^ (expo x + 1) := by
  unfold flAbs
  rw [if_neg hx.ne']
  have h1 : x / ulp x ≤ ((2 ^ 53 : ℤ) : ℚ) := by
    rw [div_le_iff₀ (ulp_pos x)]
    have : ((2 ^ 53 : ℤ) : ℚ) = (2 : ℚ) ^ (53 : ℤ) := by norm_num
    rw [this, ulp_mul]
    have e : (53 : ℤ) + (expo x - 52) = expo x + 1 := by ring
    rw [e]
    exact (lt_expo hx).le
  have h2 := roundHalfEven_mono h1
  rw [roundHalfEven_intCast] at h2
  have h3 : (roundHalfEven (x / ulp x) : ℚ) ≤ (2 : ℚ) ^ (53 : ℤ) := by
    have : ((roundHalfEven (x / ulp x) : ℤ) : ℚ) ≤ ((2 ^ 53 : ℤ) : ℚ) := by exact_mod_cast h2
    have e : ((2 ^ 53 : ℤ) : ℚ) = (2 : ℚ) ^ (53 : ℤ) := by norm_num
    rwa [e] at this
  calc (roundHalfEven (x / ulp x) : ℚ) * ulp x ≤ (2 : ℚ) ^ (53 : ℤ) * ulp x :=
        mul_le_mul_of_nonneg_right h3 (ulp_pos x).le
    _ = (2 : ℚ) ^ (expo x + 1) := by rw [ulp_mul]; congr 1; ring

/-- In the normal range the rounded value does not leave the binade downwards. -/
theorem le_flAbs {x : ℚ} (hx : 0 < x) (hn : -1022 < expo x) : (2 : ℚ) ^ expo x ≤ flAbs x := by
  have hb : expo x = binade x := by unfold expo at hn ⊢; omega
  unfold flAbs
  rw [if_neg hx.ne']
  have h1 : ((2 ^ 52 : ℤ) : ℚ) ≤ x / ulp x := by
    rw [le_div_iff₀ (ulp_pos x)]
    have : ((2 ^ 52 : ℤ) : ℚ) = (2 : ℚ) ^ (52 : ℤ) := by norm_num
    rw [this, ulp_mul]
    have e : (52 : ℤ) + (expo x - 52) = expo x := by ring
    rw [e, hb]
    exact (binade_spec hx).1
  have h2 := roundHalfEven_mono h1
  rw [roundHalfEven_intCast] at h2
  have h3 : (2 : ℚ) ^ (52 : ℤ) ≤ (roundHalfEven (x / ulp x) : ℚ) := by
    have : ((2 ^ 52 : ℤ) : ℚ) ≤ ((roundHalfEven (x / ulp x) : ℤ) : ℚ) := by exact_mod_cast h2
    have e : ((2 ^ 52 : ℤ) : ℚ) = (2 : ℚ) ^ (52 : ℤ) := by norm_num
    rwa [e] at this
  calc (2 : ℚ) ^ expo x = (2 : ℚ) ^ (52 : ℤ) * ulp x := by rw [ulp_mul]; congr 1; ring
    _ ≤ (roundHalfEven (x / ulp x) : ℚ) * ulp x :=
        mul_le_mul_of_nonneg_right h3 (ulp_pos x).le

/-- Rounding is monotone on the non-negative numbers. -/
theorem flAbs_mono {x y : ℚ} (hx : 0 ≤ x) (h : x ≤ y) : flAbs x ≤ flAbs y := by
  rcases hx.eq_or_lt with rfl | hx
  · simpa [flAbs] using flAbs_nonneg h
  have hy : 0 < y := lt_of_lt_of_le hx h
  rcases (expo_mono hx h).eq_or_lt with e | l
  · have hu : ulp x = ulp y := by unfold ulp; rw [e]
    unfold flAbs
    rw [if_neg hx.ne', if_neg hy.ne', hu]
    have h1 : x / ulp y ≤ y / ulp y := div_le_div_of_nonneg_right h (ulp_pos y).le
    have h2 : (roundHalfEven (x / ulp y) : ℚ) ≤ (roundHalfEven (y / ulp y) : ℚ) := by
      exact_mod_cast roundHalfEven_mono h1
    exact mul_le_mul_of_nonneg_right h2 (ulp_pos y).le
  · have hn : -1022 < expo y := by
      have : -1022 ≤ expo x := by unfold expo; omega
      omega
    calc flAbs x ≤ (2 : ℚ) ^ (expo x + 1) := flAbs_le_top hx
      _ ≤ (2 : ℚ) ^ expo y := zpow_le_zpow_right₀ (by norm_num) (by omega)
      _ ≤ flAbs y := le_flAbs hy hn

/-- Rounding to binary64 is monotone. -/
theorem fl_mono {x y : ℚ} (h : x ≤ y) : fl x ≤ fl y := by
  unfold fl
  split_ifs with hx hy hy
  · exact neg_le_neg (flAbs_mono (by linarith) (by linarith))
  · have := flAbs_nonneg (show (0 : ℚ) ≤ -x by linarith)
    have := flAbs_nonneg (not_lt.mp hy)
    linarith
  · exact absurd (lt_of_le_of_lt h hy) hx
  · exact flAbs_mono (not_lt.mp hx) h

/-- A positive result that is more than half the smallest binary64 number is
rounded to a positive number. -/
theorem flAbs_pos {x : ℚ} (h : (2 : ℚ) ^ (-1075 : ℤ) < x) : 0 < flAbs x := by
  have hx : 0 < x := lt_trans (by positivity) h
  by_cases hn : -1022 < expo x
  · exact lt_of_lt_of_le (by positivity) (le_flAbs hx hn)
  · have he : expo x = -1022 := by
      have : -1022 ≤ expo x := by unfold expo; omega
      omega
    have hu : ulp x = (2 : ℚ) ^ (-1074 : ℤ) := by unfold ulp; rw [he]; norm_num
    unfold flAbs
    rw [if_neg hx.ne']
    have h1 : 1 / 2 < x / ulp x := by
      rw [lt_div_iff₀ (ulp_pos x), hu]
      have : (1 / 2 : ℚ) * (2 : ℚ) ^ (-1074 : ℤ) = (2 : ℚ) ^ (-1075 : ℤ) := by
        rw [show (-1075 : ℤ) = -1074 - 1 by norm_num, zpow_sub_one₀ (by norm_num : (2 : ℚ) ≠ 0)]
        ring
      rw [this]
      exact h
    have h2 := (roundHalfEven_near (x / ulp x)).2
    have h3 : (0 : ℚ) < (roundHalfEven (x / ulp x) : ℚ) := by linarith
    exact mul_pos h3 (ulp_pos x)

/-- A positive result below `2^1024 - 2^970` is rounded to a number below `2^1024`. -/
theorem flAbs_lt_top {x : ℚ} (hx : 0 < x) (h : x < overflowAt) : flAbs x < 2 ^ 1024 := by
  have hb : expo x ≤ 1023 := by
    have h1 := (binade_spec hx).1
    have h2 : x < (2 : ℚ) ^ (1024 : ℤ) := by
      have : overflowAt ≤ (2 : ℚ) ^ (1024 : ℤ) := by unfold overflowAt; norm_num
      exact lt_of_lt_of_le h this
    have h3 := (zpow_lt_zpow_iff_right₀ (by norm_num : (1 : ℚ) < 2)).mp (lt_of_le_of_lt h1 h2)
    unfold expo
    omega
  rcases hb.eq_or_lt with e | l
  · have hu : ulp x = (2 : ℚ) ^ (971 : ℤ) := by unfold ulp; rw [e]; norm_num
    unfold flAbs
    rw [if_neg hx.ne']
    have h1 : x / ulp x < 2 ^ 53 - 1 / 2 := by
      rw [div_lt_iff₀ (ulp_pos x), hu]
      have : ((2 : ℚ) ^ 53 - 1 / 2) * (2 : ℚ) ^ (971 : ℤ) = overflowAt := by
        unfold overflowAt; norm_num
      rw [this]
      exact h
    have h2 := (roundHalfEven_near (x / ulp x)).1
    have h3 : (roundHalfEven (x / ulp x) : ℚ) < ((2 ^ 53 : ℤ) : ℚ) := by
      push_cast
      linarith
    have h4 : roundHalfEven (x / ulp x) ≤ 2 ^ 53 - 1 := by
      have : roundHalfEven (x / ulp x) < 2 ^ 53 := by exact_mod_cast h3
      omega
    have h5 : (roundHalfEven (x / ulp x) : ℚ) ≤ 2 ^ 53 - 1 := by exact_mod_cast h4
    calc (roundHalfEven (x / ulp x) : ℚ) * ulp x ≤ (2 ^ 53 - 1) * ulp x :=
          mul_le_mul_of_nonneg_right h5 (ulp_pos x).le
      _ < 2 ^ 1024 := by rw [hu]; norm_num
  · calc flAbs x ≤ (2 : ℚ) ^ (expo x + 1) := flAbs_le_top hx
      _ ≤ (2 : ℚ) ^ (1023 : ℤ) := zpow_le_zpow_right₀ (by norm_num) (by omega)
      _ < 2 ^ 1024 := by norm_num

theorem fl_of_nonneg {x : ℚ} (h : 0 ≤ x) : fl x = flAbs x := by
  unfold fl; rw [if_neg (not_lt.mpr h)]

/-- Among the binary64 numbers, the positive ones whose reciprocal overflows are
those up to `2^(-1024)`. -/
theorem overflow_iff {m : ℚ} (h0 : 0 < m) (hr : fl m = m) :
    overflowAt ≤ 1 / m ↔ m ≤ 1 / 2 ^ 1024 := by
  constructor
  · intro h
    have h1 : m * overflowAt ≤ 1 := by
      have := (le_div_iff₀ h0).mp h
      linarith
    by_contra hc
    rw [not_le] at hc
    by_cases hn : -1022 < expo m
    · have hb : expo m = binade m := by unfold expo at hn ⊢; omega
      have h2 : (2 : ℚ) ^ (-1021 : ℤ) ≤ m :=
        le_trans (zpow_le_zpow_right₀ (by norm_num) (by omega)) (hb ▸ (binade_spec h0).1)
      have h3 : (2 : ℚ) ^ (-1021 : ℤ) * overflowAt ≤ m * overflowAt :=
        mul_le_mul_of_nonneg_right h2 (by unfold overflowAt; norm_num)
      have h4 : (1 : ℚ) < (2 : ℚ) ^ (-1021 : ℤ) * overflowAt := by
        unfold overflowAt
        rw [zpow_neg]
        norm_num
      linarith
    · have he : expo m = -1022 := by
        have : -1022 ≤ expo m := by unfold expo; omega
        omega
      have hu : ulp m = (2 : ℚ) ^ (-1074 : ℤ) := by unfold ulp; rw [he]; norm_num
      have hm : m = (roundHalfEven (m / ulp m) : ℚ) * (2 : ℚ) ^ (-1074 : ℤ) := by
        have := hr
        rw [fl_of_nonneg h0.le] at this
        unfold flAbs at this
        rw [if_neg h0.ne', hu] at this
        rw [hu]
        exact this.symm
      generalize roundHalfEven (m / ulp m) = k at hm
      have hk : (2 : ℤ) ^ 50 < k := by
        by_contra hk
        rw [not_lt] at hk
        have hk2 : (k : ℚ) ≤ 2 ^ 50 := by exact_mod_cast hk
        have : m ≤ 2 ^ 50 * (2 : ℚ) ^ (-1074 : ℤ) := by
          rw [hm]
          exact mul_le_mul_of_nonneg_right hk2 (by positivity)
        have e : (2 : ℚ) ^ 50 * (2 : ℚ) ^ (-1074 : ℤ) = 1 / 2 ^ 1024 := by
          rw [zpow_neg]
          norm_num
        rw [e] at this
        linarith
      have hk3 : ((2 : ℚ) ^ 50 + 1) ≤ (k : ℚ) := by
        have : (2 : ℤ) ^ 50 + 1 ≤ k := by omega
        exact_mod_cast this
      have h5 : ((2 : ℚ) ^ 50 + 1) * (2 : ℚ) ^ (-1074 : ℤ) ≤ m := by
        rw [hm]
        exact mul_le_mul_of_nonneg_right hk3 (by positivity)
      have h6 : ((2 : ℚ) ^ 50 + 1) * (2 : ℚ) ^ (-1074 : ℤ) * overflowAt ≤ m * overflowAt :=
        mul_le_mul_of_nonneg_right h5 (by unfold overflowAt; norm_num)
      have h7 : (1 : ℚ) < ((2 : ℚ) ^ 50 + 1) * (2 : ℚ) ^ (-1074 : ℤ) * overflowAt := by
        unfold overflowAt
        rw [zpow_neg]
        norm_num
      linarith
  · intro h
    rw [le_div_iff₀ h0]
    have : overflowAt * m ≤ overflowAt * (1 / 2 ^ 1024) :=
      mul_le_mul_of_nonneg_left h (by unfold overflowAt; norm_num)
    have e : overflowAt * (1 / 2 ^ 1024) ≤ 1 := by unfold overflowAt; norm_num
    linarith

/-- C9, amended: in binary64 arithmetic the merge constructor stops with "death
is infinity" exactly when the quotient `1/d` is `+∞`, that is when `d` is `+0.0`
or a positive number up to `2^(-1024)`, whose reciprocal overflows; for every
larger finite `d > 0` it builds a node whose `lambda_death` is the rounded
quotient, a finite positive number.  For no other `d` (`-0.0`, a negative number,
an infinity, a NaN) does it stop with that error. -/
theorem merge64_stops (ma mb : Members) (la ra lb rb : HDCluster) (id : Nat) (d : Double)
    (hv : d.Valid) :
    (merge64 (node ma la ra) (node mb lb rb) id d = Except.error "death is infinity" ↔
        ∃ m, d = Double.fin false m ∧ m ≤ 1 / 2 ^ 1024) ∧
      (∀ m, d = Double.fin false m → 1 / 2 ^ 1024 < m →
        ∃ mm l r, merge64 (node ma la ra) (node mb lb rb) id d = Except.ok (node mm l r) ∧
          mm.lambda_death = fl (1 / m) ∧ 0 < mm.lambda_death ∧ mm.lambda_death < 2 ^ 1024) := by
  have hne : nonFinite ≠ "death is infinity" := by decide
  cases d with
  | nan =>
    refine ⟨⟨fun h => ?_, fun ⟨m, h, _⟩ => by cases h⟩, fun m h => by cases h⟩
    simp only [merge64, recip] at h
    exact absurd (Except.error.inj h) hne
  | inf s =>
    refine ⟨⟨fun h => ?_, fun ⟨m, h, _⟩ => by cases h⟩, fun m h => by cases h⟩
    simp only [merge64, recip] at h
    split_ifs at h
  | fin s m =>
    obtain ⟨h0, hlt, hr⟩ := hv
    rcases h0.eq_or_lt with rfl | hpos
    · refine ⟨⟨fun h => ?_, fun ⟨m, h, _⟩ => ?_⟩, fun m h hm => ?_⟩
      · cases s with
        | false => exact ⟨0, rfl, by norm_num⟩
        | true =>
          simp only [merge64, recip, if_true] at h
          exact absurd (Except.error.inj h) hne
      · cases h
        simp [merge64, recip]
      · cases h
        norm_num at hm
    · have hov := overflow_iff hpos hr
      by_cases hc : m ≤ 1 / 2 ^ 1024
      · have ho := hov.mpr hc
        refine ⟨⟨fun h => ?_, fun ⟨m1, h, _⟩ => ?_⟩, fun m1 h hm => ?_⟩
        · cases s with
          | false => exact ⟨m, rfl, hc⟩
          | true =>
            simp only [merge64, recip, if_neg hpos.ne', if_pos ho] at h
            exact absurd (Except.error.inj h) hne
        · cases h
          simp only [merge64, recip, if_neg hpos.ne', if_pos ho]
        · cases h
          exact absurd hc (not_le.mpr hm)
      · have ho : ¬ overflowAt ≤ 1 / m := fun h => hc (hov.mp h)
        refine ⟨⟨fun h => ?_, fun ⟨m1, h, hm⟩ => ?_⟩, fun m1 h _ => ?_⟩
        · simp only [merge64, recip, if_neg hpos.ne', if_neg ho] at h
          split_ifs at h
        · cases h
          exact absurd hm hc
        · cases h
          have hq : 0 < 1 / m := one_div_pos.mpr hpos
          have hfl : fl (1 / m) = flAbs (1 / m) := fl_of_nonneg hq.le
          have hp : 0 < fl (1 / m) := by
            rw [hfl]
            apply flAbs_pos
            have h1 : (1 : ℚ) / 2 ^ 1024 < 1 / m :=
              one_div_lt_one_div_of_lt hpos hlt
            have h2 : (2 : ℚ) ^ (-1075 : ℤ) ≤ (2 : ℚ) ^ (-1024 : ℤ) :=
              zpow_le_zpow_right₀ (by norm_num) (by norm_num)
            have h3 : (2 : ℚ) ^ (-1024 : ℤ) = 1 / 2 ^ 1024 := by
              rw [zpow_neg, one_div]; norm_num
            rw [h3] at h2
            exact lt_of_le_of_lt h2 h1
          have hf : fl (1 / m) < 2 ^ 1024 := by
            rw [hfl]
            exact flAbs_lt_top hq (not_le.mp ho)
          by_cases hsz : ma.sz < mb.sz
          · refine ⟨{ fresh (ma.sz + mb.sz) id with
                rank := max ma.rank mb.rank + 1, lambda_birth := 0, lambda_death := fl (1 / m) },
              adopt id (fl (1 / m)) (node ma la ra), adopt id (fl (1 / m)) (node mb lb rb),
              ?_, rfl, hp, hf⟩
            simp only [merge64, recip, if_neg hpos.ne', if_neg ho, if_pos hsz]
            rfl
          · refine ⟨{ fresh (ma.sz + mb.sz) id with
                rank := max ma.rank mb.rank + 1, lambda_birth := 0, lambda_death := fl (1 / m) },
              adopt id (fl (1 / m)) (node mb lb rb), adopt id (fl (1 / m)) (node ma la ra),
              ?_, rfl, hp, hf⟩
            simp only [merge64, recip, if_neg hpos.ne', if_neg ho, if_neg hsz]
            rfl

/-- C9, counterexample: the smallest positive double `d = 2^(-1074)` is a
distance `d > 0` at which the constructor stops, because `1/d` overflows to `+∞`;
and at `d = -0.0` the quotient `1/d` is `-∞`, not a finite number, yet the
constructor does not stop with "death is infinity". -/
theorem merge64_stops_at_tiny :
    (Double.fin false (1 / 2 ^ 1074)).Valid ∧ (0 : ℚ) < 1 / 2 ^ 1074 ∧
      merge64 (leaf 0) (leaf 1) 2 (Double.fin false (1 / 2 ^ 1074)) =
        Except.error "death is infinity" ∧
      recip (Double.fin true 0) = Double.inf true ∧
      merge64 (leaf 0) (leaf 1) 2 (Double.fin true 0) ≠ Except.error "death is infinity" := by
  refine ⟨⟨by norm_num, by norm_num, by decide!⟩, by norm_num, by decide!, by decide!, by decide!⟩

theorem merge64_stops_witness :
    (Double.fin false 3).Valid ∧
      (merge64 (node (fresh 1 0) nullptr nullptr) (node (fresh 1 1) nullptr nullptr) 2
          (Double.fin false 3) = Except.error "death is infinity" ↔
        ∃ m, Double.fin false 3 = Double.fin false m ∧ m ≤ 1 / 2 ^ 1024) ∧
      (∀ m, Double.fin false 3 = Double.fin false m → 1 / 2 ^ 1024 < m →
        ∃ mm l r, merge64 (node (fresh 1 0) nullptr nullptr) (node (fresh 1 1) nullptr nullptr) 2
            (Double.fin false 3) = Except.ok (node mm l r) ∧
          mm.lambda_death = fl (1 / m) ∧ 0 < mm.lambda_death ∧ mm.lambda_death < 2 ^ 1024) :=
  have hv : (Double.fin false 3).Valid := ⟨by norm_num, by norm_num, by decide!⟩
  ⟨hv, merge64_stops (fresh 1 0) (fresh 1 1) nullptr nullptr nullptr nullptr 2
    (Double.fin false 3) hv⟩

/-! ### Condensation in binary64 arithmetic -/

@[simp] theorem absorb64_sz (m ml : Members) : (absorb64 m ml).sz = m.sz := by
  unfold absorb64; split_ifs <;> rfl

theorem innerCondense64_node (minPts : Nat) (m ml mr : Members) (ll lr rl rr : HDCluster) :
    innerCondense64 minPts (node m (node ml ll lr) (node mr rl rr)) =
      if ml.sz < minPts then
        if mr.sz < minPts then
          Except.ok (node { absorb64 (absorb64 m ml) mr with rank := 0 } nullptr nullptr)
        else
          updateRank (node { absorb64 (absorb64 m ml) mr with
            lambda_death := max (absorb64 (absorb64 m ml) mr).lambda_death mr.lambda_death } rl rr)
      else Except.ok (node m (node ml ll lr) (node mr rl rr)) := by
  by_cases h1 : ml.sz < minPts
  · by_cases h2 : mr.sz < minPts
    · simp [innerCondense64, condenseTooSmall64, mergeUp64, swapChildren, resetRank, h1, h2, bind,
        Except.bind]
    · simp [innerCondense64, condenseTooSmall64, condenseSingleton64, mergeUp64, swapChildren, h1, h2,
        bind, Except.bind]
  · simp [innerCondense64, h1]

theorem condense64_node (minPts level : Nat) (m ml : Members) (ll lr r : HDCluster) :
    condense64 minPts level (node m (node ml ll lr) r) =
      (condense64 minPts (if level = 0 then level else level - 1) (node ml ll lr)).bind fun l1 =>
      (condense64 minPts (if level = 0 then level else level - 1) r).bind fun r1 =>
        innerCondense64 minPts (node m l1 r1) := by
  rw [condense64]
  simp [isNull, bind]

theorem condense64_leaf (minPts level : Nat) (m : Members) (r : HDCluster) :
    condense64 minPts level (node m nullptr r) = Except.ok (node m nullptr r) := by
  simp [condense64, isNull]

/-- The ids recorded by `mergeUp64` for a childless child are the points of that child. -/
theorem absorb64_ids_childless (m ml : Members) (h1 : ml.sz = 1 → ml.fallenPoints = []) :
    (absorb64 m ml).fallenPoints.map Prod.fst =
      m.fallenPoints.map Prod.fst ++ points (node ml nullptr nullptr) := by
  by_cases hs : ml.sz = 1
  · simp [absorb64, points, hs, h1 hs, isNull]
  · simp [absorb64, points, hs, isNull]

theorem absorb64_ids_big (m ml : Members) (hs : ml.sz ≠ 1) :
    (absorb64 m ml).fallenPoints.map Prod.fst =
      m.fallenPoints.map Prod.fst ++ ml.fallenPoints.map Prod.fst := by
  simp [absorb64, hs]

/-- What `condense64` does to a tree of the pre-condensation shape: it returns a
node of the same size that satisfies the postcondition and holds the same
points; a tree smaller than `minPts` collapses into a childless node. -/
theorem condense64_raw (minPts : Nat) : ∀ (t : HDCluster) (level : Nat), Raw t →
    ∃ m1 l1 r1, condense64 minPts level t = Except.ok (node m1 l1 r1) ∧ m1.sz = t.sz ∧
      Condensed minPts (node m1 l1 r1) ∧ (points (node m1 l1 r1)).Perm (leafIds t) ∧
      (t.sz < minPts → l1 = nullptr ∧ r1 = nullptr) ∧ (m1.sz = 1 → m1.fallenPoints = [])
  | nullptr, _, h => by simp [Raw] at h
  | node m l r, level, h => by
    rcases h with ⟨hfp, ⟨hl, hr, h1⟩ | ⟨hl, hr, hle, hs⟩⟩
    · subst hl hr
      refine ⟨m, nullptr, nullptr, condense64_leaf _ _ _ _, rfl, Or.inl ⟨rfl, rfl⟩, ?_, ?_, ?_⟩
      · simp [points, leafIds, isNull, h1, hfp]
      · intro _; exact ⟨rfl, rfl⟩
      · intro _; exact hfp
    · obtain ⟨ml, ll, lr, el, hsl, hcl, hpl, hsml, hol⟩ :=
        condense64_raw minPts l (if level = 0 then level else level - 1) hl
      obtain ⟨mr, rl, rr, er, hsr, hcr, hpr, hsmr, hor⟩ :=
        condense64_raw minPts r (if level = 0 then level else level - 1) hr
      have hlpos := hl.sz_pos
      have hrpos := hr.sz_pos
      have hids : leafIds (node m l r) = leafIds l ++ leafIds r := by
        cases l with
        | nullptr => simp [Raw] at hl
        | node _ _ _ => simp [leafIds, isNull]
      have hc : condense64 minPts level (node m l r) =
          innerCondense64 minPts (node m (node ml ll lr) (node mr rl rr)) := by
        cases l with
        | nullptr => simp [Raw] at hl
        | node _ _ _ => rw [condense64_node, el, er]; rfl
      rw [hc, innerCondense64_node, hids]
      simp only [sz_node] at hs ⊢
      by_cases c1 : ml.sz < minPts
      · obtain ⟨rfl, rfl⟩ := hsml (hsl ▸ c1)
        by_cases c2 : mr.sz < minPts
        · obtain ⟨rfl, rfl⟩ := hsmr (hsr ▸ c2)
          refine ⟨_, _, _, by rw [if_pos c1, if_pos c2], by simp, Or.inl ⟨rfl, rfl⟩, ?_, ?_, ?_⟩
          · rw [points_big _ _ _ (by simp; omega)]
            simp only [points, List.append_nil]
            rw [absorb64_ids_childless _ _ hor, absorb64_ids_childless _ _ hol, hfp]
            simpa using hpl.append hpr
          · intro _; exact ⟨rfl, rfl⟩
          · intro h; simp at h; omega
        · have hne : mr.sz ≠ 1 := by omega
          rcases hcr with ⟨rfl, rfl⟩ | ⟨hn1, hn2, hm1, hm2, hc1, hc2⟩
          · refine ⟨_, _, _, by rw [if_pos c1, if_neg c2]; rfl, by simp, Or.inl ⟨rfl, rfl⟩,
              ?_, ?_, ?_⟩
            · rw [points_big _ _ _ (by simp; omega)]
              simp only [points, List.append_nil]
              rw [absorb64_ids_big _ _ hne, absorb64_ids_childless _ _ hol, hfp]
              rw [points_big _ _ _ hne] at hpr
              simpa [points] using hpl.append hpr
            · intro h; omega
            · intro h; simp at h; omega
          · cases rl with
            | nullptr => exact absurd rfl hn1
            | node mrl rll rlr =>
              cases rr with
              | nullptr => exact absurd rfl hn2
              | node mrr rrl rrr =>
                refine ⟨_, _, _, by rw [if_pos c1, if_neg c2]; rfl, by simp,
                  Or.inr ⟨hn1, hn2, hm1, hm2, hc1, hc2⟩, ?_, ?_, ?_⟩
                · rw [points_big _ _ _ (by simp; omega)]
                  rw [points_big _ _ _ hne] at hpr
                  simp only [absorb64_ids_big _ _ hne, absorb64_ids_childless _ _ hol, hfp]
                  simpa [List.append_assoc] using hpl.append hpr
                · intro h; omega
                · intro h; simp at h; omega
      · refine ⟨_, _, _, by rw [if_neg c1], rfl, Or.inr ⟨by simp, by simp, ?_, ?_, hcl, hcr⟩,
          ?_, ?_, ?_⟩
        · simp only [sz_node]; omega
        · simp only [sz_node]; omega
        · rw [points_big _ _ _ (by omega), hfp]
          simpa using hpl.append hpr
        · intro h; omega
        · intro h; omega

theorem condense64_condensesTo (minPts : Nat) : ∀ (t : HDCluster) (level : Nat), Raw t →
    ∃ t1, condense64 minPts level t = Except.ok t1 ∧ CondensesTo64 minPts t t1
  | nullptr, _, h => by simp [Raw] at h
  | node m l r, level, h => by
    rcases h with ⟨hfp, ⟨hl, hr, h1⟩ | ⟨hl, hr, hle, hs⟩⟩
    · subst hl hr
      exact ⟨_, condense64_leaf _ _ _ _, CondensesTo64.leaf m h1 hfp⟩
    · obtain ⟨ml, ll, lr, el, hsl, _, _, hsml, _⟩ :=
        condense64_raw minPts l (if level = 0 then level else level - 1) hl
      obtain ⟨mr, rl, rr, er, hsr, hcr, _, hsmr, _⟩ :=
        condense64_raw minPts r (if level = 0 then level else level - 1) hr
      obtain ⟨l1, el1, cl⟩ :=
        condense64_condensesTo minPts l (if level = 0 then level else level - 1) hl
      obtain ⟨r1, er1, cr⟩ :=
        condense64_condensesTo minPts r (if level = 0 then level else level - 1) hr
      obtain rfl : l1 = node ml ll lr := Except.ok.inj (el1.symm.trans el)
      obtain rfl : r1 = node mr rl rr := Except.ok.inj (er1.symm.trans er)
      have hc : condense64 minPts level (node m l r) =
          innerCondense64 minPts (node m (node ml ll lr) (node mr rl rr)) := by
        cases l with
        | nullptr => simp [Raw] at hl
        | node _ _ _ => rw [condense64_node, el, er]; rfl
      rw [hc, innerCondense64_node]
      by_cases c1 : ml.sz < minPts
      · obtain ⟨rfl, rfl⟩ := hsml (hsl ▸ c1)
        rw [if_pos c1]
        by_cases c2 : mr.sz < minPts
        · obtain ⟨rfl, rfl⟩ := hsmr (hsr ▸ c2)
          rw [if_pos c2]
          exact ⟨_, rfl, CondensesTo64.foldBoth hfp hs cl cr c1 c2⟩
        · rw [if_neg c2]
          rcases hcr with ⟨rfl, rfl⟩ | ⟨hn1, hn2, _⟩
          · exact ⟨_, rfl, CondensesTo64.keep 0 hfp hs cl cr c1 (not_lt.mp c2)⟩
          · cases rl with
            | nullptr => exact absurd rfl hn1
            | node mrl rll rlr =>
              cases rr with
              | nullptr => exact absurd rfl hn2
              | node mrr rrl rrr =>
                exact ⟨_, rfl, CondensesTo64.keep _ hfp hs cl cr c1 (not_lt.mp c2)⟩
      · rw [if_neg c1]
        have h1 : minPts ≤ ml.sz := not_lt.mp c1
        refine ⟨_, rfl, CondensesTo64.unchanged hfp hs cl cr (by simp) (by simp) h1 ?_⟩
        simp only [sz_node]; omega

theorem CondensesTo64.sz_eq64 {minPts : Nat} {t t1 : HDCluster} (h : CondensesTo64 minPts t t1) :
    t1.sz = t.sz := by
  cases h <;> simp

theorem CondensesTo64.src_sz_pos64 {minPts : Nat} {t t1 : HDCluster} (h : CondensesTo64 minPts t t1) :
    1 ≤ t.sz := by
  induction h with
  | leaf m h1 _ => simp [h1]
  | foldBoth _ hs _ _ _ _ ihl _ => simp only [sz_node] at *; omega
  | keep _ _ hs _ _ _ _ ihl _ => simp only [sz_node] at *; omega
  | unchanged _ hs _ _ _ _ _ _ ihl _ => simp only [sz_node] at *; omega

/-- A result of size 1 is an untouched leaf. -/
theorem CondensesTo64.of_sz_one64 {minPts : Nat} {t : HDCluster} {m1 : Members} {l1 r1 : HDCluster}
    (h : CondensesTo64 minPts t (node m1 l1 r1)) (h1 : m1.sz = 1) :
    m1.fallenPoints = [] ∧ l1 = nullptr ∧ r1 = nullptr := by
  have hsz := h.sz_eq64
  cases h with
  | leaf _ _ hfp => exact ⟨hfp, rfl, rfl⟩
  | foldBoth _ hs cl cr _ _ =>
    have := cl.src_sz_pos64; have := cr.src_sz_pos64
    simp only [sz_node, absorb64_sz] at *; omega
  | keep _ _ hs cl cr _ _ =>
    have := cl.src_sz_pos64; have := cr.src_sz_pos64
    simp only [sz_node, absorb64_sz] at *; omega
  | unchanged _ hs cl cr _ _ _ _ =>
    have := cl.src_sz_pos64; have := cr.src_sz_pos64
    simp only [sz_node] at *; omega

theorem CondensesTo64.src_ne_null64 {minPts : Nat} {t t1 : HDCluster}
    (h : CondensesTo64 minPts t t1) : t ≠ nullptr := by
  cases h <;> simp

theorem CondensesTo64.res_sz_pos64 {minPts : Nat} {t : HDCluster} {m1 : Members}
    {l1 r1 : HDCluster} (h : CondensesTo64 minPts t (node m1 l1 r1)) : 1 ≤ m1.sz := by
  have h1 := h.src_sz_pos64
  have h2 := h.sz_eq64
  rw [sz_node] at h2
  omega

/-- The entries that `mergeUp64` records for a childless child are what the child holds. -/
theorem absorb64_held (m ml : Members) (h1 : ml.sz = 1 → ml.fallenPoints = []) :
    (absorb64 m ml).fallenPoints = m.fallenPoints ++ held (node ml nullptr nullptr) := by
  by_cases hs : ml.sz = 1
  · simp [absorb64, held, hs, h1 hs]
  · simp [absorb64, held, hs]

theorem absorb64_fallen_big (m mr : Members) (hs : mr.sz ≠ 1) :
    (absorb64 m mr).fallenPoints = m.fallenPoints ++ mr.fallenPoints := by
  simp [absorb64, hs]

/-- The condensed tree holds the leaves of the original tree, each with the
`lambda_birth` it had there. -/
theorem CondensesTo64.held_perm64 {minPts : Nat} {t t1 : HDCluster}
    (h : CondensesTo64 minPts t t1) : (held t1).Perm (leafBirths t) := by
  induction h with
  | leaf m h1 hfp => simp [held, leafBirths, h1, hfp]
  | @foldBoth m ml mr l r hfp hs cl cr _ _ ihl ihr =>
    have pl := cl.src_sz_pos64
    have pr := cr.src_sz_pos64
    rw [leafBirths_node _ _ cl.src_ne_null64, held_big _ _ _ (by simp; omega)]
    show ((absorb64 (absorb64 m ml) mr).fallenPoints ++ held nullptr ++ held nullptr).Perm _
    rw [absorb64_held _ _ fun h => (cr.of_sz_one64 h).1,
      absorb64_held _ _ fun h => (cl.of_sz_one64 h).1, hfp]
    simpa [held] using ihl.append ihr
  | @keep m ml mr l r rl rr rk hfp hs cl cr c1 c2 ihl ihr =>
    have pl := cl.src_sz_pos64
    have pr := cr.src_sz_pos64
    have hl1 := cl.res_sz_pos64
    have hne : mr.sz ≠ 1 := by omega
    rw [leafBirths_node _ _ cl.src_ne_null64, held_big _ _ _ (by simp; omega)]
    show ((absorb64 (absorb64 m ml) mr).fallenPoints ++ held rl ++ held rr).Perm _
    rw [absorb64_fallen_big _ _ hne, absorb64_held _ _ fun h => (cl.of_sz_one64 h).1, hfp]
    rw [held_big _ _ _ hne] at ihr
    simpa [List.append_assoc] using ihl.append ihr
  | @unchanged m l r l1 r1 hfp hs cl cr hn1 _ _ _ ihl ihr =>
    have pl := cl.src_sz_pos64
    have pr := cr.src_sz_pos64
    rw [leafBirths_node _ _ cl.src_ne_null64, held_big _ _ _ (by omega), hfp]
    simpa using ihl.append ihr

/-- A caterpillar condenses into a single childless node when `minPts ≥ 2`. -/
theorem CondensesTo64.caterpillar64 {minPts : Nat} {t t1 : HDCluster}
    (h : CondensesTo64 minPts t t1) (hc : Caterpillar t) (h2 : 2 ≤ minPts) :
    ∃ m1, t1 = node m1 nullptr nullptr := by
  induction h with
  | leaf m _ _ => exact ⟨_, rfl⟩
  | foldBoth _ _ _ _ _ _ _ _ => exact ⟨_, rfl⟩
  | @keep m ml mr l r rl rr rk _ _ cl cr _ _ _ ihr =>
    rcases hc with ⟨_, hr⟩ | ⟨_, _, hcr⟩
    · exact absurd hr cr.src_ne_null64
    · obtain ⟨m1, e⟩ := ihr hcr
      cases e
      exact ⟨_, rfl⟩
  | @unchanged m l r l1 r1 _ _ cl cr _ _ hb1 _ _ _ =>
    rcases hc with ⟨hl, _⟩ | ⟨hl1, _, _⟩
    · exact absurd hl cl.src_ne_null64
    · have := cl.sz_eq64
      omega

theorem BuiltWith64.built64 {t : HDCluster} {ps : List (Nat × ℚ)} (h : BuiltWith64 t ps) :
    Built64 t := by
  induction h with
  | leaf id => exact Built64.leaf id
  | merge id d _ _ hm iha ihb => exact Built64.merge id d iha ihb hm

/-- The node that the merge constructor builds when the quotient `1/d` is finite. -/
theorem merge64_fin (ma mb : Members) (la ra lb rb : HDCluster) (id : Nat) {d : Double}
    {s : Bool} {q : ℚ} (h : recip d = Double.fin s q) :
    merge64 (node ma la ra) (node mb lb rb) id d =
      Except.ok (if ma.sz < mb.sz then
        node { fresh (ma.sz + mb.sz) id with
            rank := max ma.rank mb.rank + 1, lambda_birth := 0, lambda_death := quot d }
          (adopt id (quot d) (node ma la ra)) (adopt id (quot d) (node mb lb rb))
      else
        node { fresh (ma.sz + mb.sz) id with
            rank := max ma.rank mb.rank + 1, lambda_birth := 0, lambda_death := quot d }
          (adopt id (quot d) (node mb lb rb)) (adopt id (quot d) (node ma la ra))) := by
  have e : quot d = if s then -q else q := by simp [quot, h]
  rw [e]
  simp only [merge64, h]
  by_cases hlt : ma.sz < mb.sz
  · rw [if_pos hlt, if_pos hlt]
  · rw [if_neg hlt, if_neg hlt]

/-- A successful merge had a finite quotient `1/d`. -/
theorem merge64_recip {a b n : HDCluster} {id : Nat} {d : Double}
    (h : merge64 a b id d = Except.ok n) :
    ∃ ma la ra mb lb rb s q, a = node ma la ra ∧ b = node mb lb rb ∧
      recip d = Double.fin s q := by
  cases a with
  | nullptr => simp [merge64] at h
  | node ma la ra =>
    cases b with
    | nullptr => simp [merge64] at h
    | node mb lb rb =>
      cases hq : recip d with
      | nan => simp [merge64, hq] at h
      | inf s => cases s <;> simp [merge64, hq] at h
      | fin s q => exact ⟨ma, la, ra, mb, lb, rb, s, q, rfl, rfl, rfl⟩

/-- The result of a successful merge, in terms of its arguments. -/
theorem merge64_ok {a b n : HDCluster} {id : Nat} {d : Double}
    (h : merge64 a b id d = Except.ok n) :
    a ≠ nullptr ∧ b ≠ nullptr ∧ (∃ s q, recip d = Double.fin s q) ∧
      ∃ m, m.parent = none ∧ m.sum_lambda_p = 0 ∧ m.fallenPoints = [] ∧
        m.selected = false ∧
        ((a.sz < b.sz ∧ n = node m (adopt id (quot d) a) (adopt id (quot d) b)) ∨
          (¬ a.sz < b.sz ∧ n = node m (adopt id (quot d) b) (adopt id (quot d) a))) := by
  obtain ⟨ma, la, ra, mb, lb, rb, s, q, rfl, rfl, hq⟩ := merge64_recip h
  rw [merge64_fin _ _ _ _ _ _ _ hq] at h
  have hn := Except.ok.inj h
  by_cases hlt : ma.sz < mb.sz
  · rw [if_pos hlt] at hn
    exact ⟨by simp, by simp, ⟨s, q, hq⟩, _, rfl, rfl, rfl, rfl, Or.inl ⟨hlt, hn.symm⟩⟩
  · rw [if_neg hlt] at hn
    exact ⟨by simp, by simp, ⟨s, q, hq⟩, _, rfl, rfl, rfl, rfl, Or.inr ⟨hlt, hn.symm⟩⟩

theorem merge64_sz {a b n : HDCluster} {id : Nat} {d : Double}
    (h : merge64 a b id d = Except.ok n) : n.sz = a.sz + b.sz := by
  obtain ⟨ma, la, ra, mb, lb, rb, s, q, rfl, rfl, hq⟩ := merge64_recip h
  rw [merge64_fin _ _ _ _ _ _ _ hq] at h
  rw [← Except.ok.inj h]
  split_ifs <;> rfl

theorem Built64.raw64 {t : HDCluster} (h : Built64 t) : Raw t := by
  induction h with
  | leaf id => simp [leaf, Raw, fresh]
  | @merge a b n id d _ _ hm iha ihb =>
    have hsz := merge64_sz hm
    obtain ⟨_, _, _, m, _, _, hfp, _, ⟨hlt, rfl⟩ | ⟨hlt, rfl⟩⟩ := merge64_ok hm
    · refine ⟨hfp, Or.inr ⟨iha.adopt _ _, ihb.adopt _ _, ?_, ?_⟩⟩
      · simp only [adopt_sz]; omega
      · simp only [adopt_sz, sz_node] at hsz ⊢; exact hsz
    · refine ⟨hfp, Or.inr ⟨ihb.adopt _ _, iha.adopt _ _, ?_, ?_⟩⟩
      · simp only [adopt_sz]; omega
      · simp only [adopt_sz, sz_node] at hsz ⊢; omega

theorem Built64.zeroSums64 {t : HDCluster} (h : Built64 t) : ZeroSums t := by
  induction h with
  | leaf id => exact ⟨rfl, trivial, trivial⟩
  | merge id d _ _ hm iha ihb =>
    obtain ⟨_, _, _, m, _, hs, _, _, ⟨_, rfl⟩ | ⟨_, rfl⟩⟩ := merge64_ok hm
    · exact ⟨hs, zeroSums_adopt _ _ iha, zeroSums_adopt _ _ ihb⟩
    · exact ⟨hs, zeroSums_adopt _ _ ihb, zeroSums_adopt _ _ iha⟩

/-- The childless nodes below an adopted child, with their `lambda_birth`. -/
theorem leafBirths_adopt64 {a : HDCluster} {pa : List (Nat × ℚ)} (id : Nat) (d : Double)
    (h : (a.childless = true → pa = []) ∧ (a.childless = false → (leafBirths a).Perm pa))
    (ha : a ≠ nullptr) :
    (leafBirths (adopt id (quot d) a)).Perm (pa ++ consumedLeaf64 a d) := by
  cases a with
  | nullptr => exact absurd rfl ha
  | node m l r =>
    by_cases hc : (node m l r).childless = true
    · have hc2 : (l.isNull && r.isNull) = true := hc
      rw [h.1 hc]
      simp [adopt, leafBirths, consumedLeaf64, hc, hc2]
    · have hc2 : ¬ (l.isNull && r.isNull) = true := hc
      have := h.2 (by simpa using hc)
      simpa [adopt, leafBirths, consumedLeaf64, hc, hc2] using this

theorem childless_merge64 {a b n : HDCluster} {id : Nat} {d : Double}
    (h : merge64 a b id d = Except.ok n) : n.childless = false := by
  obtain ⟨hna, hnb, _, m, _, _, _, _, ⟨_, rfl⟩ | ⟨_, rfl⟩⟩ := merge64_ok h
  · cases a with
    | nullptr => exact absurd rfl hna
    | node _ _ _ => rfl
  · cases b with
    | nullptr => exact absurd rfl hnb
    | node _ _ _ => rfl

theorem leafBirths_merge64 {a b n : HDCluster} {id : Nat} {d : Double}
    (h : merge64 a b id d = Except.ok n) :
    (leafBirths n).Perm
      (leafBirths (adopt id (quot d) a) ++ leafBirths (adopt id (quot d) b)) := by
  obtain ⟨hna, hnb, _, m, _, _, _, _, ⟨_, rfl⟩ | ⟨_, rfl⟩⟩ := merge64_ok h
  · rw [leafBirths_node]
    cases a with
    | nullptr => exact absurd rfl hna
    | node _ _ _ => simp [adopt]
  · rw [leafBirths_node]
    · exact List.perm_append_comm
    · cases b with
      | nullptr => exact absurd rfl hnb
      | node _ _ _ => simp [adopt]

theorem BuiltWith64.leafBirths64 {t : HDCluster} {ps : List (Nat × ℚ)} (h : BuiltWith64 t ps) :
    (t.childless = true → ps = []) ∧ (t.childless = false → (leafBirths t).Perm ps) := by
  induction h with
  | leaf id => exact ⟨fun _ => rfl, fun h => by cases (show true = false from h)⟩
  | @merge a b n pa pb id d ha hb hm iha ihb =>
    have hna := (merge64_ok hm).1
    have hnb := (merge64_ok hm).2.1
    refine ⟨fun hc => ?_, fun _ => ?_⟩
    · rw [childless_merge64 hm] at hc
      cases hc
    · refine (leafBirths_merge64 hm).trans ?_
      refine ((leafBirths_adopt64 id d iha hna).append (leafBirths_adopt64 id d ihb hnb)).trans ?_
      simp only [List.append_assoc]
      exact List.Perm.append_left _ (List.perm_append_comm_assoc _ _ _)

theorem merge64_left_sz {a b n : HDCluster} {id : Nat} {d : Double}
    (h : merge64 a b id d = Except.ok n) :
    ∃ m l r, n = node m l r ∧ l.sz = min a.sz b.sz ∧
      ((l = adopt id (quot d) a ∧ r = adopt id (quot d) b) ∨
        (l = adopt id (quot d) b ∧ r = adopt id (quot d) a)) := by
  obtain ⟨_, _, _, m, _, _, _, _, ⟨hlt, rfl⟩ | ⟨hlt, rfl⟩⟩ := merge64_ok h
  · exact ⟨_, _, _, rfl, by rw [adopt_sz]; omega, Or.inl ⟨rfl, rfl⟩⟩
  · exact ⟨_, _, _, rfl, by rw [adopt_sz]; omega, Or.inr ⟨rfl, rfl⟩⟩

/-- A chain is a tree built with the two constructors whose merged leaves are
the listed ones; each of its nodes with children has a leaf as left child. -/
theorem Chain64.facts64 {t : HDCluster} {ps : List (Nat × ℚ)} (h : Chain64 t ps) :
    (∃ qs, BuiltWith64 t qs ∧ qs.Perm ps) ∧ Caterpillar t ∧ 2 ≤ t.sz := by
  induction h with
  | @first i j id d n hm =>
    refine ⟨⟨_, BuiltWith64.merge id d (BuiltWith64.leaf i) (BuiltWith64.leaf j) hm, ?_⟩, ?_, ?_⟩
    · simp [consumedLeaf64, childless, leaf, fresh]
    · obtain ⟨m, l, r, rfl, hl, ⟨rfl, rfl⟩ | ⟨rfl, rfl⟩⟩ := merge64_left_sz hm
      · exact Or.inr ⟨hl, caterpillar_adopt _ _ (caterpillar_leaf i),
          caterpillar_adopt _ _ (caterpillar_leaf j)⟩
      · exact Or.inr ⟨hl, caterpillar_adopt _ _ (caterpillar_leaf j),
          caterpillar_adopt _ _ (caterpillar_leaf i)⟩
    · rw [merge64_sz hm, sz_leaf, sz_leaf]
  | @extend i id d c n ps hc hm ih =>
    obtain ⟨⟨qs, hb, hq⟩, hcat, hsz⟩ := ih
    have hcl : c.childless = false := by
      cases c with
      | nullptr => rfl
      | node mc lc rc =>
        rcases hb.built64.raw64 with ⟨_, ⟨_, _, h1⟩ | ⟨hl, _, _, _⟩⟩
        · simp only [sz_node] at hsz; omega
        · cases lc with
          | nullptr => simp [Raw] at hl
          | node _ _ _ => rfl
    have hcons : consumedLeaf64 c d = [] := by
      cases c with
      | nullptr => rfl
      | node mc lc rc => simp [consumedLeaf64, hcl]
    have hleaf : consumedLeaf64 (leaf i) d = [(i, quot d)] := by
      simp [consumedLeaf64, childless, leaf, fresh]
    rcases hm with hm | hm
    · refine ⟨⟨_, BuiltWith64.merge id d hb (BuiltWith64.leaf i) hm, ?_⟩, ?_, ?_⟩
      · rw [hcons, hleaf]
        simpa using (List.perm_append_comm.trans (List.Perm.cons _ hq))
      · obtain ⟨m, l, r, rfl, hl, ⟨rfl, rfl⟩ | ⟨rfl, rfl⟩⟩ := merge64_left_sz hm
        · rw [adopt_sz, sz_leaf] at hl; omega
        · rw [sz_leaf, Nat.min_eq_right (by omega)] at hl
          exact Or.inr ⟨hl, caterpillar_adopt _ _ (caterpillar_leaf i),
            caterpillar_adopt _ _ hcat⟩
      · rw [merge64_sz hm, sz_leaf]; omega
    · refine ⟨⟨_, BuiltWith64.merge id d (BuiltWith64.leaf i) hb hm, ?_⟩, ?_, ?_⟩
      · rw [hcons, hleaf]
        simpa using (List.perm_append_comm.trans (List.Perm.cons _ hq))
      · obtain ⟨m, l, r, rfl, hl, ⟨rfl, rfl⟩ | ⟨rfl, rfl⟩⟩ := merge64_left_sz hm
        · rw [sz_leaf, Nat.min_eq_left (by omega)] at hl
          exact Or.inr ⟨hl, caterpillar_adopt _ _ (caterpillar_leaf i),
            caterpillar_adopt _ _ hcat⟩
        · rw [adopt_sz, sz_leaf] at hl; omega
      · rw [merge64_sz hm, sz_leaf]; omega

/-- What `mergeUp` adds to `sum_lambda_p` in binary64 arithmetic is one more
rounded addition over the entries that it appends. -/
theorem absorb64_rsum (m ml : Members)
    (hm : RoundedSum (m.fallenPoints.map Prod.snd) m.sum_lambda_p)
    (hl : RoundedSum (ml.fallenPoints.map Prod.snd) ml.sum_lambda_p)
    (h1 : ml.sz = 1 → ml.fallenPoints = []) :
    RoundedSum ((absorb64 m ml).fallenPoints.map Prod.snd) (absorb64 m ml).sum_lambda_p := by
  by_cases hs : ml.sz = 1
  · have := RoundedSum.add hm (RoundedSum.one ml.lambda_birth)
    simpa [absorb64, hs, h1 hs] using this
  · have := RoundedSum.add hm hl
    simpa [absorb64, hs] using this

theorem CondensesTo64.rsumOK {minPts : Nat} {t t1 : HDCluster} (h : CondensesTo64 minPts t t1)
    (hz : ZeroSums t) : RSumOK t1 := by
  induction h with
  | leaf m _ hfp => exact ⟨by rw [hz.1, hfp]; exact RoundedSum.nil, trivial, trivial⟩
  | @foldBoth m ml mr l r hfp _ cl cr _ _ ihl ihr =>
    have sl := ihl hz.2.1
    have sr := ihr hz.2.2
    have hm : RoundedSum (m.fallenPoints.map Prod.snd) m.sum_lambda_p := by
      rw [hz.1, hfp]; exact RoundedSum.nil
    exact ⟨absorb64_rsum _ _ (absorb64_rsum _ _ hm sl.1 fun h => (cl.of_sz_one64 h).1) sr.1
      fun h => (cr.of_sz_one64 h).1, trivial, trivial⟩
  | @keep m ml mr l r rl rr rk hfp _ cl cr _ _ ihl ihr =>
    have sl := ihl hz.2.1
    have sr := ihr hz.2.2
    have hm : RoundedSum (m.fallenPoints.map Prod.snd) m.sum_lambda_p := by
      rw [hz.1, hfp]; exact RoundedSum.nil
    exact ⟨absorb64_rsum _ _ (absorb64_rsum _ _ hm sl.1 fun h => (cl.of_sz_one64 h).1) sr.1
      fun h => (cr.of_sz_one64 h).1, sr.2.1, sr.2.2⟩
  | unchanged hfp _ _ _ _ _ _ _ ihl ihr =>
    exact ⟨by rw [hz.1, hfp]; exact RoundedSum.nil, ihl hz.2.1, ihr hz.2.2⟩

/-- C14, amended: on a tree built with the two constructors in binary64
arithmetic, `condense` returns a tree in which the `sum_lambda_p` of every node is
a binary64 sum of the scales of the entries of its own `fallenPoints`: every scale
enters once, in the order of the list, and each addition of two partial sums is
rounded (the additions are grouped as the folds that brought the entries). -/
theorem condense64_sum_lambda_p (t : HDCluster) (minPts level : Nat) (h : Built64 t) :
    ∃ t1, condense64 minPts level t = Except.ok t1 ∧ RSumOK t1 := by
  obtain ⟨t1, e, c⟩ := condense64_condensesTo minPts t level h.raw64
  exact ⟨t1, e, c.rsumOK h.zeroSums64⟩

/-- A construction that did not end in `nullptr` succeeded. -/
theorem merge64_okOr {a b : HDCluster} {id : Nat} {d : Double}
    (h : okOr (merge64 a b id d) ≠ nullptr) :
    merge64 a b id d = Except.ok (okOr (merge64 a b id d)) := by
  cases e : merge64 a b id d with
  | ok t => rfl
  | error msg => rw [e] at h; exact absurd rfl h

theorem built64_pairs16 : Built64 pairs16 :=
  Built64.merge 6 (Double.fin false 6)
    (Built64.merge 4 (Double.fin false 1) (Built64.leaf 0) (Built64.leaf 1)
      (merge64_okOr (by decide!)))
    (Built64.merge 5 (Double.fin false 6) (Built64.leaf 2) (Built64.leaf 3)
      (merge64_okOr (by decide!)))
    (merge64_okOr (by decide!))

theorem condense64_sum_lambda_p_witness :
    Built64 pairs16 ∧ ∃ t1, condense64 3 0 pairs16 = Except.ok t1 ∧ RSumOK t1 :=
  ⟨built64_pairs16, condense64_sum_lambda_p pairs16 3 0 built64_pairs16⟩

/-- C14, counterexample: the pairs (0, 1) at distance 1 and (2, 3) at distance 6,
merged at distance 6 and condensed with `minPts = 3`, leave a root whose
`sum_lambda_p` is `5254199565265579 / 2^51`, which is not the sum of the scales
`[fl(1/6), fl(1/6), 1, 1]` of its `fallenPoints`: neither the exact sum, nor the
binary64 sum taken from the left, nor the one taken from the right. -/
theorem condense64_sum_rounds :
    Built64 pairs16 ∧
      condense64 3 0 pairs16 = Except.ok (node pairs16Members nullptr nullptr) ∧
      pairs16Members.sum_lambda_p ≠ (pairs16Members.fallenPoints.map Prod.snd).sum ∧
      pairs16Members.sum_lambda_p ≠ sumLeft (pairs16Members.fallenPoints.map Prod.snd) ∧
      pairs16Members.sum_lambda_p ≠ sumRight (pairs16Members.fallenPoints.map Prod.snd) :=
  ⟨built64_pairs16, by decide!, by decide!, by decide!, by decide!⟩

/-- C11, amended: a chain dendrogram with distinct leaf ids, built in binary64
arithmetic, condenses for `minPts ≥ 2` into its root alone: the root has no
children, its `fallenPoints` hold every leaf id exactly once, each with the
binary64 quotient `1/d` of the merge that consumed the leaf, and its
`sum_lambda_p` is a binary64 sum of these scales: every scale enters once, in the
order of the list, and each addition of two partial sums is rounded. -/
theorem condense64_chain (t : HDCluster) (ps : List (Nat × ℚ)) (minPts level : Nat)
    (h : Chain64 t ps) (hd : (ps.map Prod.fst).Nodup) (h2 : 2 ≤ minPts) :
    ∃ m1, condense64 minPts level t = Except.ok (node m1 nullptr nullptr) ∧
      m1.fallenPoints.Perm ps ∧ (m1.fallenPoints.map Prod.fst).Nodup ∧
      RoundedSum (m1.fallenPoints.map Prod.snd) m1.sum_lambda_p := by
  obtain ⟨⟨qs, hb, hq⟩, hcat, hsz⟩ := h.facts64
  obtain ⟨t1, e, c⟩ := condense64_condensesTo minPts t level hb.built64.raw64
  obtain ⟨m1, rfl⟩ := c.caterpillar64 hcat h2
  have hm1 : m1.sz ≠ 1 := by
    have := c.sz_eq64
    rw [sz_node] at this
    omega
  have hcl : t.childless = false := by
    cases t with
    | nullptr => rfl
    | node mc lc rc =>
      rcases hb.built64.raw64 with ⟨_, ⟨_, _, h1⟩ | ⟨hl, _, _, _⟩⟩
      · simp only [sz_node] at hsz; omega
      · cases lc with
        | nullptr => simp [Raw] at hl
        | node _ _ _ => rfl
  have hp : m1.fallenPoints.Perm ps := by
    have := c.held_perm64
    rw [held_big _ _ _ hm1] at this
    simp only [held, List.append_nil] at this
    exact (this.trans (hb.leafBirths64.2 hcl)).trans hq
  exact ⟨m1, e, hp, (hp.map Prod.fst).nodup_iff.mpr hd, (c.rsumOK hb.built64.zeroSums64).1⟩

theorem chain64_chain13 :
    Chain64 chain13 [(2, quot (Double.fin false 3)), (0, quot (Double.fin false 1)),
      (1, quot (Double.fin false 1))] :=
  Chain64.extend 2 4 (Double.fin false 3)
    (Chain64.first 0 1 3 (Double.fin false 1) (merge64_okOr (by decide!)))
    (Or.inl (merge64_okOr (by decide!)))

theorem condense64_chain_witness :
    Chain64 chain13 [(2, quot (Double.fin false 3)), (0, quot (Double.fin false 1)),
        (1, quot (Double.fin false 1))] ∧
      ∃ m1, condense64 2 0 chain13 = Except.ok (node m1 nullptr nullptr) ∧
        m1.fallenPoints.Perm [(2, quot (Double.fin false 3)), (0, quot (Double.fin false 1)),
          (1, quot (Double.fin false 1))] ∧
        (m1.fallenPoints.map Prod.fst).Nodup ∧
        RoundedSum (m1.fallenPoints.map Prod.snd) m1.sum_lambda_p :=
  ⟨chain64_chain13, condense64_chain chain13 _ 2 0 chain64_chain13 (by simp) (by omega)⟩

/-- C11, counterexample: the chain of the leaves 0 and 1 merged at distance 1 and
then with the leaf 2 at distance 3, condensed with `minPts = 2`, leaves a root
that holds the scales `[fl(1/3), 1, 1]` and whose `sum_lambda_p` is
`5254199565265579 / 2^51`: not `1/3 + 1 + 1`, not the exact sum of the scales
held, and not their binary64 sum taken in the order of the list. -/
theorem condense64_chain_rounds :
    Chain64 chain13 [(2, third), (0, 1), (1, 1)] ∧
      condense64 2 0 chain13 = Except.ok (node chain13Members nullptr nullptr) ∧
      chain13Members.sum_lambda_p ≠ 1 / 3 + 1 + 1 ∧
      chain13Members.sum_lambda_p ≠ (chain13Members.fallenPoints.map Prod.snd).sum ∧
      chain13Members.sum_lambda_p ≠ sumLeft (chain13Members.fallenPoints.map Prod.snd) := by
  refine ⟨?_, by decide!, by decide!, by decide!, by decide!⟩
  have h3 : quot (Double.fin false 3) = third := by decide!
  have h1 : quot (Double.fin false 1) = 1 := by decide!
  have := chain64_chain13
  rwa [h3, h1] at this

/-! ### Stability and selection in binary64 arithmetic -/

theorem determineStability64_leaf (minPts : Nat) (m : Members) (r : HDCluster) :
    determineStability64 minPts (node m nullptr r) =
      if m.sz < minPts ∧ m.parent.isSome then Except.error "Condense failed"
      else if minPts ≤ m.sz then
        Except.ok (node { m with stability := ownBase64 m, selected := true } nullptr r, ownBase64 m)
      else Except.ok (node { m with stability := ownBase64 m } nullptr r, ownBase64 m) := by
  simp [determineStability64, isNull, ownBase64]

theorem determineStability64_node (minPts : Nat) (m ml : Members) (ll lr r : HDCluster) :
    determineStability64 minPts (node m (node ml ll lr) r) =
      if m.sz < minPts ∧ m.parent.isSome then Except.error "Condense failed"
      else
        (determineStability64 minPts (node ml ll lr)).bind fun p =>
        (determineStability64 minPts r).bind fun q =>
          if fl (ownBase64 m + fl (m.lambda_death * ((p.1.sz + q.1.sz : Nat) : ℚ))) > fl (p.2 + q.2) then
            Except.ok (node { m with
                stability := fl (ownBase64 m + fl (m.lambda_death * ((p.1.sz + q.1.sz : Nat) : ℚ))),
                selected := true } (deselect p.1) (deselect q.1),
              fl (ownBase64 m + fl (m.lambda_death * ((p.1.sz + q.1.sz : Nat) : ℚ))))
          else Except.ok (node { m with stability := fl (p.2 + q.2) } p.1 q.1, fl (p.2 + q.2)) := by
  rw [determineStability64]
  simp only [isNull, ownBase64, bind]
  rfl

/-- A successful call on a node with a non-null `left`, taken apart. -/
theorem determineStability64_node_ok {minPts : Nat} {m ml : Members} {ll lr r t1 : HDCluster}
    {v : ℚ} (h : determineStability64 minPts (node m (node ml ll lr) r) = Except.ok (t1, v)) :
    ∃ l1 sl r1 sr, determineStability64 minPts (node ml ll lr) = Except.ok (l1, sl) ∧
      determineStability64 minPts r = Except.ok (r1, sr) ∧
      ¬ (m.sz < minPts ∧ m.parent.isSome) ∧
      (t1, v) =
        if fl (ownBase64 m + fl (m.lambda_death * ((l1.sz + r1.sz : Nat) : ℚ))) > fl (sl + sr) then
          (node { m with
              stability := fl (ownBase64 m + fl (m.lambda_death * ((l1.sz + r1.sz : Nat) : ℚ))),
              selected := true } (deselect l1) (deselect r1),
            fl (ownBase64 m + fl (m.lambda_death * ((l1.sz + r1.sz : Nat) : ℚ))))
        else (node { m with stability := fl (sl + sr) } l1 r1, fl (sl + sr)) := by
  rw [determineStability64_node] at h
  split_ifs at h with hg
  cases hl : determineStability64 minPts (node ml ll lr) with
  | error e => simp [hl, Except.bind] at h
  | ok p =>
    cases hr : determineStability64 minPts r with
    | error e => simp [hl, hr, Except.bind] at h
    | ok q =>
      obtain ⟨l1, sl⟩ := p
      obtain ⟨r1, sr⟩ := q
      refine ⟨l1, sl, r1, sr, rfl, rfl, hg, ?_⟩
      simp only [hl, hr, Except.bind] at h
      split_ifs at h with hc
      · rw [if_pos hc]; exact (Except.ok.inj h).symm
      · rw [if_neg hc]; exact (Except.ok.inj h).symm

/-- `determineStability64` returns a node of the same size. -/
theorem determineStability64_sz {minPts : Nat} : ∀ {t t1 : HDCluster} {v : ℚ},
    determineStability64 minPts t = Except.ok (t1, v) → t1 ≠ nullptr ∧ t1.sz = t.sz
  | nullptr, _, _, h => by simp [determineStability64] at h
  | node m nullptr r, t1, v, h => by
    rw [determineStability64_leaf] at h
    split_ifs at h <;> cases h <;> simp
  | node m (node ml ll lr) r, t1, v, h => by
    obtain ⟨l1, sl, r1, sr, _, _, _, e⟩ := determineStability64_node_ok h
    split_ifs at e <;> cases e <;> simp

theorem determineStability64_antichain_aux {minPts : Nat} : ∀ {t t1 : HDCluster} {v : ℚ},
    ZeroOrTwo t → NoneSelected t → determineStability64 minPts t = Except.ok (t1, v) →
    ZeroOrTwo t1 ∧ Antichain t1
  | nullptr, _, _, _, _, h => by simp [determineStability64] at h
  | node m nullptr r, t1, v, hz, hn, h => by
    rw [determineStability64_leaf] at h
    obtain ⟨_, _, hnr⟩ := hn
    split_ifs at h <;> cases h
    · exact ⟨hz, fun _ => ⟨trivial, hnr⟩, trivial, hnr.antichain⟩
    · exact ⟨hz, fun _ => ⟨trivial, hnr⟩, trivial, hnr.antichain⟩
  | node m (node ml ll lr) r, t1, v, hz, hn, h => by
    obtain ⟨l1, sl, r1, sr, el, er, _, e⟩ := determineStability64_node_ok h
    obtain ⟨hsel, hnl, hnr⟩ := hn
    rcases hz with ⟨h0, _⟩ | ⟨_, _, zl, zr⟩
    · cases h0
    obtain ⟨zl1, al1⟩ := determineStability64_antichain_aux zl hnl el
    obtain ⟨zr1, ar1⟩ := determineStability64_antichain_aux zr hnr er
    have nl1 := (determineStability64_sz el).1
    have nr1 := (determineStability64_sz er).1
    split_ifs at e <;> cases e
    · have dl := deselect_noneSelected zl1 al1
      have dr := deselect_noneSelected zr1 ar1
      exact ⟨Or.inr ⟨deselect_ne_null nl1, deselect_ne_null nr1, deselect_zeroOrTwo zl1,
        deselect_zeroOrTwo zr1⟩, fun _ => ⟨dl, dr⟩, dl.antichain, dr.antichain⟩
    · refine ⟨Or.inr ⟨nl1, nr1, zl1, zr1⟩, fun hs => ?_, al1, ar1⟩
      simp [hsel] at hs

theorem determineStability64_node_ne (minPts : Nat) (m : Members) {l : HDCluster} (r : HDCluster)
    (hl : l ≠ nullptr) :
    determineStability64 minPts (node m l r) =
      if m.sz < minPts ∧ m.parent.isSome then Except.error "Condense failed"
      else
        (determineStability64 minPts l).bind fun p =>
        (determineStability64 minPts r).bind fun q =>
          if fl (ownBase64 m + fl (m.lambda_death * ((p.1.sz + q.1.sz : Nat) : ℚ))) > fl (p.2 + q.2) then
            Except.ok (node { m with
                stability := fl (ownBase64 m + fl (m.lambda_death * ((p.1.sz + q.1.sz : Nat) : ℚ))),
                selected := true } (deselect p.1) (deselect q.1),
              fl (ownBase64 m + fl (m.lambda_death * ((p.1.sz + q.1.sz : Nat) : ℚ))))
          else Except.ok (node { m with stability := fl (p.2 + q.2) } p.1 q.1, fl (p.2 + q.2)) := by
  cases l with
  | nullptr => exact absurd rfl hl
  | node ml ll lr => exact determineStability64_node minPts m ml ll lr r

/-- The result of a call on a node with a non-null `left`, from the results of
the calls on the two children. -/
theorem determineStability64_node_eval {minPts : Nat} (m : Members) {l r l1 r1 : HDCluster}
    {sl sr : ℚ} (hl : l ≠ nullptr) (hg : ¬ (m.sz < minPts ∧ m.parent.isSome))
    (el : determineStability64 minPts l = Except.ok (l1, sl))
    (er : determineStability64 minPts r = Except.ok (r1, sr)) :
    determineStability64 minPts (node m l r) = Except.ok
      (if fl (ownBase64 m + fl (m.lambda_death * ((l1.sz + r1.sz : Nat) : ℚ))) > fl (sl + sr) then
        (node { m with
            stability := fl (ownBase64 m + fl (m.lambda_death * ((l1.sz + r1.sz : Nat) : ℚ))),
            selected := true } (deselect l1) (deselect r1),
          fl (ownBase64 m + fl (m.lambda_death * ((l1.sz + r1.sz : Nat) : ℚ))))
      else (node { m with stability := fl (sl + sr) } l1 r1, fl (sl + sr))) := by
  rw [determineStability64_node_ne _ _ _ hl, if_neg hg, el, er]
  simp only [Except.bind]
  split_ifs <;> rfl

theorem determineStability64_leaf_eval {minPts : Nat} (m : Members) (r : HDCluster)
    (hg : ¬ (m.sz < minPts ∧ m.parent.isSome)) :
    determineStability64 minPts (node m nullptr r) = Except.ok
      (if minPts ≤ m.sz then
        (node { m with stability := ownBase64 m, selected := true } nullptr r, ownBase64 m)
      else (node { m with stability := ownBase64 m } nullptr r, ownBase64 m)) := by
  rw [determineStability64_leaf, if_neg hg]
  split_ifs <;> rfl

/-- On a tree in which every node has zero or two children and `sz ≥ minPts`,
`determineStability64` completes without error. -/
theorem determineStability64_completes {minPts : Nat} : ∀ {t : HDCluster},
    t ≠ nullptr → ZeroOrTwo t → AllBig minPts t →
    ∃ t1 v, determineStability64 minPts t = Except.ok (t1, v)
  | nullptr, h, _, _ => absurd rfl h
  | node m l r, _, hz, hb => by
    obtain ⟨hm, hbl, hbr⟩ := hb
    have hg : ¬ (m.sz < minPts ∧ m.parent.isSome) := fun h => absurd h.1 (not_lt.mpr hm)
    rcases hz with ⟨rfl, rfl⟩ | ⟨hl, hr, zl, zr⟩
    · exact ⟨_, _, determineStability64_leaf_eval m nullptr hg⟩
    · obtain ⟨l1, sl, el⟩ := determineStability64_completes hl zl hbl
      obtain ⟨r1, sr, er⟩ := determineStability64_completes hr zr hbr
      exact ⟨_, _, determineStability64_node_eval m hl hg el er⟩

theorem fl_zero : fl 0 = 0 := by
  simp [fl, flAbs]

/-- Two trees that differ in flags and stability only have the same own scores. -/
theorem ownOf64_of_unflag {m1 m2 : Members} {l1 r1 l2 r2 : HDCluster}
    (h : unflag (node m2 l2 r2) = unflag (node m1 l1 r1)) :
    ownOf64 m2 l2 r2 = ownOf64 m1 l1 r1 ∧ unflag l2 = unflag l1 ∧ unflag r2 = unflag r1 := by
  simp only [unflag, node.injEq, Members.mk.injEq] at h
  obtain ⟨⟨_, _, _, _, _, e2, e3, e1, e4, _⟩, hl, hr⟩ := h
  have e5 : l2.sz = l1.sz := by rw [← unflag_sz l2, hl, unflag_sz]
  have e6 : r2.sz = r1.sz := by rw [← unflag_sz r2, hr, unflag_sz]
  have e7 : l2.isNull = l1.isNull := by rw [← unflag_isNull l2, hl, unflag_isNull]
  refine ⟨?_, hl, hr⟩
  simp only [ownOf64, ownScore64, ownBase64, e1, e2, e3, e4, e5, e6, e7]

/-- A cut of a node with children is the node itself, or a cut of the left
subtree together with a cut of the right subtree. -/
theorem cut_cases64 {m : Members} {l r : HDCluster} (hl : l ≠ nullptr)
    (hc : IsCut (node m l r)) :
    (m.selected = true ∧ cutScore64 (node m l r) = ownOf64 m l r) ∨
      (m.selected = false ∧ IsCut l ∧ IsCut r ∧
        cutScore64 (node m l r) = fl (cutScore64 l + cutScore64 r)) := by
  have hnl : l.isNull = false := by
    cases l with
    | nullptr => exact absurd rfl hl
    | node _ _ _ => rfl
  unfold IsCut at hc
  rw [pathFlags_node _ _ hl] at hc
  cases hm : m.selected with
  | true => exact Or.inl ⟨rfl, by simp [cutScore64, hm]⟩
  | false =>
    right
    refine ⟨rfl, fun p hp => ?_, fun p hp => ?_, by simp [cutScore64, hm, hnl]⟩
    · have := hc (m.selected :: p) (by simp; exact Or.inl hp)
      simpa [hm] using this
    · have := hc (m.selected :: p) (by simp; exact Or.inr hp)
      simpa [hm] using this

theorem determineStability64_cut_aux {minPts : Nat} : ∀ {t t1 : HDCluster} {v : ℚ},
    ZeroOrTwo t → NoneSelected t → LeavesBig minPts t →
    determineStability64 minPts t = Except.ok (t1, v) →
    IsCut t1 ∧ cutScore64 t1 = v ∧
      ∀ t2, unflag t2 = unflag t1 → IsCut t2 → cutScore64 t2 ≤ v
  | nullptr, _, _, _, _, _, h => by simp [determineStability64] at h
  | node m nullptr r, t1, v, hz, hn, hb, h => by
    rcases hz with ⟨_, rfl⟩ | ⟨h0, _⟩
    · rw [determineStability64_leaf] at h
      have hm : minPts ≤ m.sz := hb.1 rfl rfl
      split_ifs at h with hg
      cases h
      refine ⟨isCut_selected rfl trivial trivial, by simp [cutScore64, ownOf64, ownBase64],
        fun t2 h2 c2 => ?_⟩
      cases t2 with
      | nullptr => simp [unflag] at h2
      | node m2 l2 r2 =>
        obtain ⟨ho, hl2, hr2⟩ := ownOf64_of_unflag h2
        have el2 : l2 = nullptr := (unflag_null_iff l2).mp hl2
        have er2 : r2 = nullptr := (unflag_null_iff r2).mp hr2
        subst el2 er2
        have hsel : m2.selected = true := by
          have := c2 [m2.selected] (by simp [pathFlags])
          cases hm2 : m2.selected with
          | true => rfl
          | false => simp [hm2] at this
        have e : cutScore64 (node m2 nullptr nullptr) = ownOf64 m2 nullptr nullptr := by
          simp [cutScore64, hsel]
        rw [e, ho]
        simp [ownOf64, ownBase64]
    · exact absurd rfl h0
  | node m (node ml ll lr) r, t1, v, hz, hn, hb, h => by
    obtain ⟨l1, sl, r1, sr, el, er, _, e⟩ := determineStability64_node_ok h
    obtain ⟨hsel, hnl, hnr⟩ := hn
    rcases hz with ⟨h0, _⟩ | ⟨_, _, zl, zr⟩
    · cases h0
    obtain ⟨cl, scl, optl⟩ := determineStability64_cut_aux zl hnl hb.2.1 el
    obtain ⟨cr, scr, optr⟩ := determineStability64_cut_aux zr hnr hb.2.2 er
    obtain ⟨zl1, al1⟩ := determineStability64_antichain_aux zl hnl el
    obtain ⟨zr1, ar1⟩ := determineStability64_antichain_aux zr hnr er
    have nl1 := (determineStability64_sz el).1
    have nr1 := (determineStability64_sz er).1
    -- what any other cut of the result scores
    have other : ∀ (m1 : Members) (la ra : HDCluster), unflag la = unflag l1 →
        unflag ra = unflag r1 → la ≠ nullptr → ra ≠ nullptr → ZeroOrTwo la → ZeroOrTwo ra →
        ∀ t2, unflag t2 = unflag (node m1 la ra) → IsCut t2 →
          cutScore64 t2 = ownOf64 m1 la ra ∨ cutScore64 t2 ≤ fl (sl + sr) := by
      intro m1 la ra hla hra nla nra zla zra t2 h2 c2
      cases t2 with
      | nullptr => simp [unflag] at h2
      | node m2 l2 r2 =>
        obtain ⟨ho, hl2, hr2⟩ := ownOf64_of_unflag h2
        have nl2 : l2 ≠ nullptr := fun h0 => nla ((unflag_null_iff la).mp (by
          rw [← hl2, h0]; rfl))
        have nr2 : r2 ≠ nullptr := fun h0 => nra ((unflag_null_iff ra).mp (by
          rw [← hr2, h0]; rfl))
        have z2 : ZeroOrTwo (node m2 l2 r2) := Or.inr ⟨nl2, nr2,
          (zeroOrTwo_unflag l2).mp (by rw [hl2]; exact (zeroOrTwo_unflag la).mpr zla),
          (zeroOrTwo_unflag r2).mp (by rw [hr2]; exact (zeroOrTwo_unflag ra).mpr zra)⟩
        rcases cut_cases64 nl2 c2 with ⟨_, hs⟩ | ⟨_, c2l, c2r, hs⟩
        · left; rw [hs, ho]
        · right
          rw [hs]
          exact fl_mono (add_le_add (optl l2 (hl2.trans hla) c2l) (optr r2 (hr2.trans hra) c2r))
    split_ifs at e with hc <;> cases e
    · have dl := deselect_noneSelected zl1 al1
      have dr := deselect_noneSelected zr1 ar1
      have hown : ownOf64 { m with
            stability := fl (ownBase64 m + fl (m.lambda_death * ((l1.sz + r1.sz : Nat) : ℚ))),
            selected := true } (deselect l1) (deselect r1) =
          fl (ownBase64 m + fl (m.lambda_death * ((l1.sz + r1.sz : Nat) : ℚ))) := by
        have : (deselect l1).isNull = false := by
          have := deselect_ne_null nl1
          cases hd : deselect l1 with
          | nullptr => exact absurd hd this
          | node _ _ _ => rfl
        simp [ownOf64, ownScore64, ownBase64, this]
      refine ⟨isCut_selected rfl dl dr, ?_, fun t2 h2 c2 => ?_⟩
      · simp only [cutScore64, if_true, hown, dl.paths.2, dr.paths.2, add_zero]
      · rcases other _ _ _ (unflag_deselect l1) (unflag_deselect r1) (deselect_ne_null nl1)
          (deselect_ne_null nr1) (deselect_zeroOrTwo zl1) (deselect_zeroOrTwo zr1) t2 h2 c2
          with h3 | h3
        · rw [h3, hown]
        · linarith
    · have hnull : l1.isNull = false := by
        cases l1 with
        | nullptr => exact absurd rfl nl1
        | node _ _ _ => rfl
      have hown : ownOf64 { m with stability := fl (sl + sr) } l1 r1 =
          fl (ownBase64 m + fl (m.lambda_death * ((l1.sz + r1.sz : Nat) : ℚ))) := by
        simp [ownOf64, ownScore64, ownBase64, hnull]
      refine ⟨isCut_unselected hsel nl1 cl cr, ?_, fun t2 h2 c2 => ?_⟩
      · simp [cutScore64, hsel, scl, scr, hnull]
      · rcases other _ _ _ rfl rfl nl1 nr1 zl1 zr1 t2 h2 c2 with h3 | h3
        · rw [h3, hown]
          exact not_lt.mp hc
        · exact h3

/-- C4, amended: a completed call of `determineStability` on a node with two
children returns the value it stores as `stability`, which is `max(own, S)` where,
in binary64 arithmetic with every operation rounded, `S = L + R` for the values
`L`, `R` returned by the children and
`own = (sum_lambda_p - lambda_birth * |fallenPoints|) + lambda_death * (left.sz + right.sz)`;
when `own > S` the node is marked selected and both child subtrees are
deselected, when `own ≤ S` the flag is left as it was, the children stay as the
recursive calls left them and the stability is `S`.  On a childless node the
value is the binary64 value of `sum_lambda_p - lambda_birth * |fallenPoints|` and
`selected` is set to true exactly when `sz ≥ minPts`. -/
theorem determineStability64_value (minPts : Nat) (m : Members) (l r t1 : HDCluster) (v : ℚ)
    (h : determineStability64 minPts (node m l r) = Except.ok (t1, v)) :
    (l ≠ nullptr → r ≠ nullptr →
      ∃ l1 L r1 R, determineStability64 minPts l = Except.ok (l1, L) ∧
        determineStability64 minPts r = Except.ok (r1, R) ∧
        v = max (ownScore64 m l r) (fl (L + R)) ∧
        ((ownScore64 m l r > fl (L + R) ∧
            t1 = node { m with stability := v, selected := true } (deselect l1) (deselect r1)) ∨
          (ownScore64 m l r ≤ fl (L + R) ∧ v = fl (L + R) ∧
            t1 = node { m with stability := v } l1 r1))) ∧
    (l = nullptr → r = nullptr →
      v = ownBase64 m ∧
        t1 = node { m with stability := v, selected := m.selected || decide (minPts ≤ m.sz) }
          nullptr nullptr) := by
  constructor
  · intro hl _
    cases l with
    | nullptr => exact absurd rfl hl
    | node ml ll lr =>
      obtain ⟨l1, sl, r1, sr, el, er, _, e⟩ := determineStability64_node_ok h
      have hs : ownScore64 m (node ml ll lr) r =
          fl (ownBase64 m + fl (m.lambda_death * ((l1.sz + r1.sz : Nat) : ℚ))) := by
        rw [ownScore64, (determineStability64_sz el).2, (determineStability64_sz er).2]
      refine ⟨l1, sl, r1, sr, el, er, ?_⟩
      rw [hs]
      split_ifs at e with hc <;> cases e
      · exact ⟨(max_eq_left hc.le).symm, Or.inl ⟨hc, rfl⟩⟩
      · exact ⟨(max_eq_right (not_lt.mp hc)).symm, Or.inr ⟨not_lt.mp hc, rfl, rfl⟩⟩
  · rintro rfl rfl
    rw [determineStability64_leaf] at h
    split_ifs at h with hg hp <;> cases h
    · simp [hp]
    · simp [hp]

theorem built64_sixLeaves : Built64 sixLeaves :=
  Built64.merge 10 (Double.fin false 8)
    (Built64.merge 8 (Double.fin false 8)
      (Built64.merge 6 (Double.fin false 3) (Built64.leaf 0) (Built64.leaf 1)
        (merge64_okOr (by decide!)))
      (Built64.merge 7 (Double.fin false 4) (Built64.leaf 2) (Built64.leaf 3)
        (merge64_okOr (by decide!)))
      (merge64_okOr (by decide!)))
    (Built64.merge 9 (Double.fin false 6) (Built64.leaf 4) (Built64.leaf 5)
      (merge64_okOr (by decide!)))
    (merge64_okOr (by decide!))

theorem condense64_sixLeaves :
    condense64 2 0 sixLeaves = Except.ok (node sixRoot sixLeft sixRight) := by decide!

theorem run64_sixLeft :
    determineStability64 2 sixLeft = Except.ok (sixLeftDone, third - 1 / 4) := by decide!

theorem run64_sixRight :
    determineStability64 2 sixRight = Except.ok (sixRightDone, 2 * third) := by decide!

theorem run64_six :
    determineStability64 2 (node sixRoot sixLeft sixRight) =
      Except.ok (node { sixRoot with stability := 3 / 4 } sixLeftDone sixRightDone, 3 / 4) := by
  decide!

theorem determineStability64_value_witness :
    determineStability64 2 (node sixRoot sixLeft sixRight) =
        Except.ok (node { sixRoot with stability := 3 / 4 } sixLeftDone sixRightDone, 3 / 4) ∧
      ∃ l1 L r1 R, determineStability64 2 sixLeft = Except.ok (l1, L) ∧
        determineStability64 2 sixRight = Except.ok (r1, R) ∧
        (3 / 4 : ℚ) = max (ownScore64 sixRoot sixLeft sixRight) (fl (L + R)) ∧
        ((ownScore64 sixRoot sixLeft sixRight > fl (L + R) ∧
            node { sixRoot with stability := 3 / 4 } sixLeftDone sixRightDone =
              node { sixRoot with stability := 3 / 4, selected := true }
                (deselect l1) (deselect r1)) ∨
          (ownScore64 sixRoot sixLeft sixRight ≤ fl (L + R) ∧ (3 / 4 : ℚ) = fl (L + R) ∧
            node { sixRoot with stability := 3 / 4 } sixLeftDone sixRightDone =
              node { sixRoot with stability := 3 / 4 } l1 r1)) :=
  ⟨run64_six,
    (determineStability64_value 2 sixRoot sixLeft sixRight
      (node { sixRoot with stability := 3 / 4 } sixLeftDone sixRightDone) (3 / 4)
      run64_six).1 (by simp [sixLeft]) (by simp [sixRight])⟩

/-- C4, counterexample: in the tree that `condense(2)` makes of `sixLeaves`, the
calls on the children of the root return `L = fl(1/3) - 1/4` and
`R = 2 * fl(1/3)`, whose sum is `3/4 - 2^(-54)`, and the root has
`own = 0 - 0 * 0 + (1/8) * 6 = 3/4 > L + R`; yet `determineStability(2)` does not
mark the root selected and stores `3/4`, which is not `L + R`: the sum that the
code compares with is rounded to `3/4`. -/
theorem determineStability64_rounds :
    Built64 sixLeaves ∧
      condense64 2 0 sixLeaves = Except.ok (node sixRoot sixLeft sixRight) ∧
      determineStability64 2 sixLeft = Except.ok (sixLeftDone, third - 1 / 4) ∧
      determineStability64 2 sixRight = Except.ok (sixRightDone, 2 * third) ∧
      determineStability64 2 (node sixRoot sixLeft sixRight) =
        Except.ok (node { sixRoot with stability := 3 / 4 } sixLeftDone sixRightDone, 3 / 4) ∧
      ownScore sixRoot sixLeft sixRight = 3 / 4 ∧
      (third - 1 / 4) + 2 * third = 3 / 4 - 1 / 2 ^ 54 ∧
      ownScore sixRoot sixLeft sixRight > (third - 1 / 4) + 2 * third ∧
      sixRoot.selected = false ∧ (3 / 4 : ℚ) ≠ (third - 1 / 4) + 2 * third :=
  ⟨built64_sixLeaves, condense64_sixLeaves, run64_sixLeft, run64_sixRight, run64_six,
    by decide!, by decide!, by decide!, rfl, by decide!⟩

/-- On a tree in which each node has zero or two children and `sz ≥ minPts`,
`determineStability` in binary64 arithmetic completes. -/
theorem determineStability64_total {minPts : Nat} {t : HDCluster} (ht : t ≠ nullptr)
    (hz : ZeroOrTwo t) (hb : LeavesBig minPts t) (hs : SzMonotone t) :
    ∃ t1 v, determineStability64 minPts t = Except.ok (t1, v) :=
  determineStability64_completes ht hz (allBig_of_leavesBig hz hb hs)

/-- C17, amended: on a tree in which each node has zero or two children and is at
least as big as its children (as the constructors and `condense` leave it), with
no node selected and every childless node of `sz ≥ minPts`, `determineStability`
completes, the selected nodes then form a cut of the tree, the value returned is
the total own score of the selected nodes in binary64 arithmetic (the own scores
are computed with every operation rounded, and the total is added up along the
tree, each node above the cut adding the totals of its two subtrees with
rounding), and no other cut of the tree has a larger total computed in this way. -/
theorem determineStability64_optimal_cut (minPts : Nat) (m : Members) (l r : HDCluster)
    (hz : ZeroOrTwo (node m l r)) (hn : NoneSelected (node m l r))
    (hb : LeavesBig minPts (node m l r)) (hs : SzMonotone (node m l r)) :
    ∃ t1 v, determineStability64 minPts (node m l r) = Except.ok (t1, v) ∧
      IsCut t1 ∧ v = cutScore64 t1 ∧
      ∀ t2, unflag t2 = unflag t1 → IsCut t2 → cutScore64 t2 ≤ v := by
  obtain ⟨t1, v, h⟩ := determineStability64_total (by simp) hz hb hs
  obtain ⟨h1, h2, h3⟩ := determineStability64_cut_aux hz hn hb h
  exact ⟨t1, v, h, h1, h2.symm, h3⟩

theorem determineStability64_optimal_cut_witness :
    ZeroOrTwo (node sixRoot sixLeft sixRight) ∧ NoneSelected (node sixRoot sixLeft sixRight) ∧
      LeavesBig 2 (node sixRoot sixLeft sixRight) ∧
      SzMonotone (node sixRoot sixLeft sixRight) ∧
      ∃ t1 v, determineStability64 2 (node sixRoot sixLeft sixRight) = Except.ok (t1, v) ∧
        IsCut t1 ∧ v = cutScore64 t1 ∧
        ∀ t2, unflag t2 = unflag t1 → IsCut t2 → cutScore64 t2 ≤ v :=
  have hz : ZeroOrTwo (node sixRoot sixLeft sixRight) := by
    simp [ZeroOrTwo, sixLeft, sixRight]
  have hn : NoneSelected (node sixRoot sixLeft sixRight) := by
    simp [NoneSelected, sixRoot, sixLeft, sixRight, fresh]
  have hb : LeavesBig 2 (node sixRoot sixLeft sixRight) := by
    simp [LeavesBig, sixLeft, sixRight]
  have hs : SzMonotone (node sixRoot sixLeft sixRight) := by
    simp [SzMonotone, sixRoot, sixLeft, sixRight, fresh]
  ⟨hz, hn, hb, hs, determineStability64_optimal_cut 2 sixRoot sixLeft sixRight hz hn hb hs⟩

/-- C17, counterexample: on the tree that `condense(2)` makes of `sixLeaves`
(zero or two children at each node, no node selected, childless nodes of
`sz = 2`), `determineStability(2)` returns `3/4` and selects the three childless
nodes, whose own scores `fl(1/3) - 1/4`, `1/4` and `2 * fl(1/3) - 1/4` add up to
`3/4 - 2^(-54)`: the value returned is not the sum of the own scores of the
selected nodes, and the cut that consists of the root alone has the larger total
own score `(1/8) * 6 = 3/4`. -/
theorem determineStability64_cut_rounds :
    Built64 sixLeaves ∧
      condense64 2 0 sixLeaves = Except.ok (node sixRoot sixLeft sixRight) ∧
      ZeroOrTwo (node sixRoot sixLeft sixRight) ∧ NoneSelected (node sixRoot sixLeft sixRight) ∧
      LeavesBig 2 (node sixRoot sixLeft sixRight) ∧
      determineStability64 2 (node sixRoot sixLeft sixRight) =
        Except.ok (node { sixRoot with stability := 3 / 4 } sixLeftDone sixRightDone, 3 / 4) ∧
      IsCut (node { sixRoot with stability := 3 / 4 } sixLeftDone sixRightDone) ∧
      selectedScore (node { sixRoot with stability := 3 / 4 } sixLeftDone sixRightDone) =
        3 / 4 - 1 / 2 ^ 54 ∧
      unflag sixRootOnly =
        unflag (node { sixRoot with stability := 3 / 4 } sixLeftDone sixRightDone) ∧
      IsCut sixRootOnly ∧ selectedScore sixRootOnly = 3 / 4 := by
  refine ⟨built64_sixLeaves, condense64_sixLeaves, ?_, ?_, ?_, run64_six, ?_, ?_, ?_, ?_, ?_⟩
  · simp [ZeroOrTwo, sixLeft, sixRight]
  · simp [NoneSelected, sixRoot, sixLeft, sixRight, fresh]
  · simp [LeavesBig, sixLeft, sixRight]
  · unfold IsCut; decide!
  · decide!
  · decide!
  · unfold IsCut; decide!
  · decide!

end HDCluster
